import Mathlib

/-!
# Yave ECS core: entity pool, group membership and group queries

A shallow embedding of `yave/ecs/EntityPool.cpp`, `y/ecs/EntityIDPool.cpp`,
`yave/ecs/traits.h`, `yave/ecs2/EntityGroup.h`, `yave/ecs2/EntityWorld.h`,
`yave/ecs2/EntityWorld.cpp` and of the search methods of `n/core/String.cpp`.

Conventions of the embedding:
* `core::Vector<T>` is a `List T`; `v << x` appends at the back, `v.pop()` removes and
  returns the last element, `v.set_min_size(n)` pads with default values up to length `n`.
* `u32` and `u8` values are natural numbers; a cast or an increment that can wrap is written
  with an explicit `%`.
* `y_debug_assert(c)` makes the operation fail (`none`) when `c` is false.
-/

namespace yave

/-- Number of values of a `u32`. -/
def u32_range : Nat := 4294967296

/-- Number of values of a `u8`. -/
def u8_range : Nat := 256

/-- Number of values of a `usize`. -/
def usize_range : Nat := 18446744073709551616

/-- The reserved index `u32(-1)` carried by an id that is not valid. -/
def invalid_index : Nat := 4294967295

/-- Modelled from the spec: the `EntityId` value type, whose header is not among the sources.
An id is an index plus a generation. The index is a `u32` (as the casts in `EntityPool.cpp`
show); an id that is not valid carries the reserved index `invalid_index`. -/
structure EntityId where
  index : Nat
  version : Nat
deriving DecidableEq, Repr

namespace EntityId

/-- Modelled from the spec: `EntityId()`, the default id, which is not valid. -/
def null : EntityId := ⟨invalid_index, 0⟩

/-- Modelled from the spec: `EntityId(u32 index)`, a first-generation id for `index`. -/
def from_index (index : Nat) : EntityId := ⟨index, 0⟩

/-- Modelled from the spec: `EntityId::is_valid`. -/
def is_valid (id : EntityId) : Bool := id.index != invalid_index

/-- Modelled from the spec: `EntityId::invalidate`, which drops the index and keeps the
generation. -/
def invalidate (id : EntityId) : EntityId := ⟨invalid_index, id.version⟩

/-- Modelled from the spec: `EntityId::make_valid(index)`, which sets the index and bumps the
generation (a `u32` counter). -/
def make_valid (id : EntityId) (index : Nat) : EntityId :=
  ⟨index, (id.version + 1) % u32_range⟩

end EntityId

/-- The helper `core::Vector::set_min_size`: pad with `d` up to length `n`. -/
def set_min_size {α : Type} (d : α) (v : List α) (n : Nat) : List α :=
  v ++ List.replicate (n - v.length) d

/-- The fields of `EntityPool`. -/
structure EntityPool where
  _ids : List EntityId
  _free : List Nat
  _parents : List EntityId
deriving DecidableEq, Repr

/-- The method `EntityPool::exists`. -/
def EntityPool.exists (p : EntityPool) (id : EntityId) : Bool :=
  id.is_valid && decide (id.index < p._ids.length) &&
    (p._ids.getD id.index EntityId.null == id)

namespace EntityPool

/-- A default-constructed pool. -/
def empty : EntityPool := ⟨[], [], []⟩

/-- The method `EntityPool::size`: `_ids.size() - _free.size()` on `usize`. -/
def size (p : EntityPool) : Nat :=
  (p._ids.length + usize_range - p._free.length % usize_range) % usize_range

/-- The method `EntityPool::id_from_index`. -/
def id_from_index (p : EntityPool) (index : Nat) : EntityId :=
  if index ≥ p._ids.length || !(p._ids.getD index EntityId.null).is_valid then
    EntityId.null
  else
    p._ids.getD index EntityId.null

/-- The lambda inside `EntityPool::create`: the new id together with the updated `_ids`
and `_free`. -/
def create_id (p : EntityPool) : EntityId × List EntityId × List Nat :=
  if p._free.isEmpty then
    let index := p._ids.length
    let ids := p._ids ++ [EntityId.from_index (index % u32_range)]
    (ids.getLastD EntityId.null, ids, p._free)
  else
    let index := p._free.getLastD 0
    let free := p._free.dropLast
    let ids := p._ids.set index ((p._ids.getD index EntityId.null).make_valid index)
    (ids.getD index EntityId.null, ids, free)

/-- The method `EntityPool::create`: the returned id and the pool afterwards. -/
def create (p : EntityPool) : EntityId × EntityPool :=
  let r := create_id p
  let id := r.1
  let parents := set_min_size EntityId.null p._parents ((id.index + 1) % u32_range)
  (id, ⟨r.2.1, r.2.2, parents.set id.index EntityId.null⟩)

/-- The method `EntityPool::recycle`; `none` when the assertion `exists(id)` fails. -/
def recycle (p : EntityPool) (id : EntityId) : Option EntityPool :=
  if p.exists id then
    some ⟨p._ids.set id.index ((p._ids.getD id.index EntityId.null).invalidate),
          p._free ++ [id.index], p._parents⟩
  else
    none

/-- The method `EntityPool::parent`. -/
def parent (p : EntityPool) (id : EntityId) : EntityId :=
  if id.index < p._parents.length then p._parents.getD id.index EntityId.null
  else EntityId.null

/-- The method `EntityPool::set_parent`; `none` when the assertion `exists(id)` fails. -/
def set_parent (p : EntityPool) (id parent_id : EntityId) : Option EntityPool :=
  if p.exists id then
    some ⟨p._ids, p._free,
          (set_min_size EntityId.null p._parents ((id.index + 1) % u32_range)).set
            id.index parent_id⟩
  else
    none

/-- A call made on the pool. -/
inductive Op where
  | create : Op
  | recycle : EntityId → Op
deriving DecidableEq, Repr

/-- What a call did: the id that `create` returned, or the id that was recycled. -/
inductive Event where
  | created : EntityId → Event
  | recycled : EntityId → Event
deriving DecidableEq, Repr

/-- One call; `none` when the call fails its assertion. -/
def step (p : EntityPool) : Op → Option (EntityPool × Event)
  | Op.create => some ((create p).2, Event.created (create p).1)
  | Op.recycle id => (recycle p id).map fun q => (q, Event.recycled id)

/-- A sequence of calls, first call first; the events are collected most recent first. -/
def run : EntityPool × List Event → List Op → Option (EntityPool × List Event)
  | s, [] => some s
  | s, op :: ops =>
    match step s.1 op with
    | none => none
    | some (q, e) => run (q, e :: s.2) ops

/-- The history reading of liveness, on the events most recent first: walking back in time,
`id` is live when the first event about it is the `create` that produced its index and
returned exactly `id`, and it is not live when a recycle of `id` comes first or when no create
produced its index. -/
def live_in_history : List Event → EntityId → Bool
  | [], _ => false
  | Event.created x :: rest, id =>
    if x.index = id.index then decide (x = id) else live_in_history rest id
  | Event.recycled x :: rest, id =>
    if x = id then false else live_in_history rest id

/-- The pool states that `create` and `recycle` calls produce from the empty pool. -/
inductive Reachable : EntityPool → Prop where
  | empty : Reachable EntityPool.empty
  | create (p : EntityPool) : Reachable p → Reachable (create p).2
  | recycle (p q : EntityPool) (id : EntityId) :
      Reachable p → recycle p id = some q → Reachable q

/-- The well-formedness of the free list: every free index is a distinct slot of `_ids` that
holds an id that is not valid, and every slot that is not valid is on the free list. -/
def FreeListOk (p : EntityPool) : Prop :=
  p._free.Nodup ∧
  (∀ i ∈ p._free, i < p._ids.length ∧ (p._ids.getD i EntityId.null).index = invalid_index) ∧
  (∀ i, i < p._ids.length → (p._ids.getD i EntityId.null).index = i ∨
      ((p._ids.getD i EntityId.null).index = invalid_index ∧ i ∈ p._free))

/-- The pool after `create(); create(); recycle(0); recycle(1)`: both slots are free. -/
def lifo_pool : EntityPool :=
  ⟨[⟨invalid_index, 0⟩, ⟨invalid_index, 0⟩], [0, 1], [EntityId.null, EntityId.null]⟩

end EntityPool

/-! ## The older pool `y::ecs::EntityIDPool` -/

/-- The fields of `EntityIDPool` (`y/ecs/EntityIDPool.cpp`): the pool without parents. -/
structure EntityIDPool where
  _ids : List EntityId
  _free : List Nat
deriving DecidableEq, Repr

namespace EntityIDPool

/-- The method `EntityIDPool::size`. -/
def size (p : EntityIDPool) : Nat :=
  (p._ids.length + usize_range - p._free.length % usize_range) % usize_range

/-- The method `EntityIDPool::contains`. -/
def contains (p : EntityIDPool) (id : EntityId) : Bool :=
  id.is_valid && decide (id.index < p._ids.length) &&
    (p._ids.getD id.index EntityId.null == id)

/-- The method `EntityIDPool::create`: the returned id and the pool afterwards. -/
def create (p : EntityIDPool) : EntityId × EntityIDPool :=
  if p._free.isEmpty then
    let index := p._ids.length
    let ids := p._ids ++ [EntityId.from_index (index % u32_range)]
    (ids.getLastD EntityId.null, ⟨ids, p._free⟩)
  else
    let index := p._free.getLastD 0
    let free := p._free.dropLast
    let ids := p._ids.set index ((p._ids.getD index EntityId.null).make_valid index)
    (ids.getD index EntityId.null, ⟨ids, free⟩)

/-- The method `EntityIDPool::recycle`; `none` when the assertion `contains(id)` fails. -/
def recycle (p : EntityIDPool) (id : EntityId) : Option EntityIDPool :=
  if p.contains id then
    some ⟨p._ids.set id.index ((p._ids.getD id.index EntityId.null).invalidate),
          p._free ++ [id.index]⟩
  else
    none

end EntityIDPool

/-- The ids and the free list of an `EntityPool`, as an `EntityIDPool`. -/
def EntityPool.to_id_pool (p : EntityPool) : EntityIDPool := ⟨p._ids, p._free⟩

/-! ## Sparse id sets -/

/-- The removal of `id` from a dense array by moving the last element into its place. -/
def swap_remove (l : List EntityId) (id : EntityId) : List EntityId :=
  match l.getLast? with
  | none => []
  | some last => l.dropLast.map fun x => if x = id then last else x

/-- Modelled from the spec: `SparseIdSet`, whose header is not among the sources. A set of
entity ids kept as a dense array, `ids()`, in which every id of the set occurs once. -/
structure SparseIdSet where
  ids : List EntityId
deriving DecidableEq, Repr

namespace SparseIdSet

/-- Modelled from the spec: a default-constructed `SparseIdSet`. -/
def empty : SparseIdSet := ⟨[]⟩

/-- Modelled from the spec: `SparseIdSet::contains`. -/
def contains (s : SparseIdSet) (id : EntityId) : Bool := decide (id ∈ s.ids)

/-- Modelled from the spec: `SparseIdSet::size`. -/
def size (s : SparseIdSet) : Nat := s.ids.length

/-- Modelled from the spec: `SparseIdSet::insert`, which appends an id that is not in the set
and leaves the set alone when the id is already there. -/
def insert (s : SparseIdSet) (id : EntityId) : SparseIdSet :=
  if s.contains id then s else ⟨s.ids ++ [id]⟩

/-- Modelled from the spec: `SparseIdSet::erase`, which removes an id of the set by moving the
last id of the dense array into its place. -/
def erase (s : SparseIdSet) (id : EntityId) : SparseIdSet :=
  if s.contains id then ⟨swap_remove s.ids id⟩ else s

/-- The dense array of a `SparseIdSet` holds every id once. -/
def WF (s : SparseIdSet) : Prop := s.ids.Nodup

instance (s : SparseIdSet) : Decidable s.WF := by unfold WF; infer_instance

end SparseIdSet

/-! ## Group membership -/

/-- The fields of `EntityGroupBase`: the cached id set, the component type indices, the tags,
the per-index satisfied-condition counters (`u8`) and the required count (`u8`). -/
structure EntityGroupBase where
  _ids : SparseIdSet
  _types : List Nat
  _tags : List String
  _entity_component_count : List Nat
  _component_count : Nat
deriving DecidableEq, Repr

namespace EntityGroupBase

/-- The constructor of `EntityGroupBase`; `none` when the assertion
"Too many component types in group" fails. -/
def make (types : List Nat) (tags : List String) : Option EntityGroupBase :=
  let component_count := (types.length + tags.length) % u8_range
  if component_count = types.length + tags.length then
    some ⟨SparseIdSet.empty, types, tags, [], component_count⟩
  else
    none

/-- The satisfied-condition counter of `id`, zero when the vector has no entry yet. -/
def count_of (g : EntityGroupBase) (id : EntityId) : Nat :=
  g._entity_component_count.getD id.index 0

/-- The method `EntityGroupBase::add_entity_component`; `none` when an assertion fails or the
counter vector is indexed out of bounds. -/
def add_entity_component (g : EntityGroupBase) (id : EntityId) : Option EntityGroupBase :=
  let counts := set_min_size 0 g._entity_component_count ((id.index + 1) % u32_range)
  if id.index < counts.length then
    let c := counts.getD id.index 0
    if c < g._component_count then
      let c1 := (c + 1) % u8_range
      let counts1 := counts.set id.index c1
      if c1 = g._component_count then
        if !g._ids.contains id then
          some { g with _ids := g._ids.insert id, _entity_component_count := counts1 }
        else
          none
      else
        some { g with _entity_component_count := counts1 }
    else
      none
  else
    none

/-- The method `EntityGroupBase::remove_entity_component`; `none` when an assertion fails. -/
def remove_entity_component (g : EntityGroupBase) (id : EntityId) : Option EntityGroupBase :=
  if g._entity_component_count.length > id.index then
    let prev_count := g._entity_component_count.getD id.index 0
    let counts1 := g._entity_component_count.set id.index ((prev_count + u8_range - 1) % u8_range)
    if prev_count = g._component_count then
      if g._ids.contains id then
        some { g with _ids := g._ids.erase id, _entity_component_count := counts1 }
      else
        none
    else
      some { g with _entity_component_count := counts1 }
  else
    none

/-- A membership update that the component matrix sends to a group. -/
inductive Update where
  | add : EntityId → Update
  | remove : EntityId → Update
deriving DecidableEq, Repr

/-- The id that an update is about. -/
def Update.id : Update → EntityId
  | Update.add id => id
  | Update.remove id => id

/-- One update applied to the group. -/
def apply (g : EntityGroupBase) : Update → Option EntityGroupBase
  | Update.add id => add_entity_component g id
  | Update.remove id => remove_entity_component g id

/-- A sequence of updates, first update first; `none` as soon as one fails. -/
def apply_all : EntityGroupBase → List Update → Option EntityGroupBase
  | g, [] => some g
  | g, u :: us =>
    match apply g u with
    | none => none
    | some g1 => apply_all g1 us

/-- The precondition of one update: a component is added only to a valid id whose satisfied
count is below the required count, and removed only when the satisfied count is above 0. -/
def precondition (g : EntityGroupBase) : Update → Bool
  | Update.add id => id.is_valid && decide (id.index < u32_range) &&
      decide (g.count_of id < g._component_count)
  | Update.remove id => decide (0 < g.count_of id)

/-- Every update of the sequence meets its precondition in the state it is applied to. -/
def respects : EntityGroupBase → List Update → Bool
  | _, [] => true
  | g, u :: us =>
    precondition g u &&
      match apply g u with
      | none => true
      | some g1 => respects g1 us

/-- The membership invariant of a group over the ids `U` that the world uses: the required
count fits a `u8` and is at least 1, no counter exceeds it, the cached id set holds every id
once, and an id of `U` is in the cached id set exactly when its counter equals the required
count. -/
def Consistent (U : EntityId → Prop) (g : EntityGroupBase) : Prop :=
  (1 ≤ g._component_count ∧ g._component_count < u8_range) ∧
  (∀ i, g._entity_component_count.getD i 0 ≤ g._component_count) ∧
  g._ids.WF ∧
  (∀ x, x ∈ g._ids.ids → U x ∧ g.count_of x = g._component_count) ∧
  (∀ x, U x → g.count_of x = g._component_count → x ∈ g._ids.ids)

end EntityGroupBase

/-! ## Group queries -/

/-- A template argument `T` of `EntityGroup<Ts...>` as the traits of `ecs2/traits.h` (not among
the sources) read it: the type index of `component_raw_type_t<T>`, `is_component_mutable_v<T>`
(the argument is wrapped in `Mutate`) and `is_component_changed_v<T>` (wrapped in `Changed`). -/
structure TypeParam where
  raw_type : Nat
  is_mutable : Bool
  is_changed : Bool
deriving DecidableEq, Repr

/-- Modelled from the spec: the `_mutated` id set of the `ComponentContainer` of every
component type, keyed by type index (`ComponentContainer.h` is not among the sources). The
arrays `_mutate` and `_changed` of a group point into these sets. -/
abbrev MutatedSets := Nat → SparseIdSet

/-- The fields of `EntityGroup<Ts...>` that `query()` reads: the base, and the container of
each `Mutate` and each `Changed` type, in the order of `Ts...`. -/
structure EntityGroup extends EntityGroupBase where
  _mutate : List Nat
  _changed : List Nat
deriving DecidableEq, Repr

/-- The `_ids` of a `Query`. -/
structure Query where
  _ids : List EntityId
deriving DecidableEq, Repr

namespace EntityGroup

/-- The method `EntityGroup::fill_one` on the arrays `_mutate` and `_changed`. -/
def fill_one (t : TypeParam) (acc : List Nat × List Nat) : List Nat × List Nat :=
  (if t.is_mutable then acc.1 ++ [t.raw_type] else acc.1,
   if t.is_changed then acc.2 ++ [t.raw_type] else acc.2)

/-- The method `EntityGroup::fill_sets`: `fill_one` for every type, left to right. -/
def fill_sets (ts : List TypeParam) : List Nat × List Nat :=
  ts.foldl (fun acc t => fill_one t acc) ([], [])

/-- The constructor of `EntityGroup<Ts...>`. -/
def make (ts : List TypeParam) (tags : List String) : Option EntityGroup :=
  (EntityGroupBase.make (ts.map TypeParam.raw_type) tags).map fun b =>
    { toEntityGroupBase := b, _mutate := (fill_sets ts).1, _changed := (fill_sets ts).2 }

/-- The intersection loop of `query()`: the ids of `matches[0]`, in order, that every other
set of `matches` contains. -/
def intersect : List SparseIdSet → List EntityId
  | [] => []
  | first :: rest => first.ids.filter fun id => rest.all fun s => s.contains id

/-- The inner loop of the mutation propagation: every id inserted into one set. -/
def insert_all (s : SparseIdSet) (ids : List EntityId) : SparseIdSet :=
  ids.foldl SparseIdSet.insert s

/-- The mutation propagation of `query()`: for every set of `_mutate`, every id of the query
is inserted. -/
def propagate (mutated : MutatedSets) (mutate : List Nat) (ids : List EntityId) :
    MutatedSets :=
  mutate.foldl (fun m t => Function.update m t (insert_all (m t) ids)) mutated

/-- The method `EntityGroup::query`, as the query it returns and the mutated sets afterwards.
The `std::sort` by size is the parameter `sort`; the locks are not modelled. -/
def query (sort : List SparseIdSet → List SparseIdSet) (g : EntityGroup)
    (mutated : MutatedSets) : Query × MutatedSets :=
  let ids :=
    if g._changed.length ≠ 0 then intersect (sort (g._changed.map mutated ++ [g._ids]))
    else g._ids.ids
  let mutated1 :=
    if g._mutate.length ≠ 0 then propagate mutated g._mutate ids else mutated
  (⟨ids⟩, mutated1)

end EntityGroup

/-- A sort by ascending size, one of the orders that `std::sort` can produce. -/
def sort_by_size (l : List SparseIdSet) : List SparseIdSet :=
  l.insertionSort fun a b => a.size ≤ b.size

/-- A group `EntityGroup<Mutate<T>>` for the type index 5 that caches three entities. -/
def sample_mutate_group : EntityGroup :=
  ⟨⟨⟨[⟨0, 0⟩, ⟨1, 0⟩, ⟨2, 0⟩]⟩, [5], [], [1, 1, 1], 1⟩, [5], []⟩

/-- A group `EntityGroup<Changed<T>>` for the type index 5 that caches three entities. -/
def sample_changed_group : EntityGroup :=
  ⟨⟨⟨[⟨0, 0⟩, ⟨1, 0⟩, ⟨2, 0⟩]⟩, [5], [], [1, 1, 1], 1⟩, [], [5]⟩

/-- Mutated sets in which the set of the type index 5 holds two ids and the others none. -/
def sample_mutated : MutatedSets :=
  fun t => if t = 5 then ⟨[⟨7, 0⟩, ⟨1, 0⟩]⟩ else SparseIdSet.empty

/-! ## The scenario of 1000 entities holding `Position` -/

/-- The first `n` entities of a fresh world: indices `0..n-1`, first generation. -/
def entities (n : Nat) : List EntityId := (List.range n).map EntityId.from_index

/-- The group for one template argument over `Position` (type index 0) and no tag, after
`Position` has been added to each of 1000 entities. -/
def position_group (is_mutable is_changed : Bool) : Option EntityGroup :=
  (EntityGroup.make [⟨0, is_mutable, is_changed⟩] []).bind fun g =>
    (EntityGroupBase.apply_all g.toEntityGroupBase
      ((entities 1000).map EntityGroupBase.Update.add)).map fun b =>
        { g with toEntityGroupBase := b }

/-- The group `EntityGroup<Mutate<Position>>` of the scenario. -/
def position_mutate_group : EntityGroup :=
  ⟨⟨⟨entities 1000⟩, [0], [], List.replicate 1000 1, 1⟩, [0], []⟩

/-- The group `EntityGroup<Changed<Position>>` of the scenario. -/
def position_changed_group : EntityGroup :=
  ⟨⟨⟨entities 1000⟩, [0], [], List.replicate 1000 1, 1⟩, [], [0]⟩

/-- The ids whose `Position` the scenario writes: every 10th entity. -/
def written_ids : List EntityId := (entities 1000).filter fun id => id.index % 10 = 0

/-- The id list of the `Changed<Position>` query of the scenario: the `Mutate<Position>` group
is queried on empty mutated sets (the writes go through the references of that query and touch
no id set), then the `Changed<Position>` group is queried. -/
def changed_after_mutate : List EntityId :=
  (EntityGroup.query sort_by_size position_changed_group
    (EntityGroup.query sort_by_size position_mutate_group
      (fun _ => SparseIdSet.empty)).2).1._ids

/-! ## The pool with parents -/

/-- The pool states that `create`, `recycle` and `set_parent` calls produce from the empty
pool. -/
inductive EntityPool.ReachableWithParents : EntityPool → Prop where
  | empty : ReachableWithParents EntityPool.empty
  | create (p : EntityPool) : ReachableWithParents p → ReachableWithParents (create p).2
  | recycle (p q : EntityPool) (id : EntityId) :
      ReachableWithParents p → recycle p id = some q → ReachableWithParents q
  | set_parent (p q : EntityPool) (id parent_id : EntityId) :
      ReachableWithParents p → set_parent p id parent_id = some q → ReachableWithParents q

/-- Modelled from the spec: `EntityPool::ids`, which `EntityPool.cpp` does not define: the ids
that exist, in slot order. -/
def EntityPool.ids (p : EntityPool) : List EntityId := p._ids.filter EntityId.is_valid

/-- Modelled from the spec: `EntityPool::remove`, which `EntityPool.cpp` does not define under
that name: the one removal the spec gives the pool, `recycle`. -/
def EntityPool.remove (p : EntityPool) (id : EntityId) : Option EntityPool := p.recycle id

/-! ## Component containers and the component matrix -/

/-- Modelled from the spec: `ComponentMatrix`, whose header is not among the sources: the
entities it knows, for every component type the sparse set of the ids that hold the type, the
tag-to-id-set mapping, and the groups registered for updates. The satisfied-condition counters
live in the groups (`EntityGroupBase`) and are not repeated here. -/
structure ComponentMatrix where
  _ids : SparseIdSet
  _components : List SparseIdSet
  _tags : List (String × SparseIdSet)
  _groups : List Nat
deriving DecidableEq, Repr

namespace ComponentMatrix

/-- Modelled from the spec: the constructor `ComponentMatrix(type_count)`. -/
def make (type_count : Nat) : ComponentMatrix :=
  ⟨SparseIdSet.empty, List.replicate type_count SparseIdSet.empty, [], []⟩

/-- Modelled from the spec: `ComponentMatrix::add_entity`. -/
def add_entity (m : ComponentMatrix) (id : EntityId) : ComponentMatrix :=
  { m with _ids := m._ids.insert id }

/-- Modelled from the spec: `ComponentMatrix::remove_entity`. -/
def remove_entity (m : ComponentMatrix) (id : EntityId) : ComponentMatrix :=
  { m with _ids := m._ids.erase id }

/-- Modelled from the spec: `ComponentMatrix::contains`, the matrix membership of an id. -/
def contains (m : ComponentMatrix) (id : EntityId) : Bool := m._ids.contains id

/-- Modelled from the spec: `ComponentMatrix::has_component`. -/
def has_component (m : ComponentMatrix) (id : EntityId) (type : Nat) : Bool :=
  (m._components.getD type SparseIdSet.empty).contains id

/-- Modelled from the spec: `ComponentMatrix::add_component`, the notification a container
sends when it adds a component. -/
def add_component (m : ComponentMatrix) (id : EntityId) (type : Nat) : ComponentMatrix :=
  let set := (m._components.getD type SparseIdSet.empty).insert id
  let components := set_min_size SparseIdSet.empty m._components (type + 1)
  { m with _components := components.set type set }

/-- Modelled from the spec: `ComponentMatrix::remove_component`, the notification a container
sends when it removes a component. -/
def remove_component (m : ComponentMatrix) (id : EntityId) (type : Nat) : ComponentMatrix :=
  let set := (m._components.getD type SparseIdSet.empty).erase id
  { m with _components := m._components.set type set }

/-- Modelled from the spec: `ComponentMatrix::tags`, the names of the tag table. -/
def tags (m : ComponentMatrix) : List String := m._tags.map Prod.fst

/-- Modelled from the spec: `ComponentMatrix::add_tag`. -/
def add_tag (m : ComponentMatrix) (id : EntityId) (tag : String) : ComponentMatrix :=
  if m.tags.contains tag then
    { m with _tags := m._tags.map fun e => if e.1 = tag then (e.1, e.2.insert id) else e }
  else
    { m with _tags := m._tags ++ [(tag, SparseIdSet.empty.insert id)] }

/-- Modelled from the spec: `ComponentMatrix::remove_tag`; an id that does not carry the tag is
left alone. -/
def remove_tag (m : ComponentMatrix) (id : EntityId) (tag : String) : ComponentMatrix :=
  { m with _tags := m._tags.map fun e => if e.1 = tag then (e.1, e.2.erase id) else e }

/-- Modelled from the spec: `ComponentMatrix::clear_tag`. -/
def clear_tag (m : ComponentMatrix) (tag : String) : ComponentMatrix :=
  { m with _tags := m._tags.map fun e => if e.1 = tag then (e.1, SparseIdSet.empty) else e }

/-- Modelled from the spec: `ComponentMatrix::has_tag`. -/
def has_tag (m : ComponentMatrix) (id : EntityId) (tag : String) : Bool :=
  m._tags.any fun e => e.1 == tag && e.2.contains id

/-- Modelled from the spec: `ComponentMatrix::with_tag`, the ids of the set of a tag. -/
def with_tag (m : ComponentMatrix) (tag : String) : List EntityId :=
  match m._tags.find? fun e => e.1 == tag with
  | some e => e.2.ids
  | none => []

/-- Modelled from the spec: `ComponentMatrix::register_group`, which subscribes a group (by
its identity) to the updates. -/
def register_group (m : ComponentMatrix) (group : Nat) : ComponentMatrix :=
  { m with _groups := m._groups ++ [group] }

/-- Modelled from the spec: `ComponentMatrix::clear`. -/
def clear (m : ComponentMatrix) : ComponentMatrix :=
  ⟨SparseIdSet.empty, m._components.map fun _ => SparseIdSet.empty, [], []⟩

end ComponentMatrix

/-- Modelled from the spec: `ComponentContainer<T>`, whose header is not among the sources: the
type index and a sparse map from entity ids to component values (natural numbers stand for the
values of `T`). Its mutated set is the one of `MutatedSets`. -/
structure ComponentContainer where
  _type_id : Nat
  _components : List (EntityId × Nat)
deriving DecidableEq, Repr

namespace ComponentContainer

/-- Modelled from the spec: a container without components. -/
def empty (type_id : Nat) : ComponentContainer := ⟨type_id, []⟩

/-- Modelled from the spec: whether the sparse map holds `id`. -/
def contains (c : ComponentContainer) (id : EntityId) : Bool :=
  c._components.any fun e => e.1 == id

/-- Modelled from the spec: `try_get(id)`, the component of `id` or null. -/
def try_get (c : ComponentContainer) (id : EntityId) : Option Nat :=
  (c._components.find? fun e => e.1 == id).map Prod.snd

/-- Modelled from the spec: the insertion of a new component, which notifies the matrix. -/
def add (c : ComponentContainer) (m : ComponentMatrix) (id : EntityId) (value : Nat) :
    ComponentContainer × ComponentMatrix :=
  ({ c with _components := c._components ++ [(id, value)] }, m.add_component id c._type_id)

/-- Modelled from the spec: `get_or_add(id)`, which returns the existing component or
default-constructs one (the value 0). -/
def get_or_add (c : ComponentContainer) (m : ComponentMatrix) (id : EntityId) :
    Nat × ComponentContainer × ComponentMatrix :=
  match c.try_get id with
  | some value => (value, c, m)
  | none => (0, c.add m id 0)

/-- Modelled from the spec: `add_or_replace(id, args...)`, which always re-constructs. -/
def add_or_replace (c : ComponentContainer) (m : ComponentMatrix) (id : EntityId)
    (value : Nat) : ComponentContainer × ComponentMatrix :=
  if c.contains id then
    let components := c._components.map fun e => if e.1 = id then (id, value) else e
    ({ c with _components := components }, m)
  else
    c.add m id value

/-- Modelled from the spec: `remove(id)`, which erases the component of `id` and notifies the
matrix; the order of the dense store is not modelled. -/
def remove (c : ComponentContainer) (m : ComponentMatrix) (id : EntityId) :
    ComponentContainer × ComponentMatrix :=
  if c.contains id then
    ({ c with _components := c._components.filter fun e => e.1 != id },
      m.remove_component id c._type_id)
  else
    (c, m)

/-- Modelled from the spec: the post-load hook, which registers the loaded components with the
matrix. -/
def post_load (c : ComponentContainer) (m : ComponentMatrix) : ComponentMatrix :=
  c._components.foldl (fun m1 e => m1.add_component e.1 c._type_id) m

end ComponentContainer

/-! ## The archives -/

/-- Modelled from the spec: a record of the persisted state, one per `serialize` call: the
entity pool, the component containers or the tag table; `corrupt` is a record that does not
decode. The `serde3` archives are not among the sources. -/
inductive Record where
  | entities : EntityPool → Record
  | containers : List (Option ComponentContainer) → Record
  | tags : List (String × SparseIdSet) → Record
  | corrupt : Record
deriving DecidableEq, Repr

/-- Modelled from the spec: `serde3::WritableArchive`: the records written so far, and the
number of records the medium still accepts before a write fails. -/
structure WritableArchive where
  records : List Record
  space : Nat
deriving DecidableEq, Repr

/-- Modelled from the spec: a write of one record; `none` is the I/O failure. -/
def WritableArchive.serialize (arc : WritableArchive) (r : Record) : Option WritableArchive :=
  if arc.space = 0 then none else some ⟨arc.records ++ [r], arc.space - 1⟩

/-- Modelled from the spec: `serde3::ReadableArchive`: the records still to read. -/
abbrev ReadableArchive := List Record

/-- Modelled from the spec: the read of the entity pool record; `none` is the failure. -/
def ReadableArchive.deserialize_entities :
    ReadableArchive → Option (EntityPool × ReadableArchive)
  | Record.entities p :: rest => some (p, rest)
  | _ => none

/-- Modelled from the spec: the read of the containers record; `none` is the failure. -/
def ReadableArchive.deserialize_containers :
    ReadableArchive → Option (List (Option ComponentContainer) × ReadableArchive)
  | Record.containers cs :: rest => some (cs, rest)
  | _ => none

/-- Modelled from the spec: `ComponentMatrix::save_tags`. -/
def ComponentMatrix.save_tags (m : ComponentMatrix) (arc : WritableArchive) :
    Option WritableArchive :=
  arc.serialize (Record.tags m._tags)

/-- Modelled from the spec: `ComponentMatrix::load_tags`; `none` is the failure. -/
def ComponentMatrix.load_tags (m : ComponentMatrix) :
    ReadableArchive → Option (ComponentMatrix × ReadableArchive)
  | Record.tags t :: rest => some ({ m with _tags := t }, rest)
  | _ => none

/-- The two outcomes of `serde3::Result`. -/
inductive Result where
  | ok : Result
  | err : Result
deriving DecidableEq, Repr

/-! ## The world -/

/-- A template argument of `create_group<Ts...>`: a component type, given by its type index,
possibly under the wrappers `Mutate`, `Not`, `Changed` and `Removed` of `traits.h`. -/
inductive ComponentArg where
  | component : Nat → ComponentArg
  | Mutate : ComponentArg → ComponentArg
  | Not : ComponentArg → ComponentArg
  | Changed : ComponentArg → ComponentArg
  | Removed : ComponentArg → ComponentArg
deriving DecidableEq, Repr

/-- The trait `component_raw_type_t`, as a type index. -/
def ComponentArg.raw_type : ComponentArg → Nat
  | ComponentArg.component t => t
  | ComponentArg.Mutate a => a.raw_type
  | ComponentArg.Not a => a.raw_type
  | ComponentArg.Changed a => a.raw_type
  | ComponentArg.Removed a => a.raw_type

/-- A group object owned by the world, with what `create_group` reads of it: its identity
(`ref`, for the address of the object), its dynamic type `EntityGroup<Ts...>` and its `tags()`.
The cached id set of the group is maintained through the matrix (see `EntityGroupBase`) and is
not repeated here. -/
structure GroupEntry where
  ref : Nat
  type_args : List ComponentArg
  _tags : List String
deriving DecidableEq, Repr

/-- The fields of `EntityWorld` (the system manager apart). `constructed_groups` counts the
group objects the world has constructed; it gives every new object an identity that no earlier
object has. -/
structure EntityWorld where
  _containers : List (Option ComponentContainer)
  _groups : List GroupEntry
  _matrix : ComponentMatrix
  _entities : EntityPool
  constructed_groups : Nat
deriving DecidableEq, Repr

/-- The function `create_component_containers`, over the registered component types: one
container per type, at the index of the type. -/
def create_component_containers (registry : List Nat) : List (Option ComponentContainer) :=
  registry.foldl
    (fun containers id =>
      (set_min_size none containers (id + 1)).set id (some (ComponentContainer.empty id)))
    []

/-- The method `EntityWorld::exists`. -/
def EntityWorld.exists (w : EntityWorld) (id : EntityId) : Bool := w._entities.exists id

namespace EntityWorld

/-- The constructor `EntityWorld()`, over the registered component types. -/
def make (registry : List Nat) : EntityWorld :=
  ⟨create_component_containers registry, [],
    ComponentMatrix.make (create_component_containers registry).length, EntityPool.empty, 0⟩

/-- The method `EntityWorld::entity_count`. -/
def entity_count (w : EntityWorld) : Nat := w._entities.size

/-- The method `EntityWorld::create_entity`: the new id and the world afterwards. -/
def create_entity (w : EntityWorld) : EntityId × EntityWorld :=
  let r := w._entities.create
  (r.1, { w with _entities := r.2, _matrix := w._matrix.add_entity r.1 })

/-- The loop of `remove_all_components` over the containers, with the matrix they notify. -/
def remove_from_containers :
    List (Option ComponentContainer) → ComponentMatrix → EntityId →
      List (Option ComponentContainer) × ComponentMatrix
  | [], m, _ => ([], m)
  | none :: rest, m, id =>
    let r := remove_from_containers rest m id
    (none :: r.1, r.2)
  | some c :: rest, m, id =>
    let r := remove_from_containers rest (c.remove m id).2 id
    (some (c.remove m id).1 :: r.1, r.2)

/-- The method `EntityWorld::remove_all_components`. -/
def remove_all_components (w : EntityWorld) (id : EntityId) : EntityWorld :=
  let r := remove_from_containers w._containers w._matrix id
  { w with _containers := r.1, _matrix := r.2 }

/-- The method `EntityWorld::remove_all_tags`. -/
def remove_all_tags (w : EntityWorld) (id : EntityId) : EntityWorld :=
  { w with _matrix := w._matrix.tags.foldl (fun m tag => m.remove_tag id tag) w._matrix }

/-- The method `EntityWorld::remove_entity`; `none` when the pool fails its assertion. -/
def remove_entity (w : EntityWorld) (id : EntityId) : Option EntityWorld :=
  let w1 := (w.remove_all_components id).remove_all_tags id
  let matrix := w1._matrix.remove_entity id
  match w1._entities.remove id with
  | none => none
  | some pool => some { w1 with _matrix := matrix, _entities := pool }

/-- The loop of `remove_all_entities` over the cached ids. -/
def remove_each : EntityWorld → List EntityId → Option EntityWorld
  | w, [] => some w
  | w, id :: ids =>
    match w.remove_entity id with
    | none => none
    | some w1 => remove_each w1 ids

/-- The method `EntityWorld::remove_all_entities`. -/
def remove_all_entities (w : EntityWorld) : Option EntityWorld :=
  remove_each w w._entities.ids

/-- The method `EntityWorld::clear`. -/
def clear (w : EntityWorld) : Option EntityWorld :=
  match w.remove_all_entities with
  | none => none
  | some w1 => some { w1 with _matrix := w1._matrix.clear, _groups := [] }

/-- The method `EntityWorld::is_tag_implicit`. -/
def is_tag_implicit (tag : String) : Bool :=
  !tag.data.isEmpty && (tag.data.getD 0 default == '@' || tag.data.getD 0 default == '!')

/-- The method `EntityWorld::add_tag`; `none` when an assertion fails. -/
def add_tag (w : EntityWorld) (id : EntityId) (tag : String) : Option EntityWorld :=
  if !w.exists id then none
  else if is_tag_implicit tag then none
  else some { w with _matrix := w._matrix.add_tag id tag }

/-- The method `EntityWorld::remove_tag`; `none` when an assertion fails. -/
def remove_tag (w : EntityWorld) (id : EntityId) (tag : String) : Option EntityWorld :=
  if !w.exists id then none
  else if is_tag_implicit tag then none
  else some { w with _matrix := w._matrix.remove_tag id tag }

/-- The method `EntityWorld::clear_tag`; `none` when the assertion fails. -/
def clear_tag (w : EntityWorld) (tag : String) : Option EntityWorld :=
  if is_tag_implicit tag then none
  else some { w with _matrix := w._matrix.clear_tag tag }

/-- The method `EntityWorld::has_tag`; `none` when an assertion fails. -/
def has_tag (w : EntityWorld) (id : EntityId) (tag : String) : Option Bool :=
  if !w.exists id then none
  else if is_tag_implicit tag then none
  else some (w._matrix.has_tag id tag)

/-- The method `EntityWorld::with_tag`; `none` when the assertion fails. -/
def with_tag (w : EntityWorld) (tag : String) : Option (List EntityId) :=
  if is_tag_implicit tag then none
  else some (w._matrix.with_tag tag)

/-- The method `EntityWorld::parent`. -/
def parent (w : EntityWorld) (id : EntityId) : EntityId := w._entities.parent id

/-- The method `EntityWorld::set_parent`; `none` when the pool fails its assertion. -/
def set_parent (w : EntityWorld) (id parent_id : EntityId) : Option EntityWorld :=
  (w._entities.set_parent id parent_id).map fun pool => { w with _entities := pool }

/-- The method `EntityWorld::has_parent`. -/
def has_parent (w : EntityWorld) (id : EntityId) : Bool := (w.parent id).is_valid

/-- The method `EntityWorld::has_component(id, type)`; `none` when the assertion fails. -/
def has_component (w : EntityWorld) (id : EntityId) (type : Nat) : Option Bool :=
  if !w.exists id then none
  else some (w._matrix.has_component id type)

/-- The method `EntityWorld::find_container`, read through: `none` when the assertion on the
type index fails or when the slot holds no container (a null pointer, which `component`,
`get_or_add_component` and `add_or_replace_component` dereference). -/
def find_container (w : EntityWorld) (type : Nat) : Option ComponentContainer :=
  if w._containers.length > type then w._containers.getD type none else none

/-- The method `EntityWorld::component<T>`: the component of `id` or null. -/
def component (w : EntityWorld) (type : Nat) (id : EntityId) : Option (Option Nat) :=
  (w.find_container type).map fun c => c.try_get id

/-- The method `EntityWorld::get_or_add_component<T>`: the component and the world
afterwards. -/
def get_or_add_component (w : EntityWorld) (type : Nat) (id : EntityId) :
    Option (Nat × EntityWorld) :=
  match w.find_container type with
  | none => none
  | some c =>
    let r := c.get_or_add w._matrix id
    some (r.1, { w with _containers := w._containers.set type (some r.2.1), _matrix := r.2.2 })

/-- The method `EntityWorld::add_or_replace_component<T>`; `none` when `check_exists` fails
its assertion. -/
def add_or_replace_component (w : EntityWorld) (type : Nat) (id : EntityId) (value : Nat) :
    Option EntityWorld :=
  if !w.exists id then none
  else
    match w.find_container type with
    | none => none
    | some c =>
      let r := c.add_or_replace w._matrix id value
      some { w with _containers := w._containers.set type (some r.1), _matrix := r.2 }

/-- The loop of `create_group` over `_groups`: the first group of the dynamic type
`EntityGroup<Ts...>` whose tags equal `tags` (the other branch of the loop only logs). -/
def find_group : List GroupEntry → List ComponentArg → List String → Option GroupEntry
  | [], _, _ => none
  | group :: rest, ts, tags =>
    if group.type_args = ts then
      if tags.length ≠ group._tags.length then find_group rest ts tags
      else if tags ≠ group._tags then find_group rest ts tags
      else some group
    else find_group rest ts tags

/-- The method `EntityWorld::create_new_group`; `none` when `find_container` fails its
assertion on a type index or when the constructor of the group fails its assertion. The
container pointers go into the group unchecked: a null container does not stop the call. -/
def create_new_group (w : EntityWorld) (ts : List ComponentArg) (tags : List String) :
    Option (GroupEntry × EntityWorld) :=
  if ts.all fun t => decide (w._containers.length > t.raw_type) then
    match EntityGroupBase.make (ts.map ComponentArg.raw_type) tags with
    | none => none
    | some base =>
      let group : GroupEntry := ⟨w.constructed_groups, ts, base._tags⟩
      some (group, { w with
        _groups := w._groups ++ [group],
        _matrix := w._matrix.register_group group.ref,
        constructed_groups := w.constructed_groups + 1 })
  else none

/-- The method `EntityWorld::create_group`: the group it returns and the world afterwards. -/
def create_group (w : EntityWorld) (ts : List ComponentArg) (tags : List String) :
    Option (GroupEntry × EntityWorld) :=
  match find_group w._groups ts tags with
  | some group => some (group, w)
  | none => w.create_new_group ts tags

/-- The method `EntityWorld::save_state`: the result and the archive afterwards. -/
def save_state (w : EntityWorld) (arc : WritableArchive) : Result × WritableArchive :=
  match arc.serialize (Record.entities w._entities) with
  | none => (Result.err, arc)
  | some arc1 =>
    match arc1.serialize (Record.containers w._containers) with
    | none => (Result.err, arc1)
    | some arc2 =>
      match w._matrix.save_tags arc2 with
      | none => (Result.err, arc2)
      | some arc3 => (Result.ok, arc3)

/-- The last loop of `load_state`: every loaded container runs its post-load hook and is moved
into the slot of its type; `none` when the slot does not exist. -/
def install_containers :
    List (Option ComponentContainer) → List (Option ComponentContainer) → ComponentMatrix →
      Option (List (Option ComponentContainer) × ComponentMatrix)
  | [], containers, m => some (containers, m)
  | none :: rest, containers, m => install_containers rest containers m
  | some c :: rest, containers, m =>
    if c._type_id < containers.length then
      install_containers rest (containers.set c._type_id (some c)) (c.post_load m)
    else none

/-- The method `EntityWorld::load_state`: the result, the world and the archive afterwards;
`none` when `clear` fails an assertion. A failed read leaves the object it reads into as it
was. -/
def load_state (w : EntityWorld) (arc : ReadableArchive) :
    Option (Result × EntityWorld × ReadableArchive) :=
  match w.clear with
  | none => none
  | some w0 =>
    match arc.deserialize_entities with
    | none => some (Result.err, w0, arc)
    | some (pool, arc1) =>
      let w1 := { w0 with _entities := pool }
      match arc1.deserialize_containers with
      | none => some (Result.err, w1, arc1)
      | some (containers, arc2) =>
        match w1._matrix.load_tags arc2 with
        | none => some (Result.err, w1, arc2)
        | some (m, arc3) =>
          let m1 := pool.ids.foldl ComponentMatrix.add_entity m
          match install_containers containers w1._containers m1 with
          | none => none
          | some r => some (Result.ok, { w1 with _containers := r.1, _matrix := r.2 }, arc3)

/-- A call made on the world. -/
inductive WorldOp where
  | create_entity : WorldOp
  | remove_entity : EntityId → WorldOp
  | remove_all_components : EntityId → WorldOp
  | remove_all_tags : EntityId → WorldOp
  | add_tag : EntityId → String → WorldOp
  | remove_tag : EntityId → String → WorldOp
  | clear_tag : String → WorldOp
  | set_parent : EntityId → EntityId → WorldOp
  | get_or_add_component : Nat → EntityId → WorldOp
  | add_or_replace_component : Nat → EntityId → Nat → WorldOp
  | create_group : List ComponentArg → List String → WorldOp
  | clear : WorldOp
  | load_state : ReadableArchive → WorldOp
deriving DecidableEq, Repr

/-- One call on the world; `none` when the call fails an assertion. -/
def apply (w : EntityWorld) : WorldOp → Option EntityWorld
  | WorldOp.create_entity => some w.create_entity.2
  | WorldOp.remove_entity id => w.remove_entity id
  | WorldOp.remove_all_components id => some (w.remove_all_components id)
  | WorldOp.remove_all_tags id => some (w.remove_all_tags id)
  | WorldOp.add_tag id tag => w.add_tag id tag
  | WorldOp.remove_tag id tag => w.remove_tag id tag
  | WorldOp.clear_tag tag => w.clear_tag tag
  | WorldOp.set_parent id parent_id => w.set_parent id parent_id
  | WorldOp.get_or_add_component type id => (w.get_or_add_component type id).map Prod.snd
  | WorldOp.add_or_replace_component type id value =>
    w.add_or_replace_component type id value
  | WorldOp.create_group ts tags => (w.create_group ts tags).map Prod.snd
  | WorldOp.clear => w.clear
  | WorldOp.load_state arc => (w.load_state arc).map fun r => r.2.1

/-- A sequence of calls, first call first; `none` as soon as one fails. -/
def apply_all : EntityWorld → List WorldOp → Option EntityWorld
  | w, [] => some w
  | w, op :: ops =>
    match w.apply op with
    | none => none
    | some w1 => apply_all w1 ops

/-- The calls other than `clear` and `load_state`. -/
def WorldOp.keeps_groups : WorldOp → Bool
  | WorldOp.clear => false
  | WorldOp.load_state _ => false
  | _ => true

/-- The matrix records a component only where a container of that type holds it. -/
def Mirror (containers : List (Option ComponentContainer)) (m : ComponentMatrix) : Prop :=
  ∀ type id, m.has_component id type = true →
    ∃ c, some c ∈ containers ∧ c._type_id = type ∧ c.contains id = true

/-- The well-formedness of a world: the pool has a well-formed free list and is within the
`u32` index range, every sparse set of the matrix holds each id once, and the matrix records a
component only where a container of that type holds it. -/
def WellFormed (w : EntityWorld) : Prop :=
  EntityPool.FreeListOk w._entities ∧ w._entities._ids.length ≤ invalid_index ∧
  w._matrix._ids.WF ∧ (∀ s ∈ w._matrix._components, s.WF) ∧
  (∀ e ∈ w._matrix._tags, e.2.WF) ∧ Mirror w._containers w._matrix

/-- The calls whose effect does not depend on the content of an archive. -/
def WorldOp.reads_no_archive : WorldOp → Bool
  | WorldOp.load_state _ => false
  | _ => true

/-- The containers of a world of the given registry: a container exactly in the slots of the
registered types, each with the type index of its slot. -/
def SameRegistry (w : EntityWorld) (registry : List Nat) : Prop :=
  w._containers.length = (create_component_containers registry).length ∧
  (∀ i, (w._containers.getD i none).isSome =
    ((create_component_containers registry).getD i none).isSome) ∧
  (∀ i c, w._containers.getD i none = some c → c._type_id = i)

/-- A world over the component types 0 and 2 with two entities; the first holds a component of
each type and the tag `t`. -/
def sample_world : EntityWorld :=
  ⟨[some ⟨0, [(⟨0, 0⟩, 7)]⟩, none, some ⟨2, [(⟨0, 0⟩, 9)]⟩], [],
    ⟨⟨[⟨0, 0⟩, ⟨1, 0⟩]⟩, [⟨[⟨0, 0⟩]⟩, ⟨[]⟩, ⟨[⟨0, 0⟩]⟩], [("t", ⟨[⟨0, 0⟩]⟩)], []⟩,
    ⟨[⟨0, 0⟩, ⟨1, 0⟩], [], [EntityId.null, EntityId.null]⟩, 0⟩

/-- The calls that build `sample_world` from a new world. -/
def sample_calls : List WorldOp :=
  [WorldOp.create_entity, WorldOp.create_entity, WorldOp.add_tag ⟨0, 0⟩ "t",
    WorldOp.add_or_replace_component 0 ⟨0, 0⟩ 7, WorldOp.add_or_replace_component 2 ⟨0, 0⟩ 9]

/-- A new world over the component types 0 and 2 after `create_group` for the type 0. -/
def grouped_world : EntityWorld :=
  { EntityWorld.make [0, 2] with
    _groups := [⟨0, [ComponentArg.component 0], []⟩],
    _matrix := (EntityWorld.make [0, 2])._matrix.register_group 0,
    constructed_groups := 1 }

/-- The calls of `sample_calls` followed by a `create_group` for the type 2 and the tag `t`. -/
def grouped_calls : List WorldOp :=
  sample_calls ++ [WorldOp.create_group [ComponentArg.component 2] ["t"]]

/-- The world `grouped_world` after the calls `grouped_calls`. -/
def grouped_world_after : EntityWorld := (apply_all grouped_world grouped_calls).getD grouped_world

end EntityWorld

/-! ## The traits of a template argument -/

/-- The static members of an instantiated `traits::component_type<T>` (`ecs/traits.h`): the
type index of `raw_type`, whether `type` is const, and the flags `required`, `changed` and
`removed`. -/
structure ComponentTraits where
  raw_type : Nat
  is_const : Bool
  required : Bool
  changed : Bool
  removed : Bool
deriving DecidableEq, Repr

namespace traits

/-- The template `traits::component_type` with its four specialisations; `none` when a
`static_assert` rejects the argument, or when the inner instantiation is rejected. -/
def component_type : ComponentArg → Option ComponentTraits
  | ComponentArg.component t => some ⟨t, true, true, false, false⟩
  | ComponentArg.Mutate a =>
    match component_type a with
    | none => none
    | some c => some ⟨c.raw_type, false, c.required, c.changed, c.removed⟩
  | ComponentArg.Not a =>
    match component_type a with
    | none => none
    | some c =>
      if c.removed then none
      else some ⟨c.raw_type, c.is_const, !c.required, c.changed, false⟩
  | ComponentArg.Changed a =>
    match component_type a with
    | none => none
    | some c =>
      if !c.required then none
      else if c.removed then none
      else some ⟨c.raw_type, c.is_const, true, true, false⟩
  | ComponentArg.Removed a =>
    match component_type a with
    | none => none
    | some c =>
      if !c.required then none
      else if c.changed then none
      else some ⟨c.raw_type, c.is_const, true, false, true⟩

/-- The trait `is_component_const_v`. -/
def is_component_const_v (a : ComponentArg) : Option Bool :=
  (component_type a).map fun c => c.is_const || !c.required

/-- The trait `is_component_mutable_v`. -/
def is_component_mutable_v (a : ComponentArg) : Option Bool :=
  (is_component_const_v a).map fun b => !b

/-- The argument `a` under `k` wrappers `Mutate`. -/
def mutates : Nat → ComponentArg → ComponentArg
  | 0, a => a
  | k + 1, a => ComponentArg.Mutate (mutates k a)

end traits

/-! ## Runs of the older pool -/

namespace EntityIDPool

/-- A default-constructed `EntityIDPool`. -/
def empty : EntityIDPool := ⟨[], []⟩

/-- One call on the older pool; `none` when the call fails its assertion. -/
def step (p : EntityIDPool) : EntityPool.Op → Option (EntityIDPool × EntityPool.Event)
  | EntityPool.Op.create => some ((create p).2, EntityPool.Event.created (create p).1)
  | EntityPool.Op.recycle id => (recycle p id).map fun q => (q, EntityPool.Event.recycled id)

/-- A sequence of calls on the older pool, first call first; the events are collected most
recent first. -/
def run : EntityIDPool × List EntityPool.Event → List EntityPool.Op →
    Option (EntityIDPool × List EntityPool.Event)
  | s, [] => some s
  | s, op :: ops =>
    match step s.1 op with
    | none => none
    | some (q, e) => run (q, e :: s.2) ops

end EntityIDPool

namespace EntityPool

/-- The pool after `create(); create(); set_parent(0, 1); recycle(0)`: the free slot 0 still
has the parent that was set. -/
def parented_pool : EntityPool :=
  ⟨[⟨invalid_index, 0⟩, ⟨1, 0⟩], [0], [⟨1, 0⟩, EntityId.null]⟩

/-- The pool after `create(); create(); create(); recycle(1)`. -/
def holed_pool : EntityPool :=
  ⟨[⟨0, 0⟩, ⟨invalid_index, 0⟩, ⟨2, 0⟩], [1], [EntityId.null, EntityId.null, EntityId.null]⟩

end EntityPool

/-! ## The mutation locks of a query -/

/-- Modelled from the spec: the `_lock` mutex of the `ComponentContainer` of every component
type, keyed by type index (`ComponentContainer.h` is not among the sources). Each mutex is a
pair of counters: the calls of `lock()` that have returned and the calls of `unlock()` made on
it so far. -/
structure MutationLocks where
  locked : Nat → Nat
  unlocked : Nat → Nat

namespace MutationLocks

/-- Mutexes on which no call has been made. -/
def fresh : MutationLocks := ⟨fun _ => 0, fun _ => 0⟩

/-- Whether the mutex of the type index `t` is held: it has been locked more often than
unlocked. -/
def held (l : MutationLocks) (t : Nat) : Bool := decide (l.unlocked t < l.locked t)

/-- The call `lock()` on the mutex of the type index `t`; `none` when the mutex is held: a
`std::mutex` is not recursive, and `lock()` on a held mutex does not return. -/
def lock (l : MutationLocks) (t : Nat) : Option MutationLocks :=
  if l.held t then none
  else some ⟨Function.update l.locked t (l.locked t + 1), l.unlocked⟩

/-- The call `unlock()` on the mutex of the type index `t`; `none` when the mutex is not
held, where the call is undefined. -/
def unlock (l : MutationLocks) (t : Nat) : Option MutationLocks :=
  if l.held t then some ⟨l.locked, Function.update l.unlocked t (l.unlocked t + 1)⟩
  else none

/-- The loop `for(auto* lock : _mut_locks) lock->lock()`; `none` when a call does not
return. -/
def lock_each : List Nat → MutationLocks → Option MutationLocks
  | [], l => some l
  | t :: ts, l =>
    match l.lock t with
    | none => none
    | some l1 => lock_each ts l1

/-- The loop `for(auto* lock : _mut_locks) lock->unlock()`; `none` when a call is
undefined. -/
def unlock_each : List Nat → MutationLocks → Option MutationLocks
  | [], l => some l
  | t :: ts, l =>
    match l.unlock t with
    | none => none
    | some l1 => unlock_each ts l1

end MutationLocks

/-- The class `EntityGroup::Query` as an object: its `_ids` and its `_parent` pointer, `none`
for `nullptr`. A pointer to a group is modelled by the group, whose `_mut_locks` are written by
its constructor only. The `_sets` are pointers into the containers and are left out. -/
structure QueryObject extends Query where
  _parent : Option EntityGroup
deriving DecidableEq, Repr

/-- The live `Query` objects of a program, by the order of their construction; `none` stands
for an object that has been destroyed. -/
abbrev QueryStore := List (Option QueryObject)

/-- The objects, the mutexes and the mutated sets that the operations on queries act on. -/
structure QueryState where
  objects : QueryStore
  locks : MutationLocks
  mutated : MutatedSets

/-- An operation on `Query` objects: `group.query()`, whose result is a new object, the
default constructor, the move constructor from an object, the move assignment to `self` from
`other`, and the destructor. Objects are named by their position in the store. -/
inductive QueryOp where
  | query : EntityGroup → QueryOp
  | default_construct : QueryOp
  | move_construct : Nat → QueryOp
  | move_assign : Nat → Nat → QueryOp
  | destroy : Nat → QueryOp

namespace EntityGroup

/-- The array `_mut_locks` of a group: `fill_one` writes `_mut_locks[mut_index]` and
`_mutate[mut_index]` from the same container, so both arrays list the same type indices. -/
def _mut_locks (g : EntityGroup) : List Nat := g._mutate

/-- The method `EntityGroup::lock_mutated_groups`; `none` when a `lock()` does not return. -/
def lock_mutated_groups (g : EntityGroup) (locks : MutationLocks) : Option MutationLocks :=
  MutationLocks.lock_each g._mut_locks locks

/-- The method `EntityGroup::unlock_mutated_groups`; `none` when an `unlock()` is
undefined. -/
def unlock_mutated_groups (g : EntityGroup) (locks : MutationLocks) : Option MutationLocks :=
  MutationLocks.unlock_each g._mut_locks locks

end EntityGroup

namespace QueryObject

/-- The constructor `Query()`: no id and a null parent. -/
def default : QueryObject := ⟨⟨[]⟩, none⟩

/-- The constructor `Query(const EntityGroup* parent)`: the object and the mutexes after
`lock_mutated_groups`; `none` when that call does not return. -/
def make (parent : EntityGroup) (locks : MutationLocks) :
    Option (QueryObject × MutationLocks) :=
  (parent.lock_mutated_groups locks).map fun l => (⟨⟨[]⟩, some parent⟩, l)

/-- The destructor `~Query()` on the mutexes; `none` when an `unlock()` is undefined. -/
def destroy (q : QueryObject) (locks : MutationLocks) : Option MutationLocks :=
  match q._parent with
  | some parent => parent.unlock_mutated_groups locks
  | none => some locks

/-- The method `Query::swap`: every member is exchanged, so the two objects trade places. -/
def swap (q other : QueryObject) : QueryObject × QueryObject := (other, q)

end QueryObject

namespace QueryState

/-- The method `EntityGroup::query` with its locks: the local `query(this)` is constructed
(which locks), filled as in `EntityGroup.query`, and returned; the returned object is new in
the store. `none` when the constructor does not return. -/
def query (sort : List SparseIdSet → List SparseIdSet) (s : QueryState) (g : EntityGroup) :
    Option QueryState :=
  match QueryObject.make g s.locks with
  | none => none
  | some r =>
    let ids := EntityGroup.query sort g s.mutated
    some ⟨s.objects ++ [some { r.1 with toQuery := ids.1 }], r.2, ids.2⟩

/-- One operation; `none` when it names an object that is not alive, when `query()` does not
return, or when a destructor is undefined. -/
def step (sort : List SparseIdSet → List SparseIdSet) (s : QueryState) :
    QueryOp → Option QueryState
  | QueryOp.query g => query sort s g
  | QueryOp.default_construct =>
    some { s with objects := s.objects ++ [some QueryObject.default] }
  | QueryOp.move_construct other =>
    match s.objects.getD other none with
    | none => none
    | some o =>
      let r := QueryObject.swap QueryObject.default o
      some { s with objects := s.objects.set other (some r.2) ++ [some r.1] }
  | QueryOp.move_assign self other =>
    match s.objects.getD self none, s.objects.getD other none with
    | some a, some b =>
      let r := QueryObject.swap a b
      some { s with objects := (s.objects.set self (some r.1)).set other (some r.2) }
    | _, _ => none
  | QueryOp.destroy self =>
    match s.objects.getD self none with
    | none => none
    | some o =>
      match o.destroy s.locks with
      | none => none
      | some locks => some { s with objects := s.objects.set self none, locks := locks }

/-- A sequence of operations, first operation first. -/
def run (sort : List SparseIdSet → List SparseIdSet) : QueryState → List QueryOp →
    Option QueryState
  | s, [] => some s
  | s, op :: ops =>
    match step sort s op with
    | none => none
    | some s1 => run sort s1 ops

end QueryState

/-- How often the operations lock the mutex of the type index `t`: once for every entry of
`_mut_locks` that is `t`, for every call of `query()`. -/
def locks_taken (t : Nat) : List QueryOp → Nat
  | [] => 0
  | QueryOp.query g :: ops => g._mut_locks.count t + locks_taken t ops
  | _ :: ops => locks_taken t ops

/-- How often an object holds the mutex of the type index `t`: once for every entry that is
`t` in the `_mut_locks` of its parent; a destroyed object and an object with a null parent hold
nothing. -/
def locks_of (t : Nat) : Option QueryObject → Nat
  | some ⟨_, some g⟩ => g._mut_locks.count t
  | _ => 0

/-- How often the objects of a store hold the mutex of the type index `t`. -/
def locks_held (t : Nat) (objects : QueryStore) : Nat := (objects.map (locks_of t)).sum

/-- The operations of a scope that queries `sample_mutate_group`, moves the query into a new
object, assigns it to a default-constructed object and destroys all three objects. -/
def sample_query_ops : List QueryOp :=
  [QueryOp.query sample_mutate_group, QueryOp.move_construct 0, QueryOp.default_construct,
    QueryOp.move_assign 2 1, QueryOp.destroy 0, QueryOp.destroy 1, QueryOp.destroy 2]

/-- Mutexes and mutated sets before any call, and no object. -/
def QueryState.fresh : QueryState := ⟨[], MutationLocks.fresh, fun _ => SparseIdSet.empty⟩

/-- The group `EntityGroup<Mutate<T>, Mutate<T>>` for the type index 5, which names the
mutex of that type twice. -/
def repeated_mutate_group : EntityGroup :=
  ⟨⟨⟨[]⟩, [5, 5], [], [], 2⟩, [5, 5], []⟩

namespace EntityWorld

/-- The calls that build `sample_world`, followed by `create_group` for the type 0. -/
def crowded_calls : List WorldOp :=
  sample_calls ++ [WorldOp.create_group [ComponentArg.component 0] []]

/-- The world that `crowded_calls` build from a new world over the component types 0 and 2:
two entities, two components, one tag and one group. -/
def crowded_world : EntityWorld :=
  (apply_all (EntityWorld.make [0, 2]) crowded_calls).getD (EntityWorld.make [0, 2])

end EntityWorld

/-! ## The string class `n::core::String` -/

namespace n

/-- Number of values of `n::uint`, which `n/Types.h` defines as `size_t`. -/
def uint_range : Nat := usize_range

/-- The value `(uint)-1`. -/
def uint_minus_one : Nat := uint_range - 1

namespace core

/-- What a call does: it returns a value, it reads a character outside the characters of a
string (undefined behaviour), or its loop never ends. -/
inductive Outcome (α : Type) where
  | returns : α → Outcome α
  | undefined : Outcome α
  | running : Outcome α
deriving DecidableEq, Repr

/-- The class `n::core::String`, as the characters `data[0 .. length)` that it denotes; `none`
is the null `data` pointer, which every constructor pairs with the length 0. The reference
count `count` has no part in what the methods below compute. -/
structure String where
  data : Option (List Char)
deriving DecidableEq

namespace String

/-- The characters that the string denotes. -/
def chars (s : String) : List Char := s.data.getD []

/-- The field `length`. -/
def length (s : String) : Nat := s.chars.length

/-- The method `String::size`. -/
def size (s : String) : Nat := s.length

/-- The method `String::isEmpty`. -/
def isEmpty (s : String) : Bool := s.length == 0

/-- The method `String::isNull`. -/
def isNull (s : String) : Bool := s.data.isNone

/-- The read `data[i]`; `none` outside the characters of the string. -/
def read (s : String) (i : Nat) : Option Char := s.chars.get? i

/-- The constructor `String(const char *cst, uint l)` on the `l` characters at `cst`: no
allocation for the length 0. -/
def make (cst : List Char) : String := if cst.isEmpty then ⟨none⟩ else ⟨some cst⟩

/-- The inner loop of `find(const String &, uint)` at the position `i`, from the index `j`
with `n` indices left: whether the characters match. -/
def find_match (s str : String) (i : Nat) : Nat → Nat → Option Bool
  | 0, _ => some true
  | n + 1, j =>
    match s.read ((i + j) % uint_range), str.read j with
    | some a, some b => if a != b then some false else find_match s str i n (j + 1)
    | _, _ => none

/-- The outer loop of `find(const String &, uint)` from the position `i`, for at most `fuel`
iterations. -/
def find_loop (s str : String) (l : Nat) : Nat → Nat → Outcome Nat
  | 0, _ => Outcome.running
  | fuel + 1, i =>
    if i ≤ l then
      match find_match s str i str.length 0 with
      | none => Outcome.undefined
      | some true => Outcome.returns i
      | some false => find_loop s str l fuel ((i + 1) % uint_range)
    else Outcome.returns uint_minus_one

/-- The method `String::find(const String &str, uint from)`. The loop variable is a `uint`:
a loop that has not ended after more iterations than a `uint` has values never ends. -/
def find (s str : String) (start : Nat) : Outcome Nat :=
  if (start + str.size) % uint_range > s.length then Outcome.returns uint_minus_one
  else
    find_loop s str ((s.length + uint_range - str.length) % uint_range) (uint_range + 1) start

/-- The loop of `beginWith` from the index `i`, with `n` indices left. -/
def beginWith_loop (s str : String) : Nat → Nat → Bool
  | 0, _ => true
  | n + 1, i => if s.read i != str.read i then false else beginWith_loop s str n (i + 1)

/-- The method `String::beginWith`. -/
def beginWith (s str : String) : Bool :=
  if s.length < str.length then false
  else if s.isNull then str.isEmpty
  else if str.isEmpty then true
  else beginWith_loop s str str.length 0

/-- The loop of `endWith`, `for(uint i = s.length - 1; i; i--)`, from the index `i` down. -/
def endWith_loop (s str : String) (offset : Nat) : Nat → Bool
  | 0 => true
  | i + 1 =>
    if s.read (offset + (i + 1)) != str.read (i + 1) then false
    else endWith_loop s str offset i

/-- The method `String::endWith`. -/
def endWith (s str : String) : Bool :=
  if s.length < str.length then false
  else if s.isNull then str.isEmpty
  else if str.isEmpty then true
  else endWith_loop s str (s.length - str.length) (str.length - 1)

/-- The method `String::subString(uint beg, uint len)`, through the constructor
`String(const String &, uint beg, uint len)`: the `len` characters from `data + beg`; `none`
when they are not all characters of the string. -/
def subString (s : String) (beg len : Nat) : Option String :=
  if beg + len ≤ s.length then some ⟨s.data.map fun cs => (cs.drop beg).take len⟩ else none

/-- The method `String::subString(uint beg)`. -/
def subString_from (s : String) (beg : Nat) : Option String :=
  s.subString beg ((s.length + uint_range - beg) % uint_range)

/-- The loop of `split` with the array `arr` and the position `start`, for at most `fuel`
iterations, and the last `append` after the loop. -/
def split_loop (s str : String) : Nat → Nat → List String → Outcome (List String)
  | 0, _, _ => Outcome.running
  | fuel + 1, start, arr =>
    match s.find str start with
    | Outcome.undefined => Outcome.undefined
    | Outcome.running => Outcome.running
    | Outcome.returns p =>
      if p ≠ uint_minus_one then
        match s.subString start ((p + uint_range - start) % uint_range) with
        | none => Outcome.undefined
        | some piece => split_loop s str fuel ((p + str.size) % uint_range) (arr ++ [piece])
      else
        match s.subString_from start with
        | none => Outcome.undefined
        | some piece => Outcome.returns (arr ++ [piece])

/-- The method `String::split`, for at most `fuel` iterations of its loop. -/
def split (fuel : Nat) (s str : String) : Outcome (List String) := split_loop s str fuel 0 []

/-- The pattern `str` occurs in `s` at the index `i`. -/
def occurs_at (s str : String) (i : Nat) : Prop :=
  i + str.length ≤ s.length ∧ str.chars <+: s.chars.drop i

instance (s str : String) (i : Nat) : Decidable (occurs_at s str i) := by
  unfold occurs_at; infer_instance

/-- The concatenation of the pieces with `sep` between consecutive pieces. -/
def joined (sep : List Char) : List (List Char) → List Char
  | [] => []
  | [piece] => piece
  | piece :: next :: rest => piece ++ sep ++ joined sep (next :: rest)

/-- The number of occurrences of a non-empty `sep` that a scan from left to right meets, when
the scan skips the next `skip` characters first and steps over each occurrence it meets. -/
def count_from (sep : List Char) : Nat → List Char → Nat
  | _, [] => 0
  | skip + 1, _ :: rest => count_from sep skip rest
  | 0, c :: rest =>
    if sep <+: c :: rest then 1 + count_from sep (sep.length - 1) rest
    else count_from sep 0 rest

/-- The number of non-overlapping occurrences of a non-empty `sep` in `l`, from left to
right. -/
def count_occurrences (sep l : List Char) : Nat := count_from sep 0 l

end String

end core

end n

/-! # Theorems

## Lists as vectors -/

theorem getD_set_self {α : Type} (l : List α) (i : Nat) (a d : α) (h : i < l.length) :
    (l.set i a).getD i d = a := by
  simp [List.getD_eq_getElem?_getD, List.getElem?_set, h]

theorem getD_set_other {α : Type} (l : List α) (i j : Nat) (a d : α) (h : i ≠ j) :
    (l.set i a).getD j d = l.getD j d := by
  simp [List.getD_eq_getElem?_getD, List.getElem?_set, h]

theorem getD_append_last {α : Type} (l : List α) (a d : α) :
    (l ++ [a]).getD l.length d = a := by
  simp [List.getD_eq_getElem?_getD]

theorem getD_append_before {α : Type} (l : List α) (a d : α) (j : Nat) (h : j < l.length) :
    (l ++ [a]).getD j d = l.getD j d := by
  simp [List.getD_eq_getElem?_getD, List.getElem?_append_left h]

namespace EntityPool

theorem exists_iff (p : EntityPool) (id : EntityId) :
    p.exists id = true ↔
      id.index ≠ invalid_index ∧ id.index < p._ids.length ∧
        p._ids.getD id.index EntityId.null = id := by
  simp [EntityPool.exists, EntityId.is_valid, and_assoc]

theorem create_fresh (p : EntityPool) (hf : p._free = [])
    (hcap : p._ids.length < invalid_index) :
    (create p).1 = ⟨p._ids.length, 0⟩ ∧
      (create p).2._ids = p._ids ++ [⟨p._ids.length, 0⟩] ∧ (create p).2._free = [] := by
  have hm : p._ids.length % u32_range = p._ids.length :=
    Nat.mod_eq_of_lt (by unfold invalid_index at hcap; unfold u32_range; omega)
  simp [create, create_id, hf, EntityId.from_index, hm]

theorem create_reuse (p : EntityPool) (f : List Nat) (i : Nat) (hf : p._free = f ++ [i])
    (hi : i < p._ids.length) :
    (create p).1 = (p._ids.getD i EntityId.null).make_valid i ∧
      (create p).2._ids = p._ids.set i ((p._ids.getD i EntityId.null).make_valid i) ∧
      (create p).2._free = f := by
  have h1 : p._free.isEmpty = false := by simp [hf]
  simp [create, create_id, h1, hf, List.getElem?_set, hi]

theorem free_cases (l : List Nat) : l = [] ∨ ∃ f i, l = f ++ [i] := by
  rcases List.eq_nil_or_concat l with h | ⟨f, i, h⟩
  · exact Or.inl h
  · exact Or.inr ⟨f, i, by simpa using h⟩

theorem length_create_le (p : EntityPool) : p._ids.length ≤ (create p).2._ids.length := by
  unfold create create_id
  split <;> simp

theorem exists_create (p : EntityPool) (hok : FreeListOk p)
    (hcap : (create p).2._ids.length ≤ invalid_index) (id : EntityId) :
    (create p).2.exists id =
      if (create p).1.index = id.index then decide ((create p).1 = id) else p.exists id := by
  rcases free_cases p._free with hf | ⟨f, i, hf⟩
  · have hlen : (create p).2._ids.length = p._ids.length + 1 := by
      simp [create, create_id, hf]
    obtain ⟨h1, h2, -⟩ := create_fresh p hf (by omega)
    rw [Bool.eq_iff_iff, exists_iff, h1, h2]
    by_cases hx : p._ids.length = id.index
    · simp only [hx, if_true, decide_eq_true_eq]
      constructor
      · rintro ⟨-, -, h⟩
        rw [← hx, getD_append_last] at h
        rw [← hx]; exact h
      · intro h
        refine ⟨by omega, by simp only [List.length_append, List.length_singleton]; omega, ?_⟩
        rw [← hx, getD_append_last]; rw [← hx] at h; exact h
    · simp only [hx, if_false, exists_iff, List.length_append, List.length_singleton]
      constructor
      · rintro ⟨ha, hb, hc⟩
        have hlt : id.index < p._ids.length := by omega
        rw [getD_append_before _ _ _ _ hlt] at hc
        exact ⟨ha, hlt, hc⟩
      · rintro ⟨ha, hb, hc⟩
        rw [getD_append_before _ _ _ _ hb]
        exact ⟨ha, by omega, hc⟩
  · have hi := (hok.2.1 i (by simp [hf])).1
    obtain ⟨h1, h2, -⟩ := create_reuse p f i hf hi
    have hlen : (create p).2._ids.length = p._ids.length := by simp [h2]
    rw [Bool.eq_iff_iff, exists_iff, h1, h2]
    by_cases hx : i = id.index
    · have hxi : ((p._ids.getD i EntityId.null).make_valid i).index = id.index := hx
      simp only [hxi, if_true, decide_eq_true_eq, List.length_set]
      rw [← hx, getD_set_self _ _ _ _ hi]
      constructor
      · rintro ⟨-, -, h⟩; exact h
      · intro h; exact ⟨by omega, hi, h⟩
    · have hxi : ¬ ((p._ids.getD i EntityId.null).make_valid i).index = id.index := hx
      simp only [hxi, if_false, exists_iff, List.length_set]
      rw [getD_set_other _ _ _ _ _ hx]

theorem create_index_not_live (p : EntityPool) (hok : FreeListOk p)
    (hcap : (create p).2._ids.length ≤ invalid_index) (id : EntityId)
    (hid : p.exists id = true) : id.index ≠ (create p).1.index := by
  rw [exists_iff] at hid
  obtain ⟨ha, hb, hc⟩ := hid
  rcases free_cases p._free with hf | ⟨f, i, hf⟩
  · have hlen : (create p).2._ids.length = p._ids.length + 1 := by
      simp [create, create_id, hf]
    obtain ⟨h1, -, -⟩ := create_fresh p hf (by omega)
    rw [h1]; simp only; omega
  · have hi := hok.2.1 i (by simp [hf])
    obtain ⟨h1, -, -⟩ := create_reuse p f i hf hi.1
    rw [h1]
    intro h
    have h' : id.index = i := h
    have := hi.2
    rw [← h', hc] at this
    exact ha this

theorem exists_recycle (p q : EntityPool) (x : EntityId) (h : recycle p x = some q)
    (id : EntityId) : q.exists id = if x = id then false else p.exists id := by
  unfold recycle at h
  split at h
  · rename_i hx
    injection h with h
    subst h
    rw [exists_iff] at hx
    obtain ⟨ha, hb, hc⟩ := hx
    rw [Bool.eq_iff_iff]
    by_cases hxi : x = id
    · subst hxi
      simp only [if_true, exists_iff, List.length_set]
      rw [getD_set_self _ _ _ _ hb]
      constructor
      · rintro ⟨h1, -, h3⟩
        have : (p._ids.getD x.index EntityId.null).invalidate.index = x.index := by rw [h3]
        exact absurd this.symm h1
      · intro h; exact absurd h (by simp)
    · simp only [hxi, if_false, exists_iff, List.length_set]
      by_cases hidx : x.index = id.index
      · rw [← hidx, getD_set_self _ _ _ _ hb, hc]
        constructor
        · rintro ⟨h1, -, h3⟩
          have : x.invalidate.index = x.index := by rw [h3, hidx]
          exact absurd this.symm (hidx ▸ h1)
        · rintro ⟨-, -, h3⟩; exact absurd h3 hxi
      · rw [getD_set_other _ _ _ _ _ hidx]
  · exact absurd h (by simp)

theorem freeListOk_empty : FreeListOk EntityPool.empty := by
  refine ⟨by simp [EntityPool.empty], ?_, ?_⟩
  · intro i hi; simp [EntityPool.empty] at hi
  · intro i hi; simp [EntityPool.empty] at hi

theorem freeListOk_create (p : EntityPool) (hok : FreeListOk p)
    (hcap : (create p).2._ids.length ≤ invalid_index) : FreeListOk (create p).2 := by
  obtain ⟨hnd, hfree, hslot⟩ := hok
  rcases free_cases p._free with hf | ⟨f, i0, hf⟩
  · have hlen : (create p).2._ids.length = p._ids.length + 1 := by
      simp [create, create_id, hf]
    obtain ⟨-, h2, h3⟩ := create_fresh p hf (by omega)
    refine ⟨by simp [h3], ?_, ?_⟩
    · intro i hi; simp [h3] at hi
    · intro i hi
      rw [h2] at hi ⊢
      simp only [List.length_append, List.length_singleton] at hi
      by_cases hlt : i < p._ids.length
      · rw [getD_append_before _ _ _ _ hlt]
        rcases hslot i hlt with h | ⟨-, h⟩
        · exact Or.inl h
        · simp [hf] at h
      · have : i = p._ids.length := by omega
        subst this
        rw [getD_append_last]
        exact Or.inl rfl
  · have hi0 := hfree i0 (by simp [hf])
    obtain ⟨-, h2, h3⟩ := create_reuse p f i0 hf hi0.1
    rw [hf] at hnd
    have hnd' := List.nodup_append.1 hnd
    have hnotin : i0 ∉ f := fun h => hnd'.2.2 h (by simp)
    refine ⟨by rw [h3]; exact hnd'.1, ?_, ?_⟩
    · intro i hi
      rw [h3] at hi
      have hne : i0 ≠ i := fun h => hnotin (h ▸ hi)
      have := hfree i (by simp [hf, hi])
      rw [h2, List.length_set, getD_set_other _ _ _ _ _ hne]
      exact this
    · intro i hi
      rw [h2, List.length_set] at hi
      rw [h2, h3]
      by_cases hne : i0 = i
      · subst hne
        rw [getD_set_self _ _ _ _ hi]
        exact Or.inl rfl
      · rw [getD_set_other _ _ _ _ _ hne]
        rcases hslot i hi with h | ⟨h, hm⟩
        · exact Or.inl h
        · refine Or.inr ⟨h, ?_⟩
          rw [hf] at hm
          rcases List.mem_append.1 hm with hm | hm
          · exact hm
          · simp at hm; exact absurd hm.symm hne

theorem recycle_eq (p q : EntityPool) (x : EntityId) (h : recycle p x = some q) :
    p.exists x = true ∧
      q = ⟨p._ids.set x.index ((p._ids.getD x.index EntityId.null).invalidate),
            p._free ++ [x.index], p._parents⟩ := by
  unfold recycle at h
  split at h
  · rename_i hx
    injection h with h
    exact ⟨hx, h.symm⟩
  · exact absurd h (by simp)

theorem freeListOk_recycle (p q : EntityPool) (x : EntityId) (hok : FreeListOk p)
    (h : recycle p x = some q) : FreeListOk q := by
  obtain ⟨hnd, hfree, hslot⟩ := hok
  obtain ⟨hx, hq⟩ := recycle_eq p q x h
  subst hq
  rw [exists_iff] at hx
  obtain ⟨ha, hb, hc⟩ := hx
  have hnotin : x.index ∉ p._free := by
    intro hm
    have := (hfree _ hm).2
    rw [hc] at this
    exact ha this
  refine ⟨?_, ?_, ?_⟩
  · show (p._free ++ [x.index]).Nodup
    rw [List.nodup_append]
    refine ⟨hnd, by simp, ?_⟩
    intro a ha1 ha2
    simp at ha2
    exact hnotin (ha2 ▸ ha1)
  · intro i hi
    show i < (p._ids.set x.index _).length ∧ ((p._ids.set x.index _).getD i _).index = _
    rw [List.length_set]
    have hi' : i ∈ p._free ++ [x.index] := hi
    rcases List.mem_append.1 hi' with hm | hm
    · have hne : x.index ≠ i := fun h => hnotin (h ▸ hm)
      rw [getD_set_other _ _ _ _ _ hne]
      exact hfree i hm
    · simp at hm
      subst hm
      rw [getD_set_self _ _ _ _ hb]
      exact ⟨hb, rfl⟩
  · intro i hi
    have hi' : i < (p._ids.set x.index
        ((p._ids.getD x.index EntityId.null).invalidate)).length := hi
    rw [List.length_set] at hi'
    show ((p._ids.set x.index _).getD i _).index = i ∨
      (((p._ids.set x.index _).getD i _).index = _ ∧ i ∈ p._free ++ [x.index])
    by_cases hne : x.index = i
    · subst hne
      rw [getD_set_self _ _ _ _ hb]
      exact Or.inr ⟨rfl, by simp⟩
    · rw [getD_set_other _ _ _ _ _ hne]
      rcases hslot i hi' with h | ⟨h, hm⟩
      · exact Or.inl h
      · exact Or.inr ⟨h, List.mem_append.2 (Or.inl hm)⟩

theorem length_recycle (p q : EntityPool) (x : EntityId) (h : recycle p x = some q) :
    q._ids.length = p._ids.length := by
  obtain ⟨-, hq⟩ := recycle_eq p q x h
  subst hq
  simp

theorem reachable_ok (p : EntityPool) (hr : Reachable p)
    (hcap : p._ids.length ≤ invalid_index) : FreeListOk p := by
  induction hr with
  | empty => exact freeListOk_empty
  | create p _ ih =>
    exact freeListOk_create p (ih (le_trans (length_create_le p) hcap)) hcap
  | recycle p q x _ h ih =>
    exact freeListOk_recycle p q x (ih (by rw [← length_recycle p q x h]; exact hcap)) h

theorem free_length_lt (p : EntityPool) (hok : FreeListOk p) (id : EntityId)
    (hid : p.exists id = true) : p._free.length < p._ids.length := by
  obtain ⟨hnd, hfree, -⟩ := hok
  rw [exists_iff] at hid
  obtain ⟨ha, hb, hc⟩ := hid
  have hnotin : id.index ∉ p._free := by
    intro hm
    have := (hfree _ hm).2
    rw [hc] at this
    exact ha this
  have hnd' : (id.index :: p._free).Nodup := List.nodup_cons.2 ⟨hnotin, hnd⟩
  have hsub : (id.index :: p._free) ⊆ List.range p._ids.length := by
    intro a ha'
    rw [List.mem_range]
    rcases List.mem_cons.1 ha' with h | h
    · rw [h]; exact hb
    · exact (hfree a h).1
  have := (List.subperm_of_subset hnd' hsub).length_le
  simp only [List.length_cons, List.length_range] at this
  omega

theorem run_length_le : ∀ (ops : List Op) (p : EntityPool) (evs : List Event)
    (q : EntityPool) (evs' : List Event), run (p, evs) ops = some (q, evs') →
    p._ids.length ≤ q._ids.length := by
  intro ops
  induction ops with
  | nil =>
    intro p evs q evs' hrun
    simp only [run, Option.some.injEq, Prod.mk.injEq] at hrun
    rw [hrun.1]
  | cons op ops ih =>
    intro p evs q evs' hrun
    cases op with
    | create =>
      simp only [run, step] at hrun
      exact le_trans (length_create_le p) (ih _ _ _ _ hrun)
    | recycle x =>
      simp only [run, step] at hrun
      cases hrec : recycle p x with
      | none => simp [hrec] at hrun
      | some c =>
        simp only [hrec, Option.map_some'] at hrun
        rw [← length_recycle p c x hrec]
        exact ih _ _ _ _ hrun

theorem run_ok : ∀ (ops : List Op) (p : EntityPool) (evs : List Event) (q : EntityPool)
    (evs' : List Event), FreeListOk p → (∀ id, p.exists id = live_in_history evs id) →
    run (p, evs) ops = some (q, evs') → q._ids.length ≤ invalid_index →
    FreeListOk q ∧ ∀ id, q.exists id = live_in_history evs' id := by
  intro ops
  induction ops with
  | nil =>
    intro p evs q evs' hok hlive hrun _
    simp only [run, Option.some.injEq, Prod.mk.injEq] at hrun
    obtain ⟨rfl, rfl⟩ := hrun
    exact ⟨hok, hlive⟩
  | cons op ops ih =>
    intro p evs q evs' hok hlive hrun hcap
    cases op with
    | create =>
      simp only [run, step] at hrun
      have hcap' : (create p).2._ids.length ≤ invalid_index :=
        le_trans (run_length_le _ _ _ _ _ hrun) hcap
      exact ih (create p).2 _ q evs' (freeListOk_create p hok hcap')
        (fun id => by rw [exists_create p hok hcap' id, hlive id]; rfl) hrun hcap
    | recycle x =>
      simp only [run, step] at hrun
      cases hrec : recycle p x with
      | none => simp [hrec] at hrun
      | some c =>
        simp only [hrec, Option.map_some'] at hrun
        exact ih c _ q evs' (freeListOk_recycle p c x hok hrec)
          (fun id => by rw [exists_recycle p c x hrec id, hlive id]; rfl) hrun hcap

theorem exists_empty (id : EntityId) : EntityPool.empty.exists id = false := by
  simp [EntityPool.exists, EntityPool.empty]

theorem size_eq (p : EntityPool) (h1 : p._free.length ≤ p._ids.length)
    (h2 : p._ids.length ≤ invalid_index) : p.size = p._ids.length - p._free.length := by
  unfold size usize_range
  unfold invalid_index at h2
  omega

/-- C1: for every sequence of `create` and `recycle` calls run from the empty pool without an
assertion failure (so `recycle` is only called on ids that exist), in a pool within the `u32`
index range, and for every id: `exists(id)` is true iff `id` is the value returned by the most
recent `create()` that produced its index and no recycle of `id` has happened since. -/
theorem C1_exists_iff_most_recent_create (ops : List Op) (q : EntityPool) (evs : List Event)
    (hrun : run (EntityPool.empty, []) ops = some (q, evs))
    (hcap : q._ids.length ≤ invalid_index) (id : EntityId) :
    q.exists id = true ↔ live_in_history evs id = true := by
  have := (run_ok ops EntityPool.empty [] q evs freeListOk_empty
    (fun x => by rw [exists_empty]; rfl) hrun hcap).2 id
  rw [this]

/-- The history theorem at the run `create, create, recycle(0), create`, for the id that the
last `create` returned. -/
theorem C1_witness :
    (run (EntityPool.empty, []) [Op.create, Op.create, Op.recycle ⟨0, 0⟩, Op.create] =
        some (⟨[⟨0, 1⟩, ⟨1, 0⟩], [], [EntityId.null, EntityId.null]⟩,
          [Event.created ⟨0, 1⟩, Event.recycled ⟨0, 0⟩, Event.created ⟨1, 0⟩,
            Event.created ⟨0, 0⟩])) ∧
      ((⟨[⟨0, 1⟩, ⟨1, 0⟩], [], [EntityId.null, EntityId.null]⟩ : EntityPool).exists ⟨0, 1⟩
          = true ↔
        live_in_history [Event.created ⟨0, 1⟩, Event.recycled ⟨0, 0⟩, Event.created ⟨1, 0⟩,
          Event.created ⟨0, 0⟩] ⟨0, 1⟩ = true) :=
  ⟨by decide,
    C1_exists_iff_most_recent_create [Op.create, Op.create, Op.recycle ⟨0, 0⟩, Op.create]
      ⟨[⟨0, 1⟩, ⟨1, 0⟩], [], [EntityId.null, EntityId.null]⟩
      [Event.created ⟨0, 1⟩, Event.recycled ⟨0, 0⟩, Event.created ⟨1, 0⟩, Event.created ⟨0, 0⟩]
      (by decide) (by decide) ⟨0, 1⟩⟩

/-- C2: in every pool state reachable by `create`/`recycle` (within the `u32` index range),
`create()` returns an id that exists immediately afterwards, that differs from every id that
existed before the call, and every id that existed before the call still exists after it. -/
theorem C2_create_returns_fresh_live_id (p : EntityPool) (hr : Reachable p)
    (hcap : (create p).2._ids.length ≤ invalid_index) :
    (create p).2.exists (create p).1 = true ∧
      (∀ id, p.exists id = true → id ≠ (create p).1) ∧
      (∀ id, p.exists id = true → (create p).2.exists id = true) := by
  have hok := reachable_ok p hr (le_trans (length_create_le p) hcap)
  refine ⟨?_, ?_, ?_⟩
  · rw [exists_create p hok hcap]; simp
  · intro id hid h
    exact create_index_not_live p hok hcap id hid (by rw [h])
  · intro id hid
    rw [exists_create p hok hcap, if_neg (Ne.symm (create_index_not_live p hok hcap id hid))]
    exact hid

/-- The theorem on `create` at the pool that holds one entity. -/
theorem C2_witness :
    (create (create EntityPool.empty).2).2.exists (create (create EntityPool.empty).2).1
        = true ∧
      (∀ id, (create EntityPool.empty).2.exists id = true →
        id ≠ (create (create EntityPool.empty).2).1) ∧
      (∀ id, (create EntityPool.empty).2.exists id = true →
        (create (create EntityPool.empty).2).2.exists id = true) :=
  C2_create_returns_fresh_live_id (create EntityPool.empty).2
    (Reachable.create _ Reachable.empty) (by decide)

/-- C3 (as stated, refuted): after `create(); create(); recycle(0); recycle(1)` the free
indices are 0 and 1, and `create()` returns index 1, which is not the lowest free index. -/
theorem C3_create_not_lowest_free :
    (run (EntityPool.empty, []) [Op.create, Op.create, Op.recycle ⟨0, 0⟩,
        Op.recycle ⟨1, 0⟩]).map Prod.fst = some lifo_pool ∧
      lifo_pool._free = [0, 1] ∧ (create lifo_pool).1.index = 1 ∧
      ¬ (∀ i ∈ lifo_pool._free, (create lifo_pool).1.index ≤ i) := by
  decide

/-- C3 (amended): in every reachable pool within the `u32` index range, when the free list is
not empty `create()` returns an id whose index is the most recently recycled index that has not
been reused (the back of the free list, which it pops; `recycle` pushes at the back, so a
`create()` right after `recycle(x)` returns the index of `x`); when no index is free it returns
a brand-new index equal to the number of slots allocated so far. -/
theorem C3_create_index (p : EntityPool) (hr : Reachable p)
    (hcap : (create p).2._ids.length ≤ invalid_index) :
    (p._free = [] →
        (create p).1.index = p._ids.length ∧
          (create p).2._ids.length = p._ids.length + 1) ∧
      (∀ f i, p._free = f ++ [i] →
        (create p).1.index = i ∧ (create p).2._free = f ∧
          (create p).2._ids.length = p._ids.length) ∧
      (∀ q x, recycle p x = some q →
        q._free = p._free ++ [x.index] ∧ (create q).1.index = x.index) := by
  have hok := reachable_ok p hr (le_trans (length_create_le p) hcap)
  refine ⟨?_, ?_, ?_⟩
  · intro hf
    have hlen : (create p).2._ids.length = p._ids.length + 1 := by
      simp [create, create_id, hf]
    obtain ⟨h1, -, -⟩ := create_fresh p hf (by omega)
    exact ⟨by rw [h1], hlen⟩
  · intro f i hf
    have hi := (hok.2.1 i (by simp [hf])).1
    obtain ⟨h1, h2, h3⟩ := create_reuse p f i hf hi
    exact ⟨by rw [h1]; rfl, h3, by rw [h2, List.length_set]⟩
  · intro q x hq
    obtain ⟨hx, hq'⟩ := recycle_eq p q x hq
    have hfq : q._free = p._free ++ [x.index] := by rw [hq']
    have hxlt : x.index < q._ids.length := by
      rw [length_recycle p q x hq]
      exact ((exists_iff p x).1 hx).2.1
    obtain ⟨h1, -, -⟩ := create_reuse q p._free x.index hfq hxlt
    exact ⟨hfq, by rw [h1]; rfl⟩

/-- The theorem on the index of `create` at the pool with the free list `[0, 1]`. -/
theorem C3_witness :
    (create lifo_pool).2._ids.length ≤ invalid_index ∧
      ((create lifo_pool).1.index = 1 ∧ (create lifo_pool).2._free = [0] ∧
        (create lifo_pool).2._ids.length = lifo_pool._ids.length) :=
  ⟨by decide,
    (C3_create_index lifo_pool
      (Reachable.recycle _ _ ⟨1, 0⟩
        (Reachable.recycle _ _ ⟨0, 0⟩
          (Reachable.create _ (Reachable.create _ Reachable.empty))
          (show recycle (create (create EntityPool.empty).2).2 ⟨0, 0⟩ =
            some ⟨[⟨invalid_index, 0⟩, ⟨1, 0⟩], [0], [EntityId.null, EntityId.null]⟩ by
            decide))
        (by decide))
      (by decide)).2.1 [0] 1 (by decide)⟩

/-- C4: for every reachable pool (within the `u32` index range) and every id with `exists(id)`
true, `recycle(id)` succeeds and afterwards `exists(id)` is false, the index of `id` is on the
free list, `size()` has decreased by exactly one and `exists(other)` is unchanged for every
other id; `recycle` of an id that does not exist fails its assertion. -/
theorem C4_recycle_effect (p : EntityPool) (hr : Reachable p)
    (hcap : p._ids.length ≤ invalid_index) (id : EntityId) (hid : p.exists id = true) :
    (∃ q, recycle p id = some q ∧ q.exists id = false ∧ id.index ∈ q._free ∧
        q.size + 1 = p.size ∧ ∀ other, other ≠ id → q.exists other = p.exists other) ∧
      (∀ x, p.exists x = false → recycle p x = none) := by
  have hok := reachable_ok p hr hcap
  constructor
  · have hsome : recycle p id = some ⟨p._ids.set id.index
        ((p._ids.getD id.index EntityId.null).invalidate), p._free ++ [id.index],
        p._parents⟩ := by
      simp [recycle, hid]
    refine ⟨_, hsome, ?_, ?_, ?_, ?_⟩
    · rw [exists_recycle p _ id hsome]; simp
    · simp
    · have hlt := free_length_lt p hok id hid
      rw [size_eq p (le_of_lt hlt) hcap, size_eq _ (by simp; omega) (by simpa using hcap)]
      simp only [List.length_set, List.length_append, List.length_singleton]
      omega
    · intro other hne
      rw [exists_recycle p _ id hsome, if_neg (Ne.symm hne)]
  · intro x hx
    simp [recycle, hx]

/-- The theorem on `recycle` at the pool that holds one entity, for that entity. -/
theorem C4_witness :
    (create EntityPool.empty).2._ids.length ≤ invalid_index ∧
      (create EntityPool.empty).2.exists ⟨0, 0⟩ = true ∧
      ((∃ q, recycle (create EntityPool.empty).2 ⟨0, 0⟩ = some q ∧
          q.exists ⟨0, 0⟩ = false ∧ (⟨0, 0⟩ : EntityId).index ∈ q._free ∧
          q.size + 1 = (create EntityPool.empty).2.size ∧
          ∀ other, other ≠ ⟨0, 0⟩ →
            q.exists other = (create EntityPool.empty).2.exists other) ∧
        (∀ x, (create EntityPool.empty).2.exists x = false →
          recycle (create EntityPool.empty).2 x = none)) :=
  ⟨by decide, by decide,
    C4_recycle_effect (create EntityPool.empty).2 (Reachable.create _ Reachable.empty)
      (by decide) ⟨0, 0⟩ (by decide)⟩

/-! ### The older pool runs the same id logic -/

theorem to_id_pool_contains (p : EntityPool) (id : EntityId) :
    p.to_id_pool.contains id = p.exists id := rfl

theorem to_id_pool_create (p : EntityPool) :
    p.to_id_pool.create = ((create p).1, (create p).2.to_id_pool) := by
  unfold EntityIDPool.create create create_id to_id_pool
  split <;> rfl

theorem to_id_pool_recycle (p : EntityPool) (id : EntityId) :
    p.to_id_pool.recycle id = (recycle p id).map to_id_pool := by
  unfold EntityIDPool.recycle recycle
  rw [to_id_pool_contains]
  split <;> rfl

end EntityPool

/-! ## Sparse id sets -/

theorem mem_swap_remove (l : List EntityId) (id : EntityId) (h : l.Nodup) (hid : id ∈ l)
    (x : EntityId) : x ∈ swap_remove l id ↔ x ∈ l ∧ x ≠ id := by
  rcases List.eq_nil_or_concat l with hl | ⟨init, last, hl⟩
  · subst hl; simp at hid
  · have hl' : l = init ++ [last] := by simpa using hl
    subst hl'
    have hnd := List.nodup_append.1 h
    have hlast : last ∉ init := fun hm => hnd.2.2 hm (by simp)
    simp only [swap_remove, List.getLast?_concat, List.dropLast_concat, List.mem_map,
      List.mem_append, List.mem_singleton]
    constructor
    · rintro ⟨y, hy, hxy⟩
      by_cases hyid : y = id
      · rw [if_pos hyid] at hxy
        subst hxy
        refine ⟨Or.inr rfl, ?_⟩
        intro h'
        exact hlast (by rw [h', ← hyid]; exact hy)
      · rw [if_neg hyid] at hxy
        subst hxy
        exact ⟨Or.inl hy, hyid⟩
    · rintro ⟨hx | hx, hne⟩
      · exact ⟨x, hx, by rw [if_neg hne]⟩
      · subst hx
        have hin : id ∈ init := by
          rcases List.mem_append.1 hid with h1 | h1
          · exact h1
          · rw [List.mem_singleton] at h1; exact absurd h1.symm hne
        exact ⟨id, hin, by rw [if_pos rfl]⟩

theorem nodup_swap_remove (l : List EntityId) (id : EntityId) (h : l.Nodup) :
    (swap_remove l id).Nodup := by
  rcases List.eq_nil_or_concat l with hl | ⟨init, last, hl⟩
  · subst hl; simp [swap_remove]
  · have hl' : l = init ++ [last] := by simpa using hl
    subst hl'
    have hnd := List.nodup_append.1 h
    have hlast : last ∉ init := fun hm => hnd.2.2 hm (by simp)
    simp only [swap_remove, List.getLast?_concat, List.dropLast_concat]
    refine List.Nodup.map_on ?_ hnd.1
    intro a ha b hb hab
    by_cases h1 : a = id <;> by_cases h2 : b = id
    · rw [h1, h2]
    · rw [if_pos h1, if_neg h2] at hab
      exact absurd (hab ▸ hb) hlast
    · rw [if_neg h1, if_pos h2] at hab
      exact absurd (hab ▸ ha) hlast
    · rw [if_neg h1, if_neg h2] at hab
      exact hab

namespace SparseIdSet

theorem contains_iff (s : SparseIdSet) (id : EntityId) : s.contains id = true ↔ id ∈ s.ids := by
  simp [contains]

theorem mem_insert (s : SparseIdSet) (id x : EntityId) :
    x ∈ (s.insert id).ids ↔ x ∈ s.ids ∨ x = id := by
  unfold insert
  split
  · rename_i h
    rw [contains_iff] at h
    constructor
    · exact Or.inl
    · rintro (h1 | h1)
      · exact h1
      · rw [h1]; exact h
  · simp

theorem wf_insert (s : SparseIdSet) (id : EntityId) (h : s.WF) : (s.insert id).WF := by
  unfold insert
  split
  · exact h
  · rename_i hc
    rw [contains_iff] at hc
    unfold WF
    rw [List.nodup_append]
    refine ⟨h, List.nodup_singleton id, ?_⟩
    intro a ha hb
    rw [List.mem_singleton] at hb
    exact hc (hb ▸ ha)

theorem mem_erase (s : SparseIdSet) (id x : EntityId) (h : s.WF) :
    x ∈ (s.erase id).ids ↔ x ∈ s.ids ∧ x ≠ id := by
  unfold erase
  split
  · rename_i hc
    rw [contains_iff] at hc
    exact mem_swap_remove s.ids id h hc x
  · rename_i hc
    rw [contains_iff] at hc
    constructor
    · intro hx
      exact ⟨hx, fun he => hc (he ▸ hx)⟩
    · exact fun hx => hx.1

theorem wf_erase (s : SparseIdSet) (id : EntityId) (h : s.WF) : (s.erase id).WF := by
  unfold erase
  split
  · exact nodup_swap_remove s.ids id h
  · exact h

end SparseIdSet

/-! ## Group membership -/

theorem length_set_min_size {α : Type} (d : α) (v : List α) (n : Nat) :
    (set_min_size d v n).length = max v.length n := by
  simp [set_min_size]
  omega

theorem getD_set_min_size {α : Type} (d : α) (v : List α) (n i : Nat) :
    (set_min_size d v n).getD i d = v.getD i d := by
  unfold set_min_size
  by_cases h : i < v.length
  · simp [List.getD_eq_getElem?_getD, List.getElem?_append_left h]
  · push_neg at h
    simp only [List.getD_eq_getElem?_getD, List.getElem?_append_right h,
      List.getElem?_eq_none h, Option.getD_none]
    by_cases h2 : i - v.length < n - v.length
    · simp [List.getElem?_replicate, h2]
    · simp [List.getElem?_replicate, h2]

theorem getD_set {α : Type} (l : List α) (i j : Nat) (a d : α) (h : i < l.length) :
    (l.set i a).getD j d = if j = i then a else l.getD j d := by
  by_cases hj : j = i
  · subst hj; rw [if_pos rfl, getD_set_self _ _ _ _ h]
  · rw [if_neg hj, getD_set_other _ _ _ _ _ (Ne.symm hj)]

namespace EntityGroupBase

theorem add_consistent (U : EntityId → Prop)
    (hU : ∀ a b, U a → U b → a.index = b.index → a = b) (g : EntityGroupBase)
    (hg : Consistent U g) (id : EntityId) (hid : U id)
    (hpre : precondition g (Update.add id) = true) :
    ∃ g1, add_entity_component g id = some g1 ∧ Consistent U g1 ∧
      g1._component_count = g._component_count := by
  obtain ⟨⟨hn1, hn2⟩, hle, hwf, hmc, hcm⟩ := hg
  simp only [precondition, EntityId.is_valid, Bool.and_eq_true, bne_iff_ne, ne_eq,
    decide_eq_true_eq] at hpre
  obtain ⟨⟨hv1, hv2⟩, hlt⟩ := hpre
  have hidx : (id.index + 1) % u32_range = id.index + 1 :=
    Nat.mod_eq_of_lt (by unfold u32_range invalid_index at *; omega)
  have hlen : id.index <
      (set_min_size 0 g._entity_component_count (id.index + 1)).length := by
    rw [length_set_min_size]; omega
  have hc : (set_min_size 0 g._entity_component_count (id.index + 1)).getD id.index 0 =
      g.count_of id := getD_set_min_size 0 _ _ _
  have hc1 : (g.count_of id + 1) % u8_range = g.count_of id + 1 :=
    Nat.mod_eq_of_lt (by omega)
  have hget : ∀ j, ((set_min_size 0 g._entity_component_count (id.index + 1)).set id.index
      (g.count_of id + 1)).getD j 0 =
      if j = id.index then g.count_of id + 1 else g._entity_component_count.getD j 0 := by
    intro j
    rw [getD_set _ _ _ _ _ hlen, getD_set_min_size]
  unfold add_entity_component
  simp only [hidx, hlen, hc, hc1, hlt, if_true]
  by_cases heq : g.count_of id + 1 = g._component_count
  · have hnot : id ∉ g._ids.ids := by
      intro hm
      have := (hmc id hm).2
      omega
    have hcont : g._ids.contains id = false := by
      simp [SparseIdSet.contains, hnot]
    simp only [heq, hcont, if_true, Bool.not_false]
    refine ⟨_, rfl, ⟨⟨hn1, hn2⟩, ?_, SparseIdSet.wf_insert _ _ hwf, ?_, ?_⟩, rfl⟩
    · intro j
      show (List.set _ _ _).getD j 0 ≤ g._component_count
      rw [← heq, hget]
      split
      · exact le_refl _
      · have := hle j; omega
    · intro x hx
      rw [SparseIdSet.mem_insert] at hx
      show U x ∧ (List.set _ _ _).getD x.index 0 = g._component_count
      rw [← heq, hget]
      rcases hx with hx | hx
      · have hx' := hmc x hx
        refine ⟨hx'.1, ?_⟩
        have hne : x.index ≠ id.index := by
          intro h
          have := hU x id hx'.1 hid h
          exact hnot (this ▸ hx)
        rw [if_neg hne]
        have := hx'.2
        unfold count_of at this
        omega
      · subst hx
        exact ⟨hid, by rw [if_pos rfl]⟩
    · intro x hx hcount
      rw [SparseIdSet.mem_insert]
      have hcount' : (List.set _ _ _).getD x.index 0 = g._component_count := hcount
      rw [← heq, hget] at hcount'
      by_cases hxi : x.index = id.index
      · exact Or.inr (hU x id hx hid hxi)
      · rw [if_neg hxi] at hcount'
        exact Or.inl (hcm x hx (by unfold count_of; omega))
  · simp only [heq, if_false]
    refine ⟨_, rfl, ⟨⟨hn1, hn2⟩, ?_, hwf, ?_, ?_⟩, rfl⟩
    · intro j
      show (List.set _ _ _).getD j 0 ≤ g._component_count
      rw [hget]
      split
      · omega
      · exact hle j
    · intro x hx
      have hx' := hmc x hx
      refine ⟨hx'.1, ?_⟩
      show (List.set _ _ _).getD x.index 0 = g._component_count
      rw [hget]
      have hne : x.index ≠ id.index := by
        intro h
        have := hU x id hx'.1 hid h
        subst this
        have := hx'.2
        omega
      rw [if_neg hne]
      exact hx'.2
    · intro x hx hcount
      have hcount' : (List.set _ _ _).getD x.index 0 = g._component_count := hcount
      rw [hget] at hcount'
      by_cases hxi : x.index = id.index
      · rw [if_pos hxi] at hcount'
        exact absurd hcount' heq
      · rw [if_neg hxi] at hcount'
        exact hcm x hx hcount'

theorem remove_consistent (U : EntityId → Prop)
    (hU : ∀ a b, U a → U b → a.index = b.index → a = b) (g : EntityGroupBase)
    (hg : Consistent U g) (id : EntityId) (hid : U id)
    (hpre : precondition g (Update.remove id) = true) :
    ∃ g1, remove_entity_component g id = some g1 ∧ Consistent U g1 ∧
      g1._component_count = g._component_count := by
  obtain ⟨⟨hn1, hn2⟩, hle, hwf, hmc, hcm⟩ := hg
  simp only [precondition, decide_eq_true_eq] at hpre
  have hlen : id.index < g._entity_component_count.length := by
    by_contra hcon
    push_neg at hcon
    have : g.count_of id = 0 := by
      unfold count_of
      simp [List.getD_eq_getElem?_getD, List.getElem?_eq_none hcon]
    omega
  have hprev : g._entity_component_count.getD id.index 0 = g.count_of id := rfl
  have hle_id : g.count_of id ≤ g._component_count := hle id.index
  have hdec : (g.count_of id + u8_range - 1) % u8_range = g.count_of id - 1 := by
    unfold u8_range at *
    omega
  have hget : ∀ j, (g._entity_component_count.set id.index (g.count_of id - 1)).getD j 0 =
      if j = id.index then g.count_of id - 1 else g._entity_component_count.getD j 0 := by
    intro j
    rw [getD_set _ _ _ _ _ hlen]
  unfold remove_entity_component
  simp only [gt_iff_lt, hlen, hprev, hdec, if_true]
  by_cases heq : g.count_of id = g._component_count
  · have hin : id ∈ g._ids.ids := hcm id hid heq
    have hcont : g._ids.contains id = true := by
      simp [SparseIdSet.contains, hin]
    rw [if_pos heq, if_pos hcont]
    refine ⟨_, rfl, ⟨⟨hn1, hn2⟩, ?_, SparseIdSet.wf_erase _ _ hwf, ?_, ?_⟩, rfl⟩
    · intro j
      show (List.set _ _ _).getD j 0 ≤ g._component_count
      rw [hget]
      split
      · omega
      · exact hle j
    · intro x hx
      rw [SparseIdSet.mem_erase _ _ _ hwf] at hx
      show U x ∧ (List.set _ _ _).getD x.index 0 = g._component_count
      rw [hget]
      have hx' := hmc x hx.1
      refine ⟨hx'.1, ?_⟩
      have hne : x.index ≠ id.index := fun h => hx.2 (hU x id hx'.1 hid h)
      rw [if_neg hne]
      exact hx'.2
    · intro x hx hcount
      rw [SparseIdSet.mem_erase _ _ _ hwf]
      have hcount' : (List.set _ _ _).getD x.index 0 = g._component_count := hcount
      rw [hget] at hcount'
      by_cases hxi : x.index = id.index
      · rw [if_pos hxi] at hcount'
        omega
      · rw [if_neg hxi] at hcount'
        refine ⟨hcm x hx hcount', ?_⟩
        intro h
        exact hxi (by rw [h])
  · rw [if_neg heq]
    refine ⟨_, rfl, ⟨⟨hn1, hn2⟩, ?_, hwf, ?_, ?_⟩, rfl⟩
    · intro j
      show (List.set _ _ _).getD j 0 ≤ g._component_count
      rw [hget]
      split
      · omega
      · exact hle j
    · intro x hx
      have hx' := hmc x hx
      refine ⟨hx'.1, ?_⟩
      show (List.set _ _ _).getD x.index 0 = g._component_count
      rw [hget]
      have hne : x.index ≠ id.index := by
        intro h
        have := hU x id hx'.1 hid h
        subst this
        exact heq hx'.2
      rw [if_neg hne]
      exact hx'.2
    · intro x hx hcount
      have hcount' : (List.set _ _ _).getD x.index 0 = g._component_count := hcount
      rw [hget] at hcount'
      by_cases hxi : x.index = id.index
      · rw [if_pos hxi] at hcount'
        omega
      · rw [if_neg hxi] at hcount'
        exact hcm x hx hcount'

theorem apply_consistent (U : EntityId → Prop)
    (hU : ∀ a b, U a → U b → a.index = b.index → a = b) (g : EntityGroupBase)
    (hg : Consistent U g) (u : Update) (hid : U u.id) (hpre : precondition g u = true) :
    ∃ g1, apply g u = some g1 ∧ Consistent U g1 ∧
      g1._component_count = g._component_count := by
  cases u with
  | add id => exact add_consistent U hU g hg id hid hpre
  | remove id => exact remove_consistent U hU g hg id hid hpre

theorem apply_all_consistent (U : EntityId → Prop)
    (hU : ∀ a b, U a → U b → a.index = b.index → a = b) :
    ∀ (us : List Update) (g : EntityGroupBase), Consistent U g → (∀ u ∈ us, U u.id) →
      respects g us = true →
      ∃ g1, apply_all g us = some g1 ∧ Consistent U g1 ∧
        g1._component_count = g._component_count := by
  intro us
  induction us with
  | nil =>
    intro g hg _ _
    exact ⟨g, rfl, hg, rfl⟩
  | cons u us ih =>
    intro g hg hids hres
    simp only [respects, Bool.and_eq_true] at hres
    obtain ⟨g1, h1, hg1, hn1⟩ := apply_consistent U hU g hg u (hids u (by simp)) hres.1
    have hres2 := hres.2
    rw [h1] at hres2
    obtain ⟨g2, h2, hg2, hn2⟩ := ih g1 hg1 (fun v hv => hids v (by simp [hv])) hres2
    refine ⟨g2, ?_, hg2, by rw [hn2, hn1]⟩
    simp only [apply_all, h1]
    exact h2

theorem make_consistent (U : EntityId → Prop) (types : List Nat) (tags : List String)
    (g : EntityGroupBase) (hmk : make types tags = some g)
    (hn : 1 ≤ types.length + tags.length) :
    Consistent U g ∧ g._component_count = types.length + tags.length := by
  unfold make at hmk
  simp only at hmk
  split at hmk
  · rename_i heq
    injection hmk with hmk
    subst hmk
    have hlt : types.length + tags.length < u8_range := by
      rw [← heq]; exact Nat.mod_lt _ (by unfold u8_range; omega)
    refine ⟨⟨⟨?_, ?_⟩, ?_, ?_, ?_, ?_⟩, heq⟩
    · show 1 ≤ (types.length + tags.length) % u8_range
      rw [heq]; exact hn
    · show (types.length + tags.length) % u8_range < u8_range
      rw [heq]; exact hlt
    · intro i
      show ([] : List Nat).getD i 0 ≤ _
      simp
    · show ([] : List EntityId).Nodup
      exact List.nodup_nil
    · intro x hx
      exact absurd hx (by simp [SparseIdSet.empty])
    · intro x _ hc
      have hc' : ([] : List Nat).getD x.index 0 = (types.length + tags.length) % u8_range := hc
      rw [heq] at hc'
      simp at hc'
      omega
  · exact absurd hmk (by simp)

/-- C5: for a group built from component types and tags with required count
`n = types + tags >= 1`, every sequence of `add_entity_component` /
`remove_entity_component` calls that respects the preconditions (add only for a valid id whose
satisfied count is below `n`, remove only when it is above 0, one id per index) runs without an
assertion failure, and afterwards every count is within `0..n` and an id (the only id of its
index) is in the cached id set iff its satisfied count equals `n`. -/
theorem C5_group_membership_iff_count (types : List Nat) (tags : List String)
    (g0 : EntityGroupBase) (hmk : make types tags = some g0)
    (hn : 1 ≤ types.length + tags.length) (us : List Update)
    (hres : respects g0 us = true)
    (hone : ∀ u ∈ us, ∀ v ∈ us, u.id.index = v.id.index → u.id = v.id) :
    ∃ g, apply_all g0 us = some g ∧
      (∀ i, g._entity_component_count.getD i 0 ≤ types.length + tags.length) ∧
      ∀ id, (∀ u ∈ us, u.id.index = id.index → u.id = id) →
        (g._ids.contains id = true ↔ g.count_of id = types.length + tags.length) := by
  have hU0 : ∀ a b, (∃ u ∈ us, u.id = a) → (∃ u ∈ us, u.id = b) → a.index = b.index →
      a = b := by
    rintro a b ⟨u, hu, rfl⟩ ⟨v, hv, rfl⟩ h
    exact hone u hu v hv h
  obtain ⟨hc0, hn0⟩ := make_consistent (fun x => ∃ u ∈ us, u.id = x) types tags g0 hmk hn
  obtain ⟨g, hg, hcons, hng⟩ := apply_all_consistent _ hU0 us g0 hc0
    (fun u hu => ⟨u, hu, rfl⟩) hres
  refine ⟨g, hg, ?_, ?_⟩
  · intro i
    rw [← hn0, ← hng]
    exact hcons.2.1 i
  · intro id hid
    have hU : ∀ a b, ((∃ u ∈ us, u.id = a) ∨ a = id) → ((∃ u ∈ us, u.id = b) ∨ b = id) →
        a.index = b.index → a = b := by
      rintro a b (⟨u, hu, rfl⟩ | rfl) (⟨v, hv, rfl⟩ | rfl) h
      · exact hone u hu v hv h
      · exact hid u hu h
      · exact (hid v hv h.symm).symm
      · rfl
    obtain ⟨hc1, -⟩ := make_consistent (fun x => (∃ u ∈ us, u.id = x) ∨ x = id) types tags
      g0 hmk hn
    obtain ⟨g1, hg1, hcons1, -⟩ := apply_all_consistent _ hU us g0 hc1
      (fun u hu => Or.inl ⟨u, hu, rfl⟩) hres
    rw [hg] at hg1
    injection hg1 with hg1
    subst hg1
    rw [SparseIdSet.contains_iff, ← hn0, ← hng]
    constructor
    · intro h
      exact (hcons1.2.2.2.1 id h).2
    · intro h
      exact hcons1.2.2.2.2 id (Or.inr rfl) h

/-- The membership theorem at a group of one type and one tag, for two entities. -/
theorem C5_witness :
    ∃ g, apply_all ⟨SparseIdSet.empty, [7], ["t"], [], 2⟩
        [Update.add ⟨2, 0⟩, Update.add ⟨2, 0⟩, Update.add ⟨0, 0⟩, Update.remove ⟨2, 0⟩,
          Update.add ⟨0, 0⟩] = some g ∧
      (∀ i, g._entity_component_count.getD i 0 ≤ [7].length + ["t"].length) ∧
      ∀ id, (∀ u ∈ [Update.add ⟨2, 0⟩, Update.add ⟨2, 0⟩, Update.add ⟨0, 0⟩,
            Update.remove ⟨2, 0⟩, Update.add ⟨0, 0⟩], u.id.index = id.index → u.id = id) →
        (g._ids.contains id = true ↔ g.count_of id = [7].length + ["t"].length) :=
  C5_group_membership_iff_count [7] ["t"] ⟨SparseIdSet.empty, [7], ["t"], [], 2⟩
    (by decide) (by decide)
    [Update.add ⟨2, 0⟩, Update.add ⟨2, 0⟩, Update.add ⟨0, 0⟩, Update.remove ⟨2, 0⟩,
      Update.add ⟨0, 0⟩]
    (by decide) (by decide)

end EntityGroupBase

/-! ## Group queries -/

namespace EntityGroup

theorem mem_intersect_cons (first : SparseIdSet) (rest : List SparseIdSet) (id : EntityId) :
    id ∈ intersect (first :: rest) ↔ id ∈ first.ids ∧ ∀ s ∈ rest, id ∈ s.ids := by
  simp [intersect, SparseIdSet.contains]

theorem mem_intersect (m : List SparseIdSet) (hm : m ≠ []) (id : EntityId) :
    id ∈ intersect m ↔ ∀ s ∈ m, id ∈ s.ids := by
  cases m with
  | nil => exact absurd rfl hm
  | cons first rest =>
    rw [mem_intersect_cons]
    simp

theorem nodup_intersect (m : List SparseIdSet) (h : ∀ s ∈ m, s.WF) : (intersect m).Nodup := by
  cases m with
  | nil => exact List.nodup_nil
  | cons first rest =>
    unfold intersect
    exact List.Nodup.filter _ (h first (by simp))

theorem mem_insert_all (ids : List EntityId) :
    ∀ (s : SparseIdSet) (x : EntityId), x ∈ (insert_all s ids).ids ↔ x ∈ s.ids ∨ x ∈ ids := by
  induction ids with
  | nil => intro s x; simp [insert_all]
  | cons a ids ih =>
    intro s x
    have h := ih (s.insert a) x
    unfold insert_all at h ⊢
    rw [List.foldl_cons, h, SparseIdSet.mem_insert, List.mem_cons, or_assoc]

theorem wf_insert_all (ids : List EntityId) :
    ∀ (s : SparseIdSet), s.WF → (insert_all s ids).WF := by
  induction ids with
  | nil => intro s h; exact h
  | cons a ids ih =>
    intro s h
    have := ih (s.insert a) (SparseIdSet.wf_insert s a h)
    unfold insert_all at this ⊢
    rw [List.foldl_cons]
    exact this

theorem mem_propagate (ids : List EntityId) (mutate : List Nat) :
    ∀ (m : MutatedSets) (t : Nat) (x : EntityId),
      x ∈ (propagate m mutate ids t).ids ↔ x ∈ (m t).ids ∨ (t ∈ mutate ∧ x ∈ ids) := by
  induction mutate with
  | nil => intro m t x; simp [propagate]
  | cons a rest ih =>
    intro m t x
    have h := ih (Function.update m a (insert_all (m a) ids)) t x
    unfold propagate at h ⊢
    rw [List.foldl_cons, h]
    by_cases hta : t = a
    · subst hta
      rw [Function.update_same, mem_insert_all]
      simp only [List.mem_cons, true_or, true_and]
      tauto
    · rw [Function.update_noteq hta]
      simp only [List.mem_cons, hta, false_or]

theorem wf_propagate (ids : List EntityId) (mutate : List Nat) :
    ∀ (m : MutatedSets) (t : Nat), (m t).WF → (propagate m mutate ids t).WF := by
  induction mutate with
  | nil => intro m t h; exact h
  | cons a rest ih =>
    intro m t h
    have h1 := ih (Function.update m a (insert_all (m a) ids)) t
    unfold propagate at h1 ⊢
    rw [List.foldl_cons]
    apply h1
    by_cases hta : t = a
    · subst hta
      rw [Function.update_same]
      exact wf_insert_all ids _ h
    · rw [Function.update_noteq hta]
      exact h

theorem query_ids_changed (sort : List SparseIdSet → List SparseIdSet) (g : EntityGroup)
    (mutated : MutatedSets) (hch : g._changed ≠ []) :
    (query sort g mutated).1._ids = intersect (sort (g._changed.map mutated ++ [g._ids])) := by
  have : g._changed.length ≠ 0 := by
    intro h; exact hch (List.length_eq_zero.1 h)
  simp [query, this]

theorem query_ids_unchanged (sort : List SparseIdSet → List SparseIdSet) (g : EntityGroup)
    (mutated : MutatedSets) (hch : g._changed = []) :
    (query sort g mutated).1._ids = g._ids.ids := by
  simp [query, hch]

theorem mem_query_mutated (sort : List SparseIdSet → List SparseIdSet) (g : EntityGroup)
    (mutated : MutatedSets) (t : Nat) (x : EntityId) :
    x ∈ ((query sort g mutated).2 t).ids ↔
      x ∈ (mutated t).ids ∨ (t ∈ g._mutate ∧ x ∈ (query sort g mutated).1._ids) := by
  by_cases hm : g._mutate.length ≠ 0
  · have : (query sort g mutated).2 =
        propagate mutated g._mutate (query sort g mutated).1._ids := by
      simp [query, hm]
    rw [this, mem_propagate]
  · have hnil : g._mutate = [] := List.length_eq_zero.1 (not_not.1 hm)
    have : (query sort g mutated).2 = mutated := by
      simp [query, hnil]
    rw [this, hnil]
    simp

theorem mem_query_changed (sort : List SparseIdSet → List SparseIdSet)
    (hsort : ∀ l, (sort l).Perm l) (g : EntityGroup) (mutated : MutatedSets)
    (hch : g._changed ≠ []) (id : EntityId) :
    id ∈ (query sort g mutated).1._ids ↔
      id ∈ g._ids.ids ∧ ∀ t ∈ g._changed, id ∈ (mutated t).ids := by
  have hperm := hsort (g._changed.map mutated ++ [g._ids])
  have hne : sort (g._changed.map mutated ++ [g._ids]) ≠ [] := by
    intro h
    rw [h] at hperm
    have := hperm.length_eq
    simp at this
  rw [query_ids_changed sort g mutated hch, mem_intersect _ hne]
  constructor
  · intro h
    refine ⟨h g._ids (hperm.mem_iff.2 (by simp)), ?_⟩
    intro t ht
    exact h (mutated t) (hperm.mem_iff.2 (by
      rw [List.mem_append]; exact Or.inl (List.mem_map.2 ⟨t, ht, rfl⟩)))
  · rintro ⟨h1, h2⟩ s hs
    have hs' := hperm.mem_iff.1 hs
    rcases List.mem_append.1 hs' with h | h
    · obtain ⟨t, ht, rfl⟩ := List.mem_map.1 h
      exact h2 t ht
    · rw [List.mem_singleton] at h
      rw [h]; exact h1

theorem wf_query_mutated (sort : List SparseIdSet → List SparseIdSet) (g : EntityGroup)
    (mutated : MutatedSets) (t : Nat) (h : (mutated t).WF) :
    ((query sort g mutated).2 t).WF := by
  by_cases hm : g._mutate.length ≠ 0
  · have : (query sort g mutated).2 =
        propagate mutated g._mutate (query sort g mutated).1._ids := by
      simp [query, hm]
    rw [this]
    exact wf_propagate _ _ _ _ h
  · have : (query sort g mutated).2 = mutated := by
      simp [query, List.length_eq_zero.1 (not_not.1 hm)]
    rw [this]
    exact h

theorem nodup_query_changed (sort : List SparseIdSet → List SparseIdSet)
    (hsort : ∀ l, (sort l).Perm l) (g : EntityGroup) (mutated : MutatedSets)
    (hch : g._changed ≠ []) (hwf : g._ids.WF) (hwfm : ∀ t ∈ g._changed, (mutated t).WF) :
    (query sort g mutated).1._ids.Nodup := by
  rw [query_ids_changed sort g mutated hch]
  apply nodup_intersect
  intro s hs
  have hs' := (hsort _).mem_iff.1 hs
  rcases List.mem_append.1 hs' with h | h
  · obtain ⟨t, ht, rfl⟩ := List.mem_map.1 h
    exact hwfm t ht
  · rw [List.mem_singleton] at h
    rw [h]; exact hwf

theorem mem_query_after_mutate (sort : List SparseIdSet → List SparseIdSet)
    (hsort : ∀ l, (sort l).Perm l) (g1 g2 : EntityGroup) (mutated : MutatedSets) (t : Nat)
    (h1c : g1._changed = []) (h1m : t ∈ g1._mutate) (h2c : g2._changed = [t])
    (id : EntityId) :
    id ∈ (query sort g2 (query sort g1 mutated).2).1._ids ↔
      id ∈ g2._ids.ids ∧ (id ∈ (mutated t).ids ∨ id ∈ g1._ids.ids) := by
  rw [mem_query_changed sort hsort g2 _ (by rw [h2c]; exact List.cons_ne_nil t [])]
  rw [h2c]
  simp only [List.mem_singleton, forall_eq, mem_query_mutated, h1m, true_and,
    query_ids_unchanged sort g1 mutated h1c]

/-- C6: for a group with at least one `Changed<T>` filter (and sparse sets that hold every id
once), `query()` returns an id list without repetition whose ids are precisely the ids that are
in the group's cached id set and in the mutated set of every `Changed` type; this holds for
every order in which the sort by size may put the sets. -/
theorem C6_query_changed_is_intersection (sort : List SparseIdSet → List SparseIdSet)
    (hsort : ∀ l, (sort l).Perm l) (g : EntityGroup) (mutated : MutatedSets)
    (hch : g._changed ≠ []) (hwf : g._ids.WF) (hwfm : ∀ t ∈ g._changed, (mutated t).WF) :
    (query sort g mutated).1._ids.Nodup ∧
      ∀ id, id ∈ (query sort g mutated).1._ids ↔
        (g._ids.contains id = true ∧ ∀ t ∈ g._changed, (mutated t).contains id = true) := by
  constructor
  · exact nodup_query_changed sort hsort g mutated hch hwf hwfm
  · intro id
    rw [mem_query_changed sort hsort g mutated hch]
    simp only [SparseIdSet.contains_iff]

/-- The intersection theorem at the sample `Changed` group. -/
theorem C6_witness :
    (query sort_by_size sample_changed_group sample_mutated).1._ids.Nodup ∧
      ∀ id, id ∈ (query sort_by_size sample_changed_group sample_mutated).1._ids ↔
        (sample_changed_group._ids.contains id = true ∧
          ∀ t ∈ sample_changed_group._changed, (sample_mutated t).contains id = true) :=
  C6_query_changed_is_intersection sort_by_size (fun l => List.perm_insertionSort _ l)
    sample_changed_group sample_mutated (by decide) (by decide) (by decide)

/-- C7: for every `Mutate` type of a group, when `query()` returns, every id of the returned
query's id list is in the mutated set of that type, and that mutated set holds exactly its
previous ids and the query's ids (nothing is removed from it). -/
theorem C7_query_marks_mutated (sort : List SparseIdSet → List SparseIdSet) (g : EntityGroup)
    (mutated : MutatedSets) (t : Nat) (ht : t ∈ g._mutate) :
    (∀ id ∈ (query sort g mutated).1._ids,
        ((query sort g mutated).2 t).contains id = true) ∧
      ∀ id, ((query sort g mutated).2 t).contains id = true ↔
        ((mutated t).contains id = true ∨ id ∈ (query sort g mutated).1._ids) := by
  constructor
  · intro id hid
    rw [SparseIdSet.contains_iff, mem_query_mutated]
    exact Or.inr ⟨ht, hid⟩
  · intro id
    rw [SparseIdSet.contains_iff, SparseIdSet.contains_iff, mem_query_mutated]
    simp only [ht, true_and]

/-- The propagation theorem at the sample `Mutate` group. -/
theorem C7_witness :
    (∀ id ∈ (query sort_by_size sample_mutate_group sample_mutated).1._ids,
        ((query sort_by_size sample_mutate_group sample_mutated).2 5).contains id = true) ∧
      ∀ id, ((query sort_by_size sample_mutate_group sample_mutated).2 5).contains id = true ↔
        ((sample_mutated 5).contains id = true ∨
          id ∈ (query sort_by_size sample_mutate_group sample_mutated).1._ids) :=
  C7_query_marks_mutated sort_by_size sample_mutate_group sample_mutated 5 (by decide)

/-- C8: for a group `g1` whose signature has `Mutate<T>` and a group `g2` whose only change
filter is `Changed<T>`, when `g1.query()` runs and then `g2.query()` runs on the mutated sets
that the first query left, every id returned by the first query that is in the cached id set
of `g2` is in the id list of the second query. -/
theorem C8_changed_sees_mutated (sort : List SparseIdSet → List SparseIdSet)
    (hsort : ∀ l, (sort l).Perm l) (g1 g2 : EntityGroup) (mutated : MutatedSets) (t : Nat)
    (ht : t ∈ g1._mutate) (hch : g2._changed = [t]) :
    ∀ id ∈ (query sort g1 mutated).1._ids, g2._ids.contains id = true →
      id ∈ (query sort g2 (query sort g1 mutated).2).1._ids := by
  intro id hid hin
  rw [mem_query_changed sort hsort g2 _ (by rw [hch]; simp)]
  refine ⟨(SparseIdSet.contains_iff _ _).1 hin, ?_⟩
  intro t1 ht1
  rw [hch, List.mem_singleton] at ht1
  rw [ht1, mem_query_mutated]
  exact Or.inr ⟨ht, hid⟩

/-- The two-query theorem at the sample groups, for the entity of index 0. -/
theorem C8_witness :
    (⟨0, 0⟩ : EntityId) ∈ (query sort_by_size sample_mutate_group sample_mutated).1._ids ∧
      sample_changed_group._ids.contains ⟨0, 0⟩ = true ∧
      (⟨0, 0⟩ : EntityId) ∈ (query sort_by_size sample_changed_group
        (query sort_by_size sample_mutate_group sample_mutated).2).1._ids :=
  ⟨by decide, by decide,
    C8_changed_sees_mutated sort_by_size (fun l => List.perm_insertionSort _ l)
      sample_mutate_group sample_changed_group sample_mutated 5 (by decide) (by decide)
      ⟨0, 0⟩ (by decide) (by decide)⟩

/-- C10: for a group with no `Changed<T>` filter, `query()` returns an id list equal to the
dense array of the group's cached id set, element for element and in the same order, for every
state of the mutated sets. -/
theorem C10_query_without_changed (sort : List SparseIdSet → List SparseIdSet)
    (g : EntityGroup) (mutated : MutatedSets) (hch : g._changed = []) :
    (query sort g mutated).1._ids = g._ids.ids :=
  query_ids_unchanged sort g mutated hch

/-- The fast-path theorem at the sample `Mutate` group. -/
theorem C10_witness :
    (query sort_by_size sample_mutate_group sample_mutated).1._ids =
      sample_mutate_group._ids.ids :=
  C10_query_without_changed sort_by_size sample_mutate_group sample_mutated (by decide)

end EntityGroup

/-! ## The scenario of 1000 entities holding `Position` -/

theorem entities_succ (k : Nat) : entities (k + 1) = entities k ++ [EntityId.from_index k] := by
  simp [entities, List.range_succ]

theorem mem_entities (n : Nat) (id : EntityId) :
    id ∈ entities n ↔ id.version = 0 ∧ id.index < n := by
  unfold entities
  rw [List.mem_map]
  constructor
  · rintro ⟨i, hi, rfl⟩
    exact ⟨rfl, List.mem_range.1 hi⟩
  · rintro ⟨hv, hi⟩
    refine ⟨id.index, List.mem_range.2 hi, ?_⟩
    cases id
    simp only [EntityId.from_index] at hv ⊢
    rw [hv]

theorem nodup_entities (n : Nat) : (entities n).Nodup := by
  unfold entities
  refine List.Nodup.map ?_ (List.nodup_range n)
  intro a b h
  simpa [EntityId.from_index] using h

theorem length_entities (n : Nat) : (entities n).length = n := by
  simp [entities]

namespace EntityGroupBase

theorem apply_all_append (us vs : List Update) :
    ∀ g : EntityGroupBase, apply_all g (us ++ vs) = (apply_all g us).bind fun g1 =>
      apply_all g1 vs := by
  induction us with
  | nil => intro g; rfl
  | cons u us ih =>
    intro g
    simp only [List.cons_append, apply_all]
    cases apply g u with
    | none => rfl
    | some g1 => exact ih g1

theorem add_next_entity (types : List Nat) (tags : List String) (k : Nat)
    (hk : k < invalid_index) :
    add_entity_component ⟨⟨entities k⟩, types, tags, List.replicate k 1, 1⟩
        (EntityId.from_index k) =
      some ⟨⟨entities (k + 1)⟩, types, tags, List.replicate (k + 1) 1, 1⟩ := by
  have hidx : (k + 1) % u32_range = k + 1 :=
    Nat.mod_eq_of_lt (by unfold u32_range invalid_index at *; omega)
  have hpad : set_min_size 0 (List.replicate k 1) (k + 1) = List.replicate k 1 ++ [0] := by
    simp [set_min_size]
  have hnot : EntityId.from_index k ∉ entities k := by
    rw [mem_entities]
    simp [EntityId.from_index]
  have hset : (List.replicate k 1 ++ [0]).set k 1 = List.replicate (k + 1) 1 := by
    rw [List.replicate_succ']
    have : k = (List.replicate k 1).length := by simp
    conv_lhs => rw [this]
    simp
  simp only [add_entity_component, EntityId.from_index, hidx, hpad]
  have hlen : k < (List.replicate k 1 ++ [0]).length := by simp
  have hget : (List.replicate k 1 ++ [0]).getD k 0 = 0 := by
    simp
  have hcont : SparseIdSet.contains ⟨entities k⟩ ⟨k, 0⟩ = false := by
    simp only [SparseIdSet.contains, decide_eq_false_iff_not]
    exact hnot
  have hins : SparseIdSet.insert ⟨entities k⟩ ⟨k, 0⟩ = ⟨entities (k + 1)⟩ := by
    simp only [SparseIdSet.insert, hcont, entities_succ, EntityId.from_index]
    rfl
  rw [if_pos hlen, hget]
  simp only [hset, hcont, hins, u8_range]
  rfl

theorem apply_all_entities (types : List Nat) (tags : List String) :
    ∀ n, n ≤ invalid_index →
      apply_all ⟨SparseIdSet.empty, types, tags, [], 1⟩ ((entities n).map Update.add) =
        some ⟨⟨entities n⟩, types, tags, List.replicate n 1, 1⟩ := by
  intro n
  induction n with
  | zero => intro _; rfl
  | succ k ih =>
    intro hk
    rw [entities_succ, List.map_append, apply_all_append, ih (by omega)]
    simp only [Option.some_bind, List.map_cons, List.map_nil, apply_all, apply]
    rw [add_next_entity types tags k (by omega)]
    simp only [entities_succ]

end EntityGroupBase

theorem position_group_eq (is_mutable is_changed : Bool) :
    position_group is_mutable is_changed =
      some ⟨⟨⟨entities 1000⟩, [0], [], List.replicate 1000 1, 1⟩,
        if is_mutable then [0] else [], if is_changed then [0] else []⟩ := by
  have hmk : EntityGroup.make [⟨0, is_mutable, is_changed⟩] [] =
      some ⟨⟨SparseIdSet.empty, [0], [], [], 1⟩,
        if is_mutable then [0] else [], if is_changed then [0] else []⟩ := by
    cases is_mutable <;> cases is_changed <;> decide
  have hall := EntityGroupBase.apply_all_entities [0] [] 1000 (by decide)
  unfold position_group
  rw [hmk, Option.some_bind]
  show Option.map _ (EntityGroupBase.apply_all ⟨SparseIdSet.empty, [0], [], [], 1⟩ _) = _
  rw [hall]
  rfl

theorem position_changed_group_ids : position_changed_group._ids.ids = entities 1000 := by
  simp only [position_changed_group]

theorem position_mutate_group_ids : position_mutate_group._ids.ids = entities 1000 := by
  simp only [position_mutate_group]

theorem position_changed_group_changed : position_changed_group._changed = [0] := by
  simp only [position_changed_group]

theorem position_mutate_group_changed : position_mutate_group._changed = [] := by
  simp only [position_mutate_group]

theorem position_mutate_group_mutate : position_mutate_group._mutate = [0] := by
  simp only [position_mutate_group]

theorem mem_changed_after_mutate (id : EntityId) :
    id ∈ changed_after_mutate ↔ id ∈ entities 1000 := by
  unfold changed_after_mutate
  rw [EntityGroup.mem_query_after_mutate sort_by_size (fun l => List.perm_insertionSort _ l)
    position_mutate_group position_changed_group _ 0 position_mutate_group_changed
    (by rw [position_mutate_group_mutate]; exact List.mem_singleton.2 rfl)
    position_changed_group_changed, position_changed_group_ids, position_mutate_group_ids]
  exact ⟨fun h => h.1, fun h => ⟨h, Or.inr h⟩⟩

theorem nodup_changed_after_mutate : changed_after_mutate.Nodup := by
  unfold changed_after_mutate
  refine EntityGroup.nodup_query_changed sort_by_size (fun l => List.perm_insertionSort _ l)
    position_changed_group _ ?_ ?_ ?_
  · rw [position_changed_group_changed]; exact List.cons_ne_nil 0 []
  · unfold SparseIdSet.WF
    rw [position_changed_group_ids]
    exact nodup_entities 1000
  · intro t _
    exact EntityGroup.wf_query_mutated _ _ _ _ List.nodup_nil

theorem length_changed_after_mutate : changed_after_mutate.length = 1000 := by
  have hperm : changed_after_mutate.Perm (entities 1000) :=
    (List.perm_ext_iff_of_nodup nodup_changed_after_mutate (nodup_entities 1000)).2
      mem_changed_after_mutate
  rw [hperm.length_eq, length_entities]

set_option maxRecDepth 100000 in
theorem length_written_ids : written_ids.length = 100 := by
  rfl

/-- C9 (as stated, refuted): in the scenario the `Changed<Position>` query returns 1000 ids,
not 100, and among them the id of entity 1, whose `Position` was not written. -/
theorem C9_changed_query_returns_unwritten :
    position_group true false = some position_mutate_group ∧
      position_group false true = some position_changed_group ∧
      written_ids.length = 100 ∧ changed_after_mutate.length = 1000 ∧
      EntityId.from_index 1 ∈ changed_after_mutate ∧ EntityId.from_index 1 ∉ written_ids := by
  refine ⟨position_group_eq true false, position_group_eq false true, length_written_ids,
    length_changed_after_mutate, ?_, ?_⟩
  · rw [mem_changed_after_mutate, mem_entities]
    exact ⟨rfl, by decide⟩
  · unfold written_ids
    rw [List.mem_filter]
    rintro ⟨-, h⟩
    exact absurd h (by decide)

/-- C9 (amended): in the scenario the `Changed<Position>` query returns, each once, all 1000
ids that the `Mutate<Position>` query returned, the 100 written ids among them. -/
theorem C9_changed_query_returns_all :
    changed_after_mutate.Nodup ∧ changed_after_mutate.length = 1000 ∧
      (∀ id, id ∈ changed_after_mutate ↔ id ∈ entities 1000) ∧
      (∀ id ∈ written_ids, id ∈ changed_after_mutate) := by
  refine ⟨nodup_changed_after_mutate, length_changed_after_mutate,
    mem_changed_after_mutate, ?_⟩
  intro id hid
  rw [mem_changed_after_mutate]
  exact (List.mem_filter.1 hid).1

/-! ## The pool with parents -/

namespace EntityPool

theorem parent_eq (p : EntityPool) (x : EntityId) :
    p.parent x = p._parents.getD x.index EntityId.null := by
  unfold parent
  split
  · rfl
  · rename_i h
    rw [List.getD_eq_default _ _ (not_lt.1 h)]

theorem set_parent_eq (p : EntityPool) (id parent_id : EntityId) (hid : p.exists id = true)
    (hcap : p._ids.length ≤ invalid_index) :
    set_parent p id parent_id = some ⟨p._ids, p._free,
      (set_min_size EntityId.null p._parents (id.index + 1)).set id.index parent_id⟩ := by
  have hlt := ((exists_iff p id).1 hid).2.1
  have hm : (id.index + 1) % u32_range = id.index + 1 :=
    Nat.mod_eq_of_lt (by unfold u32_range; unfold invalid_index at hcap; omega)
  simp [set_parent, hid, hm]

theorem parents_le_create (p : EntityPool) (hok : FreeListOk p)
    (hcap : (create p).2._ids.length ≤ invalid_index)
    (h : p._parents.length ≤ p._ids.length) :
    (create p).2._parents.length ≤ (create p).2._ids.length := by
  have hparents : (create p).2._parents.length =
      max p._parents.length (((create p).1.index + 1) % u32_range) := by
    simp [create, length_set_min_size]
  have hmod : ((create p).1.index + 1) % u32_range ≤ (create p).1.index + 1 :=
    Nat.mod_le _ _
  rcases free_cases p._free with hf | ⟨f, i, hf⟩
  · have hlen : (create p).2._ids.length = p._ids.length + 1 := by
      simp [create, create_id, hf]
    obtain ⟨h1, -, -⟩ := create_fresh p hf (by omega)
    have hidx : (create p).1.index = p._ids.length := by rw [h1]
    rw [hparents, hlen]
    omega
  · have hi := (hok.2.1 i (by simp [hf])).1
    obtain ⟨h1, h2, -⟩ := create_reuse p f i hf hi
    have hidx : (create p).1.index = i := by rw [h1]; rfl
    have hlen : (create p).2._ids.length = p._ids.length := by rw [h2, List.length_set]
    rw [hparents, hlen]
    omega

theorem ids_set_parent (p q : EntityPool) (id parent_id : EntityId)
    (h : set_parent p id parent_id = some q) :
    p.exists id = true ∧ q._ids = p._ids ∧ q._free = p._free ∧
      q._parents = (set_min_size EntityId.null p._parents ((id.index + 1) % u32_range)).set
        id.index parent_id := by
  unfold set_parent at h
  split at h
  · rename_i hid
    injection h with h
    subst h
    exact ⟨hid, rfl, rfl, rfl⟩
  · exact absurd h (by simp)

theorem reachable_with_parents_ok (p : EntityPool) (hr : ReachableWithParents p)
    (hcap : p._ids.length ≤ invalid_index) :
    FreeListOk p ∧ p._parents.length ≤ p._ids.length := by
  induction hr with
  | empty => exact ⟨freeListOk_empty, by simp [EntityPool.empty]⟩
  | create p _ ih =>
    have h := ih (le_trans (length_create_le p) hcap)
    exact ⟨freeListOk_create p h.1 hcap, parents_le_create p h.1 hcap h.2⟩
  | recycle p q x _ h ih =>
    have hlen := length_recycle p q x h
    have h0 := ih (by rw [← hlen]; exact hcap)
    refine ⟨freeListOk_recycle p q x h0.1 h, ?_⟩
    obtain ⟨-, hq⟩ := recycle_eq p q x h
    rw [hlen]
    have : q._parents = p._parents := by rw [hq]
    rw [this]
    exact h0.2
  | set_parent p q id parent_id _ h ih =>
    obtain ⟨hid, h1, h2, h3⟩ := ids_set_parent p q id parent_id h
    have h0 := ih (by rw [← h1]; exact hcap)
    constructor
    · unfold FreeListOk at h0 ⊢
      rw [h1, h2]
      exact h0.1
    · have hlt := ((exists_iff p id).1 hid).2.1
      have hmod : (id.index + 1) % u32_range ≤ id.index + 1 := Nat.mod_le _ _
      rw [h3, h1, List.length_set, length_set_min_size]
      have := h0.2
      omega

/-- C19: for every pool reached by `create`, `recycle` and `set_parent` (within the `u32` index
range), every live id and every `parent_id`, `set_parent(id, parent_id)` succeeds and
afterwards `parent(id)` equals `parent_id`, `parent(other)` is unchanged for every id with a
different index and `exists` is unchanged for every id; the parent of an id whose index has
never been allocated is the invalid id. -/
theorem C19_set_parent_effect (p : EntityPool) (hr : ReachableWithParents p)
    (hcap : p._ids.length ≤ invalid_index) (id parent_id : EntityId)
    (hid : p.exists id = true) :
    (∃ q, set_parent p id parent_id = some q ∧ q.parent id = parent_id ∧
        (∀ other : EntityId, other.index ≠ id.index → q.parent other = p.parent other) ∧
        (∀ x, q.exists x = p.exists x)) ∧
      (∀ x : EntityId, p._ids.length ≤ x.index → p.parent x = EntityId.null) := by
  obtain ⟨-, hpar⟩ := reachable_with_parents_ok p hr hcap
  have hlt := ((exists_iff p id).1 hid).2.1
  constructor
  · refine ⟨_, set_parent_eq p id parent_id hid hcap, ?_, ?_, ?_⟩
    · rw [parent_eq]
      show ((set_min_size EntityId.null p._parents (id.index + 1)).set id.index
        parent_id).getD id.index EntityId.null = parent_id
      rw [getD_set_self]
      rw [length_set_min_size]
      omega
    · intro other hne
      rw [parent_eq, parent_eq]
      show ((set_min_size EntityId.null p._parents (id.index + 1)).set id.index
        parent_id).getD other.index EntityId.null = _
      rw [getD_set_other _ _ _ _ _ (Ne.symm hne), getD_set_min_size]
    · intro x
      rfl
  · intro x hx
    rw [parent_eq, List.getD_eq_default _ _ (le_trans hpar hx)]

/-- The theorem on `set_parent` at the pool that holds two entities: the second becomes the
parent of the first. -/
theorem C19_witness :
    (∃ q, set_parent (create (create EntityPool.empty).2).2 ⟨0, 0⟩ ⟨1, 0⟩ = some q ∧
        q.parent ⟨0, 0⟩ = ⟨1, 0⟩ ∧
        (∀ other : EntityId, other.index ≠ (⟨0, 0⟩ : EntityId).index →
          q.parent other = (create (create EntityPool.empty).2).2.parent other) ∧
        (∀ x, q.exists x = (create (create EntityPool.empty).2).2.exists x)) ∧
      (∀ x : EntityId, (create (create EntityPool.empty).2).2._ids.length ≤ x.index →
        (create (create EntityPool.empty).2).2.parent x = EntityId.null) :=
  C19_set_parent_effect (create (create EntityPool.empty).2).2
    (ReachableWithParents.create _ (ReachableWithParents.create _ ReachableWithParents.empty))
    (by decide) ⟨0, 0⟩ ⟨1, 0⟩ (by decide)

end EntityPool

/-! ## The required count of a group -/

/-- C18: constructing an `EntityGroupBase` from `t` component types and `g` tags succeeds iff
`t + g <= 255`, the stored required count then equals `t + g`, and for every larger `t + g`
the always-on assertion fails: the required count is never the truncated `(t + g) mod 256`. -/
theorem C18_required_count_fits_u8 (types : List Nat) (tags : List String) :
    ((∃ g, EntityGroupBase.make types tags = some g) ↔ types.length + tags.length ≤ 255) ∧
      (∀ g, EntityGroupBase.make types tags = some g →
        g._component_count = types.length + tags.length) ∧
      (255 < types.length + tags.length → EntityGroupBase.make types tags = none) := by
  have hmod : (types.length + tags.length) % u8_range = types.length + tags.length ↔
      types.length + tags.length ≤ 255 := by
    unfold u8_range
    omega
  refine ⟨?_, ?_, ?_⟩
  · constructor
    · rintro ⟨g, hg⟩
      unfold EntityGroupBase.make at hg
      simp only at hg
      split at hg
      · rename_i h; exact hmod.1 h
      · exact absurd hg (by simp)
    · intro h
      exact ⟨_, by simp only [EntityGroupBase.make, hmod.2 h, if_true]; rfl⟩
  · intro g hg
    unfold EntityGroupBase.make at hg
    simp only at hg
    split at hg
    · rename_i h
      injection hg with hg
      rw [← hg]
      exact h
    · exact absurd hg (by simp)
  · intro h
    have : ¬ (types.length + tags.length) % u8_range = types.length + tags.length :=
      fun h1 => absurd (hmod.1 h1) (by omega)
    simp only [EntityGroupBase.make, this, if_false]

/-! ## Implicit tags -/

namespace EntityWorld

/-- C20: `is_tag_implicit(tag)` is true iff `tag` is not empty and its first character is `@`
or `!`; the empty tag is not implicit, and a tag whose first character is neither is not
implicit whatever follows the first character. -/
theorem C20_is_tag_implicit_iff (tag : String) :
    (is_tag_implicit tag = true ↔
        ∃ c rest, tag.data = c :: rest ∧ (c = '@' ∨ c = '!')) ∧
      is_tag_implicit "" = false ∧
      (∀ (c : Char) (rest : List Char), c ≠ '@' → c ≠ '!' →
        is_tag_implicit ⟨c :: rest⟩ = false) := by
  refine ⟨?_, by decide, ?_⟩
  · unfold is_tag_implicit
    cases tag.data with
    | nil => simp
    | cons c rest => simp
  · intro c rest h1 h2
    simp [is_tag_implicit, h1, h2]

end EntityWorld

namespace EntityWorld

/-! ## Tags and assertions of the world -/

/-- C13: for every id and every tag name for which `is_tag_implicit` is true, `add_tag` and
`remove_tag` fail their assertion (the matrix is not reached); for a live id and a name that is
not implicit they forward to the matrix, which is the only thing they change. -/
theorem C13_implicit_tags_rejected (w : EntityWorld) (id : EntityId) (tag : String) :
    (is_tag_implicit tag = true → w.add_tag id tag = none ∧ w.remove_tag id tag = none) ∧
      (w.exists id = true → is_tag_implicit tag = false →
        w.add_tag id tag = some { w with _matrix := w._matrix.add_tag id tag } ∧
        w.remove_tag id tag = some { w with _matrix := w._matrix.remove_tag id tag }) := by
  constructor
  · intro h
    constructor
    · unfold add_tag
      split
      · rfl
      · simp [h]
    · unfold remove_tag
      split
      · rfl
      · simp [h]
  · intro hid h
    simp [add_tag, remove_tag, hid, h]

theorem assertions_on_missing_id (w : EntityWorld) (id : EntityId)
    (hid : w.exists id = false) :
    w.remove_entity id = none ∧ (∀ tag, w.add_tag id tag = none) ∧
      (∀ tag, w.remove_tag id tag = none) ∧ (∀ tag, w.has_tag id tag = none) ∧
      (∀ type, w.has_component id type = none) ∧
      (∀ type value, w.add_or_replace_component type id value = none) := by
  refine ⟨?_, ?_, ?_, ?_, ?_, ?_⟩
  · have hp : w._entities.recycle id = none := by
      have : w._entities.exists id = false := hid
      simp [EntityPool.recycle, this]
    simp only [remove_entity, remove_all_tags, remove_all_components, EntityPool.remove, hp]
  · intro tag; simp [add_tag, hid]
  · intro tag; simp [remove_tag, hid]
  · intro tag; simp [has_tag, hid]
  · intro type; simp [has_component, hid]
  · intro type value; simp [add_or_replace_component, hid]

/-- C14 (the code at the failing input): in a new world no entity exists, and for the id
`(0, 0)` `add_or_replace_component` fails its assertion while `get_or_add_component` returns
and leaves a component of an entity that does not exist. -/
theorem C14_get_or_add_component_unchecked :
    (EntityWorld.make [0]).exists ⟨0, 0⟩ = false ∧
      (EntityWorld.make [0]).add_or_replace_component 0 ⟨0, 0⟩ 0 = none ∧
      ((EntityWorld.make [0]).get_or_add_component 0 ⟨0, 0⟩).map
        (fun r => (r.1, r.2.component 0 ⟨0, 0⟩, r.2._matrix.has_component ⟨0, 0⟩ 0,
          r.2.exists ⟨0, 0⟩)) = some (0, some (some 0), true, false) := by
  decide

/-! ## Loading -/

/-- C15 (the code at the failing input): `load_state` of an archive whose pool record holds one
entity and whose containers record does not decode returns an error and leaves a world in which
that entity exists; the same when the tag record is the one that does not decode. -/
theorem C15_failed_load_keeps_entities :
    (sample_world.load_state
        [Record.entities (EntityPool.create EntityPool.empty).2, Record.corrupt]).map
        (fun r => (r.1, r.2.1.entity_count, r.2.1.exists ⟨0, 0⟩, r.2.1._matrix.contains ⟨0, 0⟩))
        = some (Result.err, 1, true, false) ∧
      (sample_world.load_state
        [Record.entities (EntityPool.create EntityPool.empty).2, Record.containers [],
          Record.corrupt]).map
        (fun r => (r.1, r.2.1.entity_count, r.2.1.exists ⟨0, 0⟩, r.2.1._matrix.contains ⟨0, 0⟩))
        = some (Result.err, 1, true, false) := by
  decide

theorem load_state_first_read_fails (w w0 : EntityWorld) (arc : ReadableArchive)
    (hclear : w.clear = some w0) (hread : arc.deserialize_entities = none) :
    w.load_state arc = some (Result.err, w0, arc) := by
  simp [load_state, hclear, hread]

/-! ## Groups of the world -/

theorem find_group_append_some (l extra : List GroupEntry) (ts : List ComponentArg)
    (tags : List String) (g : GroupEntry) (h : find_group l ts tags = some g) :
    find_group (l ++ extra) ts tags = some g := by
  induction l with
  | nil => simp [find_group] at h
  | cons a l ih =>
    simp only [List.cons_append, find_group] at h ⊢
    split
    · rename_i h1
      rw [if_pos h1] at h
      split
      · rename_i h2
        rw [if_pos h2] at h
        exact ih h
      · rename_i h2
        rw [if_neg h2] at h
        split
        · rename_i h3
          rw [if_pos h3] at h
          exact ih h
        · rename_i h3
          rw [if_neg h3] at h
          exact h
    · rename_i h1
      rw [if_neg h1] at h
      exact ih h

theorem find_group_append_none (l extra : List GroupEntry) (ts : List ComponentArg)
    (tags : List String) (h : find_group l ts tags = none) :
    find_group (l ++ extra) ts tags = find_group extra ts tags := by
  induction l with
  | nil => rfl
  | cons a l ih =>
    simp only [List.cons_append, find_group] at h ⊢
    split
    · rename_i h1
      rw [if_pos h1] at h
      split
      · rename_i h2
        rw [if_pos h2] at h
        exact ih h
      · rename_i h2
        rw [if_neg h2] at h
        split
        · rename_i h3
          rw [if_pos h3] at h
          exact ih h
        · rename_i h3
          rw [if_neg h3] at h
          exact absurd h (by simp)
    · rename_i h1
      rw [if_neg h1] at h
      exact ih h

theorem create_new_group_eq (w : EntityWorld) (ts : List ComponentArg) (tags : List String)
    (g : GroupEntry) (w1 : EntityWorld) (h : w.create_new_group ts tags = some (g, w1)) :
    g = ⟨w.constructed_groups, ts, tags⟩ ∧ w1._groups = w._groups ++ [g] ∧
      w1._containers = w._containers ∧ w1._entities = w._entities := by
  unfold create_new_group at h
  split at h
  · cases hmk : EntityGroupBase.make (ts.map ComponentArg.raw_type) tags with
    | none => simp [hmk] at h
    | some base =>
      have htags : base._tags = tags := by
        unfold EntityGroupBase.make at hmk
        simp only at hmk
        split at hmk
        · injection hmk with hmk
          rw [← hmk]
        · exact absurd hmk (by simp)
      simp only [hmk, Option.some.injEq, Prod.mk.injEq] at h
      obtain ⟨h1, h2⟩ := h
      rw [htags] at h1
      subst h2
      exact ⟨h1.symm, by rw [← h1, htags], rfl, rfl⟩
  · exact absurd h (by simp)

theorem find_group_of_create (w : EntityWorld) (ts : List ComponentArg) (tags : List String)
    (g : GroupEntry) (w1 : EntityWorld) (h : w.create_group ts tags = some (g, w1)) :
    find_group w1._groups ts tags = some g := by
  unfold create_group at h
  cases hf : find_group w._groups ts tags with
  | some g0 =>
    simp only [hf, Option.some.injEq, Prod.mk.injEq] at h
    rw [← h.2, ← h.1]
    exact hf
  | none =>
    simp only [hf] at h
    obtain ⟨hg, hgroups, -, -⟩ := create_new_group_eq w ts tags g w1 h
    rw [hgroups, find_group_append_none _ _ _ _ hf, hg]
    simp [find_group]

theorem create_group_of_find (w : EntityWorld) (ts : List ComponentArg) (tags : List String)
    (g : GroupEntry) (h : find_group w._groups ts tags = some g) :
    w.create_group ts tags = some (g, w) := by
  simp [create_group, h]

/-- C11: for every world, every type list and every tag list, when `create_group<Ts...>(tags)`
returns, a second call returns the same group instance and leaves the world, its list of groups
included, unchanged; the first call returns whenever no assertion fails, that is when every
type index passes the assertion of `find_container` and the types and tags fit the required
count, whether or not the types have a container. -/
theorem C11_create_group_memoized (w : EntityWorld) (ts : List ComponentArg)
    (tags : List String) :
    (∀ g w1, w.create_group ts tags = some (g, w1) →
        w1.create_group ts tags = some (g, w1)) ∧
      ((∀ t ∈ ts, t.raw_type < w._containers.length) →
        ts.length + tags.length ≤ 255 → (w.create_group ts tags).isSome = true) := by
  constructor
  · intro g w1 h
    exact create_group_of_find w1 ts tags g (find_group_of_create w ts tags g w1 h)
  · intro hc hn
    unfold create_group
    cases find_group w._groups ts tags with
    | some g0 => rfl
    | none =>
      have hmod : (ts.length + tags.length) % u8_range = ts.length + tags.length :=
        Nat.mod_eq_of_lt (by unfold u8_range; omega)
      have hall : (ts.all fun t => decide (w._containers.length > t.raw_type)) = true := by
        rw [List.all_eq_true]
        intro t ht
        exact decide_eq_true (hc t ht)
      simp [create_new_group, hall, EntityGroupBase.make, hmod]

/-- A group over a type that has no container: the world over the types 0 and 2 has a null
container for the type 1, and `create_group` for the type 1 constructs, registers and returns
a group, which a second call returns again. -/
theorem create_group_without_container :
    (EntityWorld.make [0, 2]).find_container 1 = none ∧
      (EntityWorld.make [0, 2]).create_group [ComponentArg.component 1] [] =
        some (⟨0, [ComponentArg.component 1], []⟩,
          { EntityWorld.make [0, 2] with
            _groups := [⟨0, [ComponentArg.component 1], []⟩],
            _matrix := (EntityWorld.make [0, 2])._matrix.register_group 0,
            constructed_groups := 1 }) ∧
      ({ EntityWorld.make [0, 2] with
          _groups := [⟨0, [ComponentArg.component 1], []⟩],
          _matrix := (EntityWorld.make [0, 2])._matrix.register_group 0,
          constructed_groups := 1 } : EntityWorld).create_group
            [ComponentArg.component 1] [] =
        some (⟨0, [ComponentArg.component 1], []⟩,
          { EntityWorld.make [0, 2] with
            _groups := [⟨0, [ComponentArg.component 1], []⟩],
            _matrix := (EntityWorld.make [0, 2])._matrix.register_group 0,
            constructed_groups := 1 }) := by
  decide

end EntityWorld

namespace EntityWorld

theorem groups_remove_entity (w w1 : EntityWorld) (id : EntityId)
    (h : w.remove_entity id = some w1) : w1._groups = w._groups := by
  unfold remove_entity at h
  simp only at h
  split at h
  · exact absurd h (by simp)
  · injection h with h
    rw [← h]
    rfl

theorem groups_apply (w w1 : EntityWorld) (op : WorldOp) (hk : op.keeps_groups = true)
    (h : w.apply op = some w1) : ∃ extra, w1._groups = w._groups ++ extra := by
  cases op with
  | create_entity =>
    simp only [apply, Option.some.injEq] at h
    exact ⟨[], by rw [← h]; simp [create_entity]⟩
  | remove_entity id =>
    exact ⟨[], by rw [groups_remove_entity w w1 id h]; simp⟩
  | remove_all_components id =>
    simp only [apply, Option.some.injEq] at h
    exact ⟨[], by rw [← h]; simp [remove_all_components]⟩
  | remove_all_tags id =>
    simp only [apply, Option.some.injEq] at h
    exact ⟨[], by rw [← h]; simp [remove_all_tags]⟩
  | add_tag id tag =>
    simp only [apply, add_tag] at h
    split at h
    · exact absurd h (by simp)
    · split at h
      · exact absurd h (by simp)
      · injection h with h
        exact ⟨[], by rw [← h]; simp⟩
  | remove_tag id tag =>
    simp only [apply, remove_tag] at h
    split at h
    · exact absurd h (by simp)
    · split at h
      · exact absurd h (by simp)
      · injection h with h
        exact ⟨[], by rw [← h]; simp⟩
  | clear_tag tag =>
    simp only [apply, clear_tag] at h
    split at h
    · exact absurd h (by simp)
    · injection h with h
      exact ⟨[], by rw [← h]; simp⟩
  | set_parent id parent_id =>
    simp only [apply, set_parent] at h
    cases hp : w._entities.set_parent id parent_id with
    | none => simp [hp] at h
    | some pool =>
      simp only [hp, Option.map_some', Option.some.injEq] at h
      exact ⟨[], by rw [← h]; simp⟩
  | get_or_add_component type id =>
    simp only [apply, get_or_add_component] at h
    cases hc : w.find_container type with
    | none => simp [hc] at h
    | some c =>
      simp only [hc, Option.map_some', Option.some.injEq] at h
      exact ⟨[], by rw [← h]; simp⟩
  | add_or_replace_component type id value =>
    simp only [apply, add_or_replace_component] at h
    split at h
    · exact absurd h (by simp)
    · cases hc : w.find_container type with
      | none => simp [hc] at h
      | some c =>
        simp only [hc, Option.some.injEq] at h
        exact ⟨[], by rw [← h]; simp⟩
  | create_group ts tags =>
    simp only [apply] at h
    cases hg : w.create_group ts tags with
    | none => simp [hg] at h
    | some r =>
      obtain ⟨g, w2⟩ := r
      simp only [hg, Option.map_some', Option.some.injEq] at h
      subst h
      unfold create_group at hg
      cases hf : find_group w._groups ts tags with
      | some g0 =>
        simp only [hf, Option.some.injEq, Prod.mk.injEq] at hg
        exact ⟨[], by rw [← hg.2]; simp⟩
      | none =>
        simp only [hf] at hg
        exact ⟨[g], (create_new_group_eq w ts tags g w2 hg).2.1⟩
  | clear => simp [WorldOp.keeps_groups] at hk
  | load_state arc => simp [WorldOp.keeps_groups] at hk

theorem groups_apply_all : ∀ (ops : List WorldOp) (w w1 : EntityWorld),
    (∀ op ∈ ops, op.keeps_groups = true) → apply_all w ops = some w1 →
    ∃ extra, w1._groups = w._groups ++ extra := by
  intro ops
  induction ops with
  | nil =>
    intro w w1 _ h
    simp only [apply_all, Option.some.injEq] at h
    exact ⟨[], by rw [h]; simp⟩
  | cons op ops ih =>
    intro w w1 hk h
    simp only [apply_all] at h
    cases hop : w.apply op with
    | none => simp [hop] at h
    | some w2 =>
      simp only [hop] at h
      obtain ⟨e1, h1⟩ := groups_apply w w2 op (hk op (by simp)) hop
      obtain ⟨e2, h2⟩ := ih w2 w1 (fun o ho => hk o (by simp [ho])) h
      exact ⟨e1 ++ e2, by rw [h2, h1, List.append_assoc]⟩

/-- C17 (as stated, refuted): a new world creates a group, then `clear()` runs; the list of
groups is empty afterwards, and `create_group` with the same types and tags constructs another
group object. The same happens through `load_state`, which starts with `clear()`. -/
theorem C17_clear_drops_groups :
    (((EntityWorld.make [0]).create_group [ComponentArg.component 0] []).bind fun r =>
        r.2.clear.bind fun w =>
          (w.create_group [ComponentArg.component 0] []).map fun r2 =>
            (r.1.ref, r.2._groups.length, w._groups.length, r2.1.ref)) = some (0, 1, 0, 1) ∧
      (((EntityWorld.make [0]).create_group [ComponentArg.component 0] []).bind fun r =>
        (r.2.load_state []).bind fun l =>
          (l.2.1.create_group [ComponentArg.component 0] []).map fun r2 =>
            (r.1.ref, l.2.1._groups.length, r2.1.ref)) = some (0, 0, 1) := by
  decide

/-- C17 (amended): a group returned by `create_group` stays registered as long as neither
`clear` nor `load_state` runs: after any sequence of the other world operations, `create_group`
with the same types and tags returns that same group instance and changes nothing. -/
theorem C17_group_stays_until_clear (w : EntityWorld) (ts : List ComponentArg)
    (tags : List String) (g : GroupEntry) (w1 : EntityWorld)
    (h : w.create_group ts tags = some (g, w1)) (ops : List WorldOp)
    (hk : ∀ op ∈ ops, op.keeps_groups = true) (w2 : EntityWorld)
    (hrun : apply_all w1 ops = some w2) :
    w2.create_group ts tags = some (g, w2) := by
  obtain ⟨extra, hextra⟩ := groups_apply_all ops w1 w2 hk hrun
  apply create_group_of_find
  rw [hextra]
  exact find_group_append_some _ _ _ _ _ (find_group_of_create w ts tags g w1 h)

/-- The theorem on the lifetime of a group at a new world over the types 0 and 2: the group of
the type 0 is created, then the calls of `sample_calls` and one more `create_group` run. -/
theorem C17_witness :
    (EntityWorld.make [0, 2]).create_group [ComponentArg.component 0] [] =
        some (⟨0, [ComponentArg.component 0], []⟩, grouped_world) ∧
      apply_all grouped_world grouped_calls = some grouped_world_after ∧
      grouped_world_after._groups.length = 2 ∧
      grouped_world_after.create_group [ComponentArg.component 0] [] =
        some (⟨0, [ComponentArg.component 0], []⟩, grouped_world_after) :=
  ⟨by decide, by decide, by decide,
    C17_group_stays_until_clear (EntityWorld.make [0, 2]) [ComponentArg.component 0] []
      ⟨0, [ComponentArg.component 0], []⟩ grouped_world (by decide) grouped_calls
      (by decide) grouped_world_after (by decide)⟩

end EntityWorld

/-! ## Removal from the matrix and the containers -/

theorem mem_of_mem_swap_remove (l : List EntityId) (id x : EntityId)
    (h : x ∈ swap_remove l id) : x ∈ l := by
  rcases List.eq_nil_or_concat l with hl | ⟨init, last, hl⟩
  · subst hl; simp [swap_remove] at h
  · have hl' : l = init ++ [last] := by simpa using hl
    subst hl'
    simp only [swap_remove, List.getLast?_concat, List.dropLast_concat, List.mem_map] at h
    obtain ⟨y, hy, hxy⟩ := h
    rw [List.mem_append]
    by_cases hyid : y = id
    · rw [if_pos hyid] at hxy
      exact Or.inr (by simp [hxy])
    · rw [if_neg hyid] at hxy
      exact Or.inl (hxy ▸ hy)

namespace SparseIdSet

theorem mem_of_mem_erase (s : SparseIdSet) (id x : EntityId) (h : x ∈ (s.erase id).ids) :
    x ∈ s.ids := by
  unfold erase at h
  split at h
  · exact mem_of_mem_swap_remove s.ids id x h
  · exact h

theorem not_mem_erase (s : SparseIdSet) (id : EntityId) (h : s.WF) :
    id ∉ (s.erase id).ids := by
  intro hm
  exact ((mem_erase s id id h).1 hm).2 rfl

theorem wf_empty : SparseIdSet.empty.WF := List.nodup_nil

end SparseIdSet

namespace ComponentMatrix

theorem wf_getD (l : List SparseIdSet) (h : ∀ s ∈ l, s.WF) (i : Nat) :
    (l.getD i SparseIdSet.empty).WF := by
  by_cases hi : i < l.length
  · rw [List.getD_eq_getElem _ _ hi]
    exact h _ (List.getElem_mem _)
  · rw [List.getD_eq_default _ _ (not_lt.1 hi)]
    exact SparseIdSet.wf_empty

theorem has_component_remove_component (m : ComponentMatrix) (e x : EntityId)
    (t type : Nat) (h : (m.remove_component e t).has_component x type = true) :
    m.has_component x type = true := by
  unfold has_component remove_component at *
  simp only at h
  by_cases ht : t < m._components.length
  · rw [getD_set _ _ _ _ _ ht] at h
    split at h
    · rename_i heq
      rw [SparseIdSet.contains_iff] at h ⊢
      rw [heq]
      exact SparseIdSet.mem_of_mem_erase _ _ _ h
    · exact h
  · rw [List.set_eq_of_length_le (not_lt.1 ht)] at h
    exact h

theorem has_component_remove_component_self (m : ComponentMatrix) (e : EntityId) (t : Nat)
    (hwf : ∀ s ∈ m._components, s.WF) :
    (m.remove_component e t).has_component e t = false := by
  unfold has_component remove_component
  simp only
  by_cases ht : t < m._components.length
  · rw [getD_set_self _ _ _ _ ht]
    have := SparseIdSet.not_mem_erase _ e (wf_getD m._components hwf t)
    simp only [SparseIdSet.contains, decide_eq_false_iff_not]
    exact this
  · rw [List.set_eq_of_length_le (not_lt.1 ht), List.getD_eq_default _ _ (not_lt.1 ht)]
    rfl

theorem wf_remove_component (m : ComponentMatrix) (e : EntityId) (t : Nat)
    (hwf : ∀ s ∈ m._components, s.WF) :
    ∀ s ∈ (m.remove_component e t)._components, s.WF := by
  intro s hs
  unfold remove_component at hs
  simp only at hs
  rcases List.mem_or_eq_of_mem_set hs with h | h
  · exact hwf s h
  · rw [h]
    exact SparseIdSet.wf_erase _ _ (wf_getD m._components hwf t)

end ComponentMatrix

namespace ComponentContainer

theorem try_get_remove (c : ComponentContainer) (m : ComponentMatrix) (e : EntityId) :
    (c.remove m e).1.try_get e = none := by
  unfold remove
  split
  · simp [try_get, List.find?_eq_none]
  · rename_i h
    simp only [contains, List.any_eq_true, not_exists, not_and, Bool.not_eq_true] at h
    simp only [try_get, Option.map_eq_none', List.find?_eq_none]
    intro x hx
    simpa using h x hx

theorem matrix_remove (c : ComponentContainer) (m : ComponentMatrix) (e : EntityId) :
    (c.remove m e).2 = if c.contains e then m.remove_component e c._type_id else m := by
  unfold remove
  split <;> rfl

end ComponentContainer

namespace EntityWorld

theorem matrix_step_fields (c : ComponentContainer) (m : ComponentMatrix) (e : EntityId) :
    (c.remove m e).2._tags = m._tags ∧ (c.remove m e).2._ids = m._ids := by
  rw [ComponentContainer.matrix_remove]
  split <;> exact ⟨rfl, rfl⟩

theorem matrix_step_wf (c : ComponentContainer) (m : ComponentMatrix) (e : EntityId)
    (hwf : ∀ s ∈ m._components, s.WF) : ∀ s ∈ (c.remove m e).2._components, s.WF := by
  rw [ComponentContainer.matrix_remove]
  split
  · exact ComponentMatrix.wf_remove_component m e _ hwf
  · exact hwf

theorem remove_from_containers_fields (e : EntityId) :
    ∀ (l : List (Option ComponentContainer)) (m : ComponentMatrix),
      (remove_from_containers l m e).2._tags = m._tags ∧
        (remove_from_containers l m e).2._ids = m._ids := by
  intro l
  induction l with
  | nil => intro m; exact ⟨rfl, rfl⟩
  | cons oc rest ih =>
    intro m
    cases oc with
    | none => exact ih m
    | some c =>
      have h1 := ih (c.remove m e).2
      have h2 := matrix_step_fields c m e
      simp only [remove_from_containers]
      exact ⟨h1.1.trans h2.1, h1.2.trans h2.2⟩

theorem remove_from_containers_try_get (e : EntityId) :
    ∀ (l : List (Option ComponentContainer)) (m : ComponentMatrix) (c1 : ComponentContainer),
      some c1 ∈ (remove_from_containers l m e).1 → c1.try_get e = none := by
  intro l
  induction l with
  | nil => intro m c1 h; simp [remove_from_containers] at h
  | cons oc rest ih =>
    intro m c1 h
    cases oc with
    | none =>
      simp only [remove_from_containers, List.mem_cons] at h
      rcases h with h | h
      · exact absurd h (by simp)
      · exact ih m c1 h
    | some c =>
      simp only [remove_from_containers, List.mem_cons, Option.some.injEq] at h
      rcases h with h | h
      · rw [h]; exact ComponentContainer.try_get_remove c m e
      · exact ih _ c1 h

theorem remove_from_containers_matrix (e : EntityId) :
    ∀ (l : List (Option ComponentContainer)) (m : ComponentMatrix),
      (∀ s ∈ m._components, s.WF) →
      (∀ s ∈ (remove_from_containers l m e).2._components, s.WF) ∧
      ∀ type, (m.has_component e type = true →
          ∃ c, some c ∈ l ∧ c._type_id = type ∧ c.contains e = true) →
        (remove_from_containers l m e).2.has_component e type = false := by
  intro l
  induction l with
  | nil =>
    intro m hwf
    refine ⟨hwf, ?_⟩
    intro type h
    simp only [remove_from_containers]
    by_contra hcon
    obtain ⟨c, hc, -⟩ := h (by simpa using hcon)
    simp at hc
  | cons oc rest ih =>
    intro m hwf
    cases oc with
    | none =>
      obtain ⟨h1, h2⟩ := ih m hwf
      refine ⟨h1, ?_⟩
      intro type h
      apply h2 type
      intro hh
      obtain ⟨c, hc, hrest⟩ := h hh
      simp only [List.mem_cons] at hc
      rcases hc with hc | hc
      · exact absurd hc (by simp)
      · exact ⟨c, hc, hrest⟩
    | some c0 =>
      obtain ⟨h1, h2⟩ := ih (c0.remove m e).2 (matrix_step_wf c0 m e hwf)
      refine ⟨h1, ?_⟩
      intro type h
      apply h2 type
      intro hh
      rw [ComponentContainer.matrix_remove] at hh
      by_cases hc0 : c0.contains e = true
      · rw [if_pos hc0] at hh
        have hm := ComponentMatrix.has_component_remove_component m e e _ type hh
        obtain ⟨c, hc, htype, hcont⟩ := h hm
        simp only [List.mem_cons, Option.some.injEq] at hc
        rcases hc with hc | hc
        · subst hc
          rw [htype, ComponentMatrix.has_component_remove_component_self m e type hwf] at hh
          exact absurd hh (by simp)
        · exact ⟨c, hc, htype, hcont⟩
      · rw [if_neg hc0] at hh
        obtain ⟨c, hc, htype, hcont⟩ := h hh
        simp only [List.mem_cons, Option.some.injEq] at hc
        rcases hc with hc | hc
        · subst hc
          exact absurd hcont hc0
        · exact ⟨c, hc, htype, hcont⟩

end EntityWorld

namespace ComponentMatrix

theorem remove_tag_entry (m : ComponentMatrix) (e : EntityId) (t : String)
    (entry1 : String × SparseIdSet) (h : entry1 ∈ (m.remove_tag e t)._tags) :
    ∃ entry ∈ m._tags, entry.1 = entry1.1 ∧
      (entry.1 = t → entry1.2 = entry.2.erase e) ∧ (entry.1 ≠ t → entry1 = entry) := by
  unfold remove_tag at h
  simp only [List.mem_map] at h
  obtain ⟨entry, hentry, hf⟩ := h
  refine ⟨entry, hentry, ?_, ?_, ?_⟩
  · split at hf <;> rw [← hf]
  · intro ht
    rw [if_pos ht] at hf
    rw [← hf]
  · intro ht
    rw [if_neg ht] at hf
    exact hf.symm

theorem remove_tags_fold (e : EntityId) :
    ∀ (names : List String) (m : ComponentMatrix), (∀ entry ∈ m._tags, entry.2.WF) →
      (∀ entry1 ∈ (names.foldl (fun m1 tag => m1.remove_tag e tag) m)._tags,
        entry1.2.WF ∧
        (∃ entry ∈ m._tags, entry.1 = entry1.1 ∧ (e ∉ entry.2.ids → e ∉ entry1.2.ids)) ∧
        (entry1.1 ∈ names → e ∉ entry1.2.ids)) ∧
      (names.foldl (fun m1 tag => m1.remove_tag e tag) m)._components = m._components ∧
      (names.foldl (fun m1 tag => m1.remove_tag e tag) m)._ids = m._ids := by
  intro names
  induction names with
  | nil =>
    intro m hwf
    refine ⟨?_, rfl, rfl⟩
    intro entry1 h1
    exact ⟨hwf entry1 h1, ⟨entry1, h1, rfl, fun h => h⟩, fun h => absurd h (by simp)⟩
  | cons t names ih =>
    intro m hwf
    have hwf1 : ∀ entry ∈ (m.remove_tag e t)._tags, entry.2.WF := by
      intro entry1 h1
      obtain ⟨entry, hentry, -, ha, hb⟩ := remove_tag_entry m e t entry1 h1
      by_cases ht : entry.1 = t
      · rw [ha ht]; exact SparseIdSet.wf_erase _ _ (hwf entry hentry)
      · rw [hb ht]; exact hwf entry hentry
    obtain ⟨h1, h2, h3⟩ := ih (m.remove_tag e t) hwf1
    rw [List.foldl_cons]
    refine ⟨?_, h2, h3⟩
    intro entry2 hentry2
    obtain ⟨hA, ⟨entry1, hentry1, hname1, himp1⟩, hC⟩ := h1 entry2 hentry2
    obtain ⟨entry, hentry, hname, ha, hb⟩ := remove_tag_entry m e t entry1 hentry1
    have hstep : e ∉ entry.2.ids → e ∉ entry1.2.ids := by
      intro hne
      by_cases ht : entry.1 = t
      · rw [ha ht]
        exact fun hm => hne (SparseIdSet.mem_of_mem_erase _ _ _ hm)
      · rw [hb ht]; exact hne
    refine ⟨hA, ⟨entry, hentry, hname.trans hname1, fun hne => himp1 (hstep hne)⟩, ?_⟩
    intro hmem
    rcases List.mem_cons.1 hmem with h | h
    · apply himp1
      have ht : entry.1 = t := by rw [hname, hname1, h]
      rw [ha ht]
      exact SparseIdSet.not_mem_erase _ _ (hwf entry hentry)
    · exact hC h

theorem not_mem_with_tag (m : ComponentMatrix) (e : EntityId)
    (h : ∀ entry ∈ m._tags, e ∉ entry.2.ids) (tag : String) : e ∉ m.with_tag tag := by
  unfold with_tag
  split
  · rename_i entry hfind
    exact h entry (List.mem_of_find?_eq_some hfind)
  · simp

end ComponentMatrix

namespace EntityPool

theorem size_recycle (p q : EntityPool) (id : EntityId) (hok : FreeListOk p)
    (hcap : p._ids.length ≤ invalid_index) (h : recycle p id = some q) :
    q.size + 1 = p.size := by
  obtain ⟨hid, hq⟩ := recycle_eq p q id h
  have hlt := free_length_lt p hok id hid
  subst hq
  rw [size_eq p (le_of_lt hlt) hcap, size_eq _ (by simp; omega) (by simpa using hcap)]
  simp only [List.length_set, List.length_append, List.length_singleton]
  omega

end EntityPool

namespace EntityWorld

theorem mem_of_getD_eq_some {α : Type} (l : List (Option α)) (i : Nat) (c : α)
    (h : l.getD i none = some c) : some c ∈ l := by
  by_cases hi : i < l.length
  · rw [List.getD_eq_getElem _ _ hi] at h
    rw [← h]
    exact List.getElem_mem _
  · rw [List.getD_eq_default _ _ (not_lt.1 hi)] at h
    exact absurd h (by simp)

theorem mem_of_find_container (w : EntityWorld) (type : Nat) (c : ComponentContainer)
    (h : w.find_container type = some c) : some c ∈ w._containers := by
  unfold find_container at h
  split at h
  · exact mem_of_getD_eq_some _ _ _ h
  · exact absurd h (by simp)

theorem component_ne_some (w : EntityWorld) (e : EntityId)
    (hall : ∀ c, some c ∈ w._containers → c.try_get e = none) (type value : Nat) :
    w.component type e ≠ some (some value) := by
  intro h
  unfold component at h
  cases hf : w.find_container type with
  | none =>
    rw [hf] at h
    exact absurd h (by simp)
  | some c =>
    rw [hf, Option.map_some', hall c (mem_of_find_container w type c hf)] at h
    exact absurd h (by simp)

/-- C12: for every well-formed world and every live entity `e`, whatever components and tags it
holds, `remove_entity(e)` returns and afterwards `exists(e)` is false, `with_tag(t)` does not
contain `e` for any tag `t`, `e` has no component of any type (in the matrix and in the
containers), `e` is not in the matrix, and `entity_count()` has decreased by one. -/
theorem C12_remove_entity_cascade (w : EntityWorld) (hwf : w.WellFormed) (e : EntityId)
    (he : w.exists e = true) :
    ∃ w1, w.remove_entity e = some w1 ∧ w1.exists e = false ∧
      (∀ tag, e ∉ w1._matrix.with_tag tag) ∧
      (∀ tag ids, w1.with_tag tag = some ids → e ∉ ids) ∧
      (∀ type, w1._matrix.has_component e type = false) ∧
      (∀ type value, w1.component type e ≠ some (some value)) ∧
      w1._matrix.contains e = false ∧ w1.entity_count + 1 = w.entity_count := by
  obtain ⟨hok, hcap, hids, hcomps, htags, hmirror⟩ := hwf
  have hpool : ∃ q, w._entities.recycle e = some q := by
    have : w._entities.exists e = true := he
    exact ⟨_, by simp only [EntityPool.recycle, this, if_true]; rfl⟩
  obtain ⟨q, hq⟩ := hpool
  have hfields := remove_from_containers_fields e w._containers w._matrix
  have hmat := remove_from_containers_matrix e w._containers w._matrix hcomps
  have hfold := ComponentMatrix.remove_tags_fold e
    (remove_from_containers w._containers w._matrix e).2.tags
    (remove_from_containers w._containers w._matrix e).2
    (by rw [hfields.1]; exact htags)
  have hrem : w.remove_entity e = some
      { _containers := (remove_from_containers w._containers w._matrix e).1,
        _groups := w._groups,
        _matrix := (((remove_from_containers w._containers w._matrix e).2.tags.foldl
          (fun m1 tag => m1.remove_tag e tag)
          (remove_from_containers w._containers w._matrix e).2)).remove_entity e,
        _entities := q,
        constructed_groups := w.constructed_groups } := by
    simp only [remove_entity, remove_all_tags, remove_all_components, EntityPool.remove, hq]
  have hnot : ∀ entry ∈ (((remove_from_containers w._containers w._matrix e).2.tags.foldl
      (fun m1 tag => m1.remove_tag e tag)
      (remove_from_containers w._containers w._matrix e).2))._tags, e ∉ entry.2.ids := by
    intro entry1 h1
    obtain ⟨-, ⟨entry, hentry, hname, -⟩, hC⟩ := hfold.1 entry1 h1
    apply hC
    rw [← hname]
    exact List.mem_map.2 ⟨entry, hentry, rfl⟩
  refine ⟨_, hrem, ?_, ?_, ?_, ?_, ?_, ?_, ?_⟩
  · show q.exists e = false
    rw [EntityPool.exists_recycle _ q e hq]
    simp
  · intro tag
    exact ComponentMatrix.not_mem_with_tag _ e hnot tag
  · intro tag ids h
    unfold with_tag at h
    split at h
    · exact absurd h (by simp)
    · injection h with h
      rw [← h]
      exact ComponentMatrix.not_mem_with_tag _ e hnot tag
  · intro type
    show ((((remove_from_containers w._containers w._matrix e).2.tags.foldl
      (fun m1 tag => m1.remove_tag e tag)
      (remove_from_containers w._containers w._matrix e).2))._components.getD type
        SparseIdSet.empty).contains e = false
    rw [hfold.2.1]
    exact hmat.2 type (hmirror type e)
  · intro type value
    exact component_ne_some _ e (remove_from_containers_try_get e _ _) type value
  · show ((((remove_from_containers w._containers w._matrix e).2.tags.foldl
      (fun m1 tag => m1.remove_tag e tag)
      (remove_from_containers w._containers w._matrix e).2))._ids.erase e).contains e = false
    rw [hfold.2.2, hfields.2]
    have := SparseIdSet.not_mem_erase _ e hids
    simp only [SparseIdSet.contains, decide_eq_false_iff_not]
    exact this
  · exact EntityPool.size_recycle w._entities q e hok hcap hq

end EntityWorld

/-! ## Saving and loading -/

namespace ComponentMatrix

theorem tags_add_entities (ids : List EntityId) :
    ∀ m : ComponentMatrix, (ids.foldl ComponentMatrix.add_entity m)._tags = m._tags := by
  induction ids with
  | nil => intro m; rfl
  | cons a ids ih => intro m; rw [List.foldl_cons, ih]; rfl

theorem tags_post_load (c : ComponentContainer) (m : ComponentMatrix) :
    (c.post_load m)._tags = m._tags := by
  unfold ComponentContainer.post_load
  generalize c._components = l
  induction l generalizing m with
  | nil => rfl
  | cons a l ih => rw [List.foldl_cons, ih]; rfl

end ComponentMatrix

namespace EntityWorld

theorem install_containers_drop (cs : List (Option ComponentContainer))
    (htyped : ∀ i c, cs.getD i none = some c → c._type_id = i) :
    ∀ (n k : Nat) (acc : List (Option ComponentContainer)) (m : ComponentMatrix),
      cs.length - k = n → acc.length = cs.length →
      ∃ r m1, install_containers (cs.drop k) acc m = some (r, m1) ∧
        r.length = cs.length ∧ m1._tags = m._tags ∧
        ∀ i, r.getD i none =
          if k ≤ i ∧ (cs.getD i none).isSome = true then cs.getD i none
          else acc.getD i none := by
  intro n
  induction n with
  | zero =>
    intro k acc m hk hlen
    have hdrop : cs.drop k = [] := List.drop_eq_nil_of_le (by omega)
    refine ⟨acc, m, by rw [hdrop]; rfl, hlen, rfl, ?_⟩
    intro i
    split
    · rename_i h
      have : cs.getD i none = none := List.getD_eq_default _ _ (by omega)
      rw [this] at h
      exact absurd h.2 (by simp)
    · rfl
  | succ n ih =>
    intro k acc m hk hlen
    have hklt : k < cs.length := by omega
    have hdrop : cs.drop k = cs[k] :: cs.drop (k + 1) := List.drop_eq_getElem_cons hklt
    have hget : cs.getD k none = cs[k] := List.getD_eq_getElem _ _ hklt
    cases hck : cs[k] with
    | none =>
      obtain ⟨r, m1, h1, h2, h3, h4⟩ := ih (k + 1) acc m (by omega) hlen
      refine ⟨r, m1, by rw [hdrop, hck]; exact h1, h2, h3, ?_⟩
      intro i
      rw [h4 i]
      by_cases hik : i = k
      · subst hik
        rw [hget, hck]
        simp
      · have : (k + 1 ≤ i) ↔ (k ≤ i) := by omega
        simp only [this]
    | some c =>
      have htype : c._type_id = k := htyped k c (by rw [hget, hck])
      obtain ⟨r, m1, h1, h2, h3, h4⟩ := ih (k + 1) (acc.set k (some c)) (c.post_load m)
        (by omega) (by rw [List.length_set]; exact hlen)
      refine ⟨r, m1, ?_, h2, by rw [h3, ComponentMatrix.tags_post_load], ?_⟩
      · rw [hdrop, hck]
        simp only [install_containers, htype]
        rw [if_pos (by omega)]
        exact h1
      · intro i
        rw [h4 i]
        by_cases hik : i = k
        · subst hik
          rw [hget, hck, getD_set_self _ _ _ _ (by omega)]
          simp
        · have : (k + 1 ≤ i) ↔ (k ≤ i) := by omega
          simp only [this]
          rw [getD_set_other _ _ _ _ _ (Ne.symm hik)]

theorem eq_of_getD_eq {α : Type} (a b : List (Option α)) (hlen : a.length = b.length)
    (h : ∀ i, a.getD i none = b.getD i none) : a = b := by
  apply List.ext_getElem hlen
  intro i h1 h2
  have := h i
  rw [List.getD_eq_getElem _ _ h1, List.getD_eq_getElem _ _ h2] at this
  exact this

theorem install_containers_same (cs base : List (Option ComponentContainer))
    (m : ComponentMatrix) (hlen : cs.length = base.length)
    (hshape : ∀ i, (cs.getD i none).isSome = (base.getD i none).isSome)
    (htyped : ∀ i c, cs.getD i none = some c → c._type_id = i) :
    ∃ m1, install_containers cs base m = some (cs, m1) ∧ m1._tags = m._tags := by
  obtain ⟨r, m1, h1, h2, h3, h4⟩ :=
    install_containers_drop cs htyped (cs.length - 0) 0 base m rfl hlen.symm
  rw [List.drop_zero] at h1
  have hr : r = cs := by
    apply eq_of_getD_eq r cs h2
    intro i
    rw [h4 i]
    split
    · rfl
    · rename_i hn
      have hnone : (cs.getD i none).isSome = false := by simpa using hn
      have hb : (base.getD i none).isSome = false := by rw [← hshape i]; exact hnone
      have e1 : cs.getD i none = none := by
        cases hx : cs.getD i none with
        | none => rfl
        | some x => rw [hx] at hnone; exact absurd hnone (by simp)
      have e2 : base.getD i none = none := by
        cases hx : base.getD i none with
        | none => rfl
        | some x => rw [hx] at hb; exact absurd hb (by simp)
      rw [e1, e2]
  rw [hr] at h1
  exact ⟨m1, h1, h3⟩

theorem save_state_records (w : EntityWorld) (space : Nat) (arc1 : WritableArchive)
    (h : w.save_state ⟨[], space⟩ = (Result.ok, arc1)) :
    arc1.records = [Record.entities w._entities, Record.containers w._containers,
      Record.tags w._matrix._tags] := by
  unfold save_state ComponentMatrix.save_tags WritableArchive.serialize at h
  simp only at h
  split at h
  · simp at h
  · rename_i a1 h1
    split at h1
    · simp at h1
    · injection h1 with h1
      subst h1
      simp only at h
      split at h
      · simp at h
      · rename_i a2 h2
        split at h2
        · simp at h2
        · injection h2 with h2
          subst h2
          simp only at h
          split at h
          · simp at h
          · rename_i a3 h3
            split at h3
            · simp at h3
            · injection h3 with h3
              subst h3
              simp only [Prod.mk.injEq, true_and] at h
              rw [← h]
              rfl

theorem clear_make (registry : List Nat) :
    (EntityWorld.make registry).clear = some
      { EntityWorld.make registry with
        _matrix := (EntityWorld.make registry)._matrix.clear, _groups := [] } := by
  rfl

/-- C16: for every world over a registry of component types, when `save_state` into a new
archive succeeds, `load_state` of the produced records into a new world over the same registry
succeeds, and the loaded world has the same entity ids, the same component of every entity and
type, the same ids under every tag and the same parent of every entity. -/
theorem C16_save_load_round_trip (w : EntityWorld) (registry : List Nat)
    (hreg : w.SameRegistry registry) (space : Nat) (arc1 : WritableArchive)
    (hsave : w.save_state ⟨[], space⟩ = (Result.ok, arc1)) :
    ∃ w1 rest, (EntityWorld.make registry).load_state arc1.records =
        some (Result.ok, w1, rest) ∧
      w1._entities.ids = w._entities.ids ∧ (∀ id, w1.exists id = w.exists id) ∧
      (∀ type id, w1.component type id = w.component type id) ∧
      (∀ tag, w1._matrix.with_tag tag = w._matrix.with_tag tag) ∧
      (∀ id, w1.parent id = w.parent id) := by
  obtain ⟨hlen, hshape, htyped⟩ := hreg
  have hrec := save_state_records w space arc1 hsave
  obtain ⟨m1, hinst, htags⟩ := install_containers_same w._containers
    (create_component_containers registry)
    (w._entities.ids.foldl ComponentMatrix.add_entity
      { (EntityWorld.make registry)._matrix.clear with _tags := w._matrix._tags })
    hlen hshape htyped
  have hload : (EntityWorld.make registry).load_state arc1.records =
      some (Result.ok,
        { _containers := w._containers, _groups := [], _matrix := m1,
          _entities := w._entities, constructed_groups := 0 }, []) := by
    rw [hrec]
    simp only [load_state, clear_make, ReadableArchive.deserialize_entities,
      ReadableArchive.deserialize_containers, ComponentMatrix.load_tags]
    have hbase : (EntityWorld.make registry)._containers =
        create_component_containers registry := rfl
    rw [hbase, hinst]
    rfl
  have htags1 : m1._tags = w._matrix._tags := by
    rw [htags, ComponentMatrix.tags_add_entities]
  refine ⟨_, _, hload, rfl, fun _ => rfl, fun _ _ => rfl, ?_, fun _ => rfl⟩
  intro tag
  show m1.with_tag tag = w._matrix.with_tag tag
  unfold ComponentMatrix.with_tag
  rw [htags1]

end EntityWorld

namespace EntityWorld

theorem sample_world_reached :
    apply_all (EntityWorld.make [0, 2]) sample_calls = some sample_world := by
  decide

theorem sample_world_well_formed : sample_world.WellFormed := by
  refine ⟨?_, by decide, by decide, by decide, by decide, ?_⟩
  · have h : sample_world._entities =
        (EntityPool.create (EntityPool.create EntityPool.empty).2).2 := by decide
    rw [h]
    exact EntityPool.reachable_ok _
      (EntityPool.Reachable.create _ (EntityPool.Reachable.create _ EntityPool.Reachable.empty))
      (by decide)
  · intro type id h
    have hlist : sample_world._matrix._components =
        [⟨[⟨0, 0⟩]⟩, ⟨[]⟩, ⟨[⟨0, 0⟩]⟩] := rfl
    unfold ComponentMatrix.has_component at h
    rw [hlist] at h
    match type, h with
    | 0, h =>
      have hid : id = ⟨0, 0⟩ := by simpa [SparseIdSet.contains] using h
      subst hid
      exact ⟨⟨0, [(⟨0, 0⟩, 7)]⟩, by decide, rfl, by decide⟩
    | 1, h => simp [SparseIdSet.contains] at h
    | 2, h =>
      have hid : id = ⟨0, 0⟩ := by simpa [SparseIdSet.contains] using h
      subst hid
      exact ⟨⟨2, [(⟨0, 0⟩, 9)]⟩, by decide, rfl, by decide⟩
    | n + 3, h => simp [SparseIdSet.contains, SparseIdSet.empty] at h

/-- The cascade theorem at `sample_world`, for its first entity, which holds two components
and the tag `t`. -/
theorem C12_witness :
    sample_world.exists ⟨0, 0⟩ = true ∧ sample_world._matrix.with_tag "t" = [⟨0, 0⟩] ∧
      sample_world.component 0 ⟨0, 0⟩ = some (some 7) ∧
      ∃ w1, sample_world.remove_entity ⟨0, 0⟩ = some w1 ∧ w1.exists ⟨0, 0⟩ = false ∧
        (∀ tag, (⟨0, 0⟩ : EntityId) ∉ w1._matrix.with_tag tag) ∧
        (∀ tag ids, w1.with_tag tag = some ids → (⟨0, 0⟩ : EntityId) ∉ ids) ∧
        (∀ type, w1._matrix.has_component ⟨0, 0⟩ type = false) ∧
        (∀ type value, w1.component type ⟨0, 0⟩ ≠ some (some value)) ∧
        w1._matrix.contains ⟨0, 0⟩ = false ∧
        w1.entity_count + 1 = sample_world.entity_count :=
  ⟨by decide, by decide, by decide,
    C12_remove_entity_cascade sample_world sample_world_well_formed ⟨0, 0⟩ (by decide)⟩

theorem sample_world_same_registry : sample_world.SameRegistry [0, 2] := by
  refine ⟨by decide, ?_, ?_⟩
  · intro i
    match i with
    | 0 => decide
    | 1 => decide
    | 2 => decide
    | n + 3 => rfl
  · intro i c h
    have hlist : sample_world._containers =
        [some ⟨0, [(⟨0, 0⟩, 7)]⟩, none, some ⟨2, [(⟨0, 0⟩, 9)]⟩] := rfl
    rw [hlist] at h
    match i, h with
    | 0, h => simp at h; rw [← h]
    | 1, h => simp at h
    | 2, h => simp at h; rw [← h]
    | n + 3, h => simp at h

/-- The round-trip theorem at `sample_world`, saved into an archive with room for three
records. -/
theorem C16_witness :
    sample_world.save_state ⟨[], 3⟩ =
        (Result.ok, ⟨[Record.entities sample_world._entities,
          Record.containers sample_world._containers,
          Record.tags sample_world._matrix._tags], 0⟩) ∧
      ∃ w1 rest, (EntityWorld.make [0, 2]).load_state
          [Record.entities sample_world._entities,
            Record.containers sample_world._containers,
            Record.tags sample_world._matrix._tags] = some (Result.ok, w1, rest) ∧
        w1._entities.ids = sample_world._entities.ids ∧
        (∀ id, w1.exists id = sample_world.exists id) ∧
        (∀ type id, w1.component type id = sample_world.component type id) ∧
        (∀ tag, w1._matrix.with_tag tag = sample_world._matrix.with_tag tag) ∧
        (∀ id, w1.parent id = sample_world.parent id) :=
  ⟨by decide,
    C16_save_load_round_trip sample_world [0, 2] sample_world_same_registry 3
      ⟨[Record.entities sample_world._entities, Record.containers sample_world._containers,
        Record.tags sample_world._matrix._tags], 0⟩ (by decide)⟩

end EntityWorld

/-! ## Reached worlds are well-formed -/

theorem mem_set_of_mem {α : Type} (l : List α) (i : Nat) (a b x : α) (hx : x ∈ l)
    (hi : l.getD i b = a) (hlt : i < l.length) (y : α) : x ∈ l.set i y ∨ x = a := by
  obtain ⟨j, hj, hjx⟩ := List.mem_iff_getElem.1 hx
  by_cases hji : j = i
  · right
    subst hji
    rw [List.getD_eq_getElem _ _ hlt] at hi
    rw [← hjx, hi]
  · left
    rw [List.mem_iff_getElem]
    refine ⟨j, by rw [List.length_set]; exact hj, ?_⟩
    rw [List.getElem_set_ne (Ne.symm hji)]
    exact hjx

theorem mem_set_self {α : Type} (l : List α) (i : Nat) (y : α) (hlt : i < l.length) :
    y ∈ l.set i y := by
  rw [List.mem_iff_getElem]
  exact ⟨i, by rw [List.length_set]; exact hlt, by simp⟩

namespace ComponentMatrix

theorem has_component_add_component (m : ComponentMatrix) (id x : EntityId) (t type : Nat) :
    (m.add_component id t).has_component x type = true ↔
      m.has_component x type = true ∨ (type = t ∧ x = id) := by
  unfold has_component add_component
  simp only
  have hlt : t < (set_min_size SparseIdSet.empty m._components (t + 1)).length := by
    rw [length_set_min_size]; omega
  rw [getD_set _ _ _ _ _ hlt, getD_set_min_size]
  by_cases ht : type = t
  · subst ht
    rw [if_pos rfl, SparseIdSet.contains_iff, SparseIdSet.contains_iff, SparseIdSet.mem_insert]
    simp
  · rw [if_neg ht]
    simp [ht]

theorem wf_add_component (m : ComponentMatrix) (id : EntityId) (t : Nat)
    (hwf : ∀ s ∈ m._components, s.WF) : ∀ s ∈ (m.add_component id t)._components, s.WF := by
  intro s hs
  unfold add_component at hs
  simp only at hs
  rcases List.mem_or_eq_of_mem_set hs with h | h
  · unfold set_min_size at h
    rcases List.mem_append.1 h with h1 | h1
    · exact hwf s h1
    · rw [(List.mem_replicate.1 h1).2]
      exact SparseIdSet.wf_empty
  · rw [h]
    exact SparseIdSet.wf_insert _ _ (wf_getD m._components hwf t)

theorem wf_add_tag (m : ComponentMatrix) (id : EntityId) (tag : String)
    (hwf : ∀ e ∈ m._tags, e.2.WF) : ∀ e ∈ (m.add_tag id tag)._tags, e.2.WF := by
  intro e he
  unfold add_tag at he
  split at he
  · simp only [List.mem_map] at he
    obtain ⟨e0, he0, hf⟩ := he
    split at hf
    · rw [← hf]; exact SparseIdSet.wf_insert _ _ (hwf e0 he0)
    · rw [← hf]; exact hwf e0 he0
  · simp only [List.mem_append, List.mem_singleton] at he
    rcases he with h | h
    · exact hwf e h
    · rw [h]; exact SparseIdSet.wf_insert _ _ SparseIdSet.wf_empty

theorem wf_remove_tag (m : ComponentMatrix) (id : EntityId) (tag : String)
    (hwf : ∀ e ∈ m._tags, e.2.WF) : ∀ e ∈ (m.remove_tag id tag)._tags, e.2.WF := by
  intro e he
  obtain ⟨e0, he0, -, ha, hb⟩ := remove_tag_entry m id tag e he
  by_cases ht : e0.1 = tag
  · rw [ha ht]; exact SparseIdSet.wf_erase _ _ (hwf e0 he0)
  · rw [hb ht]; exact hwf e0 he0

theorem wf_clear_tag (m : ComponentMatrix) (tag : String)
    (hwf : ∀ e ∈ m._tags, e.2.WF) : ∀ e ∈ (m.clear_tag tag)._tags, e.2.WF := by
  intro e he
  unfold clear_tag at he
  simp only [List.mem_map] at he
  obtain ⟨e0, he0, hf⟩ := he
  split at hf
  · rw [← hf]; exact SparseIdSet.wf_empty
  · rw [← hf]; exact hwf e0 he0

theorem has_component_clear (m : ComponentMatrix) (x : EntityId) (type : Nat) :
    m.clear.has_component x type = false := by
  unfold has_component clear
  simp only
  by_cases ht : type < (m._components.map fun _ => SparseIdSet.empty).length
  · rw [List.getD_eq_getElem _ _ ht, List.getElem_map]
    rfl
  · rw [List.getD_eq_default _ _ (not_lt.1 ht)]
    rfl

theorem has_component_make (n : Nat) (x : EntityId) (type : Nat) :
    (ComponentMatrix.make n).has_component x type = false := by
  unfold has_component make
  simp only
  by_cases ht : type < (List.replicate n SparseIdSet.empty).length
  · rw [List.getD_eq_getElem _ _ ht, List.getElem_replicate]
    rfl
  · rw [List.getD_eq_default _ _ (not_lt.1 ht)]
    rfl

end ComponentMatrix

namespace ComponentContainer

theorem contains_add (c : ComponentContainer) (m : ComponentMatrix) (id x : EntityId)
    (value : Nat) : (c.add m id value).1.contains x = true ↔ c.contains x = true ∨ x = id := by
  unfold add contains
  simp only [List.any_append, Bool.or_eq_true, List.any_cons, List.any_nil, Bool.or_false,
    beq_iff_eq]
  constructor
  · rintro (h | h)
    · exact Or.inl h
    · exact Or.inr h.symm
  · rintro (h | h)
    · exact Or.inl h
    · exact Or.inr h.symm

theorem contains_remove (c : ComponentContainer) (m : ComponentMatrix) (e x : EntityId)
    (hx : x ≠ e) (h : c.contains x = true) : (c.remove m e).1.contains x = true := by
  unfold remove
  split
  · simp only [contains, List.any_eq_true, List.mem_filter] at h ⊢
    obtain ⟨a, ha, hax⟩ := h
    have hax' : a.1 = x := by simpa using hax
    exact ⟨a, ⟨ha, by simpa [hax'] using hx⟩, hax⟩
  · exact h

theorem type_id_remove (c : ComponentContainer) (m : ComponentMatrix) (e : EntityId) :
    (c.remove m e).1._type_id = c._type_id := by
  unfold remove
  split <;> rfl

theorem contains_add_or_replace (c : ComponentContainer) (m : ComponentMatrix)
    (id x : EntityId) (value : Nat) (h : c.contains x = true) :
    (c.add_or_replace m id value).1.contains x = true := by
  unfold add_or_replace
  split
  · simp only [contains, List.any_eq_true, List.mem_map] at h ⊢
    obtain ⟨a, ha, hax⟩ := h
    have hax' : a.1 = x := by simpa using hax
    by_cases hid : a.1 = id
    · exact ⟨(id, value), ⟨a, ha, by rw [if_pos hid]⟩, by simp [← hid, hax']⟩
    · exact ⟨a, ⟨a, ha, by rw [if_neg hid]⟩, hax⟩
  · exact (contains_add c m id x value).2 (Or.inl h)

theorem type_id_add_or_replace (c : ComponentContainer) (m : ComponentMatrix)
    (id : EntityId) (value : Nat) : (c.add_or_replace m id value).1._type_id = c._type_id := by
  unfold add_or_replace
  split <;> rfl

theorem matrix_add_or_replace (c : ComponentContainer) (m : ComponentMatrix)
    (id : EntityId) (value : Nat) :
    (c.add_or_replace m id value).2 =
      if c.contains id then m else m.add_component id c._type_id := by
  unfold add_or_replace
  split <;> rfl

theorem contains_self_add_or_replace (c : ComponentContainer) (m : ComponentMatrix)
    (id : EntityId) (value : Nat) (h : c.contains id = false) :
    (c.add_or_replace m id value).1.contains id = true := by
  unfold add_or_replace
  rw [h]
  exact (contains_add c m id id value).2 (Or.inr rfl)

theorem get_or_add_cases (c : ComponentContainer) (m : ComponentMatrix) (id : EntityId) :
    ((c.get_or_add m id).2.1 = c ∧ (c.get_or_add m id).2.2 = m) ∨
      ((c.get_or_add m id).2.1 = (c.add m id 0).1 ∧
        (c.get_or_add m id).2.2 = m.add_component id c._type_id) := by
  unfold get_or_add
  split
  · exact Or.inl ⟨rfl, rfl⟩
  · exact Or.inr ⟨rfl, rfl⟩

end ComponentContainer

namespace EntityWorld

theorem mirror_of_components (cs : List (Option ComponentContainer)) (m m1 : ComponentMatrix)
    (h : Mirror cs m) (hc : m1._components = m._components) : Mirror cs m1 := by
  intro type id hx
  apply h type id
  unfold ComponentMatrix.has_component at hx ⊢
  rw [← hc]
  exact hx

theorem mirror_set (cs : List (Option ComponentContainer)) (m m1 : ComponentMatrix)
    (type : Nat) (c c1 : ComponentContainer) (hfind : cs.getD type none = some c)
    (hlt : type < cs.length) (htype : c1._type_id = c._type_id)
    (hcont : ∀ x, c.contains x = true → c1.contains x = true)
    (hm : ∀ x t, m1.has_component x t = true →
      m.has_component x t = true ∨ (t = c._type_id ∧ c1.contains x = true))
    (h : Mirror cs m) : Mirror (cs.set type (some c1)) m1 := by
  intro t x hx
  rcases hm x t hx with h1 | ⟨ht, hc⟩
  · obtain ⟨c0, hc0, ht0, hx0⟩ := h t x h1
    rcases mem_set_of_mem cs type (some c) none (some c0) hc0 hfind hlt (some c1) with h2 | h2
    · exact ⟨c0, h2, ht0, hx0⟩
    · injection h2 with h2
      subst h2
      exact ⟨c1, mem_set_self cs type (some c1) hlt, htype.trans ht0, hcont x hx0⟩
  · exact ⟨c1, mem_set_self cs type (some c1) hlt, htype.trans ht.symm, hc⟩

theorem find_container_getD (w : EntityWorld) (type : Nat) (c : ComponentContainer)
    (h : w.find_container type = some c) :
    w._containers.getD type none = some c ∧ type < w._containers.length := by
  unfold find_container at h
  split at h
  · rename_i hlt
    exact ⟨h, hlt⟩
  · exact absurd h (by simp)

theorem remove_from_containers_mono (e : EntityId) :
    ∀ (l : List (Option ComponentContainer)) (m : ComponentMatrix) (x : EntityId) (t : Nat),
      (remove_from_containers l m e).2.has_component x t = true →
        m.has_component x t = true := by
  intro l
  induction l with
  | nil => intro m x t h; exact h
  | cons oc rest ih =>
    intro m x t h
    cases oc with
    | none => exact ih m x t h
    | some c =>
      have h1 := ih (c.remove m e).2 x t h
      rw [ComponentContainer.matrix_remove] at h1
      split at h1
      · exact ComponentMatrix.has_component_remove_component m e x _ t h1
      · exact h1

theorem remove_from_containers_keeps (e : EntityId) :
    ∀ (l : List (Option ComponentContainer)) (m : ComponentMatrix) (c : ComponentContainer),
      some c ∈ l → ∃ c1, some c1 ∈ (remove_from_containers l m e).1 ∧
        c1._type_id = c._type_id ∧
        ∀ x, x ≠ e → c.contains x = true → c1.contains x = true := by
  intro l
  induction l with
  | nil => intro m c h; simp at h
  | cons oc rest ih =>
    intro m c h
    cases oc with
    | none =>
      simp only [List.mem_cons] at h
      rcases h with h | h
      · exact absurd h (by simp)
      · obtain ⟨c1, h1, h2, h3⟩ := ih m c h
        exact ⟨c1, by simp only [remove_from_containers]; exact List.mem_cons_of_mem _ h1,
          h2, h3⟩
    | some c0 =>
      simp only [List.mem_cons, Option.some.injEq] at h
      rcases h with h | h
      · subst h
        exact ⟨(c.remove m e).1, by simp [remove_from_containers],
          ComponentContainer.type_id_remove c m e,
          fun x hx hc => ComponentContainer.contains_remove c m e x hx hc⟩
      · obtain ⟨c1, h1, h2, h3⟩ := ih (c0.remove m e).2 c h
        exact ⟨c1, by simp only [remove_from_containers]; exact List.mem_cons_of_mem _ h1,
          h2, h3⟩

theorem mirror_remove_from_containers (e : EntityId) (l : List (Option ComponentContainer))
    (m : ComponentMatrix) (hwf : ∀ s ∈ m._components, s.WF) (h : Mirror l m) :
    Mirror (remove_from_containers l m e).1 (remove_from_containers l m e).2 := by
  intro t x hx
  by_cases hxe : x = e
  · subst hxe
    have := (remove_from_containers_matrix x l m hwf).2 t (h t x)
    rw [this] at hx
    exact absurd hx (by simp)
  · obtain ⟨c, hc, ht, hcont⟩ := h t x (remove_from_containers_mono e l m x t hx)
    obtain ⟨c1, h1, h2, h3⟩ := remove_from_containers_keeps e l m c hc
    exact ⟨c1, h1, h2.trans ht, h3 x hxe hcont⟩

theorem well_formed_make (registry : List Nat) : (EntityWorld.make registry).WellFormed := by
  refine ⟨EntityPool.freeListOk_empty, by simp [make, EntityPool.empty],
    SparseIdSet.wf_empty, ?_, ?_, ?_⟩
  · intro s hs
    rw [(List.mem_replicate.1 hs).2]
    exact SparseIdSet.wf_empty
  · intro e he
    simp [make, ComponentMatrix.make] at he
  · intro t x hx
    rw [show (EntityWorld.make registry)._matrix = ComponentMatrix.make _ from rfl,
      ComponentMatrix.has_component_make] at hx
    exact absurd hx (by simp)

theorem well_formed_create_entity (w : EntityWorld) (h : w.WellFormed)
    (hcap : w.create_entity.2._entities._ids.length ≤ invalid_index) :
    w.create_entity.2.WellFormed := by
  obtain ⟨hok, -, hids, hcomps, htags, hmirror⟩ := h
  exact ⟨EntityPool.freeListOk_create _ hok hcap, hcap, SparseIdSet.wf_insert _ _ hids,
    hcomps, htags, mirror_of_components _ _ _ hmirror rfl⟩

theorem well_formed_remove_all_components (w : EntityWorld) (e : EntityId)
    (h : w.WellFormed) : (w.remove_all_components e).WellFormed := by
  obtain ⟨hok, hcap, hids, hcomps, htags, hmirror⟩ := h
  have hf := remove_from_containers_fields e w._containers w._matrix
  refine ⟨hok, hcap, ?_, (remove_from_containers_matrix e w._containers w._matrix hcomps).1,
    ?_, mirror_remove_from_containers e _ _ hcomps hmirror⟩
  · show (remove_from_containers w._containers w._matrix e).2._ids.WF
    rw [hf.2]; exact hids
  · show ∀ x ∈ (remove_from_containers w._containers w._matrix e).2._tags, x.2.WF
    rw [hf.1]; exact htags

theorem well_formed_remove_all_tags (w : EntityWorld) (e : EntityId) (h : w.WellFormed) :
    (w.remove_all_tags e).WellFormed := by
  obtain ⟨hok, hcap, hids, hcomps, htags, hmirror⟩ := h
  have hfold := ComponentMatrix.remove_tags_fold e w._matrix.tags w._matrix htags
  refine ⟨hok, hcap, ?_, ?_, ?_, ?_⟩
  · show (w._matrix.tags.foldl (fun m1 tag => m1.remove_tag e tag) w._matrix)._ids.WF
    rw [hfold.2.2]; exact hids
  · show ∀ s ∈ (w._matrix.tags.foldl (fun m1 tag => m1.remove_tag e tag)
      w._matrix)._components, s.WF
    rw [hfold.2.1]; exact hcomps
  · intro x hx
    exact (hfold.1 x hx).1
  · exact mirror_of_components _ _ _ hmirror hfold.2.1

theorem well_formed_remove_entity (w w1 : EntityWorld) (e : EntityId) (h : w.WellFormed)
    (hr : w.remove_entity e = some w1) :
    w1.WellFormed ∧ w1._entities._ids.length = w._entities._ids.length := by
  have h2 := well_formed_remove_all_tags _ e (well_formed_remove_all_components w e h)
  obtain ⟨hok, hcap, hids, hcomps, htags, hmirror⟩ := h2
  unfold remove_entity at hr
  simp only at hr
  split at hr
  · exact absurd hr (by simp)
  · rename_i q hq
    injection hr with hr
    subst hr
    have hq' : w._entities.recycle e = some q := hq
    have hlen := EntityPool.length_recycle _ q e hq'
    refine ⟨⟨EntityPool.freeListOk_recycle _ q e hok hq', ?_,
      SparseIdSet.wf_erase _ _ hids, hcomps, htags,
      mirror_of_components _ _ _ hmirror rfl⟩, hlen⟩
    show q._ids.length ≤ invalid_index
    rw [hlen]; exact hcap

theorem well_formed_remove_each : ∀ (ids : List EntityId) (w w1 : EntityWorld),
    w.WellFormed → remove_each w ids = some w1 →
    w1.WellFormed ∧ w1._entities._ids.length = w._entities._ids.length := by
  intro ids
  induction ids with
  | nil =>
    intro w w1 h hr
    simp only [remove_each, Option.some.injEq] at hr
    rw [← hr]
    exact ⟨h, rfl⟩
  | cons e ids ih =>
    intro w w1 h hr
    simp only [remove_each] at hr
    cases hre : w.remove_entity e with
    | none => simp [hre] at hr
    | some w2 =>
      simp only [hre] at hr
      obtain ⟨h2, hl2⟩ := well_formed_remove_entity w w2 e h hre
      obtain ⟨h3, hl3⟩ := ih w2 w1 h2 hr
      exact ⟨h3, hl3.trans hl2⟩

theorem well_formed_clear (w w1 : EntityWorld) (h : w.WellFormed) (hc : w.clear = some w1) :
    w1.WellFormed ∧ w1._entities._ids.length = w._entities._ids.length := by
  unfold clear remove_all_entities at hc
  cases hre : remove_each w w._entities.ids with
  | none => simp [hre] at hc
  | some w2 =>
    simp only [hre, Option.some.injEq] at hc
    obtain ⟨⟨hok, hcap, -, -, -, -⟩, hl⟩ := well_formed_remove_each _ w w2 h hre
    subst hc
    refine ⟨⟨hok, hcap, SparseIdSet.wf_empty, ?_, ?_, ?_⟩, hl⟩
    · intro s hs
      simp only [ComponentMatrix.clear, List.mem_map] at hs
      obtain ⟨-, -, hs⟩ := hs
      rw [← hs]; exact SparseIdSet.wf_empty
    · intro x hx
      simp [ComponentMatrix.clear] at hx
    · intro t x hx
      rw [show ({ w2 with _matrix := w2._matrix.clear, _groups := [] } : EntityWorld)._matrix =
        w2._matrix.clear from rfl, ComponentMatrix.has_component_clear] at hx
      exact absurd hx (by simp)

end EntityWorld

namespace EntityWorld

theorem well_formed_matrix_tags (w : EntityWorld) (m : ComponentMatrix) (h : w.WellFormed)
    (hids : m._ids = w._matrix._ids) (hcomps : m._components = w._matrix._components)
    (htags : ∀ e ∈ m._tags, e.2.WF) : ({ w with _matrix := m } : EntityWorld).WellFormed := by
  obtain ⟨hok, hcap, h1, h2, -, hmirror⟩ := h
  refine ⟨hok, hcap, ?_, ?_, htags, mirror_of_components _ _ _ hmirror hcomps⟩
  · show m._ids.WF
    rw [hids]; exact h1
  · show ∀ s ∈ m._components, s.WF
    rw [hcomps]; exact h2

theorem components_add_tag (m : ComponentMatrix) (id : EntityId) (tag : String) :
    (m.add_tag id tag)._ids = m._ids ∧ (m.add_tag id tag)._components = m._components := by
  unfold ComponentMatrix.add_tag
  split <;> exact ⟨rfl, rfl⟩

theorem well_formed_get_or_add (w : EntityWorld) (type : Nat) (id : EntityId) (value : Nat)
    (w1 : EntityWorld) (h : w.WellFormed)
    (hr : w.get_or_add_component type id = some (value, w1)) :
    w1.WellFormed ∧ w1._entities = w._entities := by
  obtain ⟨hok, hcap, hids, hcomps, htags, hmirror⟩ := h
  unfold get_or_add_component at hr
  cases hf : w.find_container type with
  | none => simp [hf] at hr
  | some c =>
    simp only [hf, Option.some.injEq, Prod.mk.injEq] at hr
    obtain ⟨hget, hlt⟩ := find_container_getD w type c hf
    rw [← hr.2]
    refine ⟨⟨hok, hcap, ?_, ?_, ?_, ?_⟩, rfl⟩
    · show (c.get_or_add w._matrix id).2.2._ids.WF
      rcases ComponentContainer.get_or_add_cases c w._matrix id with ⟨-, h2⟩ | ⟨-, h2⟩
      · rw [h2]; exact hids
      · rw [h2]; exact hids
    · show ∀ s ∈ (c.get_or_add w._matrix id).2.2._components, s.WF
      rcases ComponentContainer.get_or_add_cases c w._matrix id with ⟨-, h2⟩ | ⟨-, h2⟩
      · rw [h2]; exact hcomps
      · rw [h2]; exact ComponentMatrix.wf_add_component _ _ _ hcomps
    · show ∀ e ∈ (c.get_or_add w._matrix id).2.2._tags, e.2.WF
      rcases ComponentContainer.get_or_add_cases c w._matrix id with ⟨-, h2⟩ | ⟨-, h2⟩
      · rw [h2]; exact htags
      · rw [h2]; exact htags
    · show Mirror (w._containers.set type (some (c.get_or_add w._matrix id).2.1))
        (c.get_or_add w._matrix id).2.2
      rcases ComponentContainer.get_or_add_cases c w._matrix id with ⟨h1, h2⟩ | ⟨h1, h2⟩
      · rw [h1, h2]
        exact mirror_set _ _ _ type c c hget hlt rfl (fun _ hx => hx)
          (fun x t hx => Or.inl hx) hmirror
      · rw [h1, h2]
        refine mirror_set _ _ _ type c _ hget hlt rfl
          (fun x hx => (ComponentContainer.contains_add c _ id x 0).2 (Or.inl hx)) ?_ hmirror
        intro x t hx
        rcases (ComponentMatrix.has_component_add_component _ id x _ t).1 hx with h3 | ⟨h3, h4⟩
        · exact Or.inl h3
        · exact Or.inr ⟨h3, (ComponentContainer.contains_add c _ id x 0).2 (Or.inr h4)⟩

theorem well_formed_add_or_replace (w : EntityWorld) (type : Nat) (id : EntityId)
    (value : Nat) (w1 : EntityWorld) (h : w.WellFormed)
    (hr : w.add_or_replace_component type id value = some w1) :
    w1.WellFormed ∧ w1._entities = w._entities := by
  obtain ⟨hok, hcap, hids, hcomps, htags, hmirror⟩ := h
  unfold add_or_replace_component at hr
  split at hr
  · exact absurd hr (by simp)
  · cases hf : w.find_container type with
    | none => simp [hf] at hr
    | some c =>
      simp only [hf, Option.some.injEq] at hr
      obtain ⟨hget, hlt⟩ := find_container_getD w type c hf
      rw [← hr]
      have hm := ComponentContainer.matrix_add_or_replace c w._matrix id value
      refine ⟨⟨hok, hcap, ?_, ?_, ?_, ?_⟩, rfl⟩
      · show (c.add_or_replace w._matrix id value).2._ids.WF
        rw [hm]; split <;> exact hids
      · show ∀ s ∈ (c.add_or_replace w._matrix id value).2._components, s.WF
        rw [hm]
        split
        · exact hcomps
        · exact ComponentMatrix.wf_add_component _ _ _ hcomps
      · show ∀ e ∈ (c.add_or_replace w._matrix id value).2._tags, e.2.WF
        rw [hm]; split <;> exact htags
      · show Mirror (w._containers.set type (some (c.add_or_replace w._matrix id value).1))
          (c.add_or_replace w._matrix id value).2
        refine mirror_set _ _ _ type c _ hget hlt
          (ComponentContainer.type_id_add_or_replace c _ id value)
          (fun x hx => ComponentContainer.contains_add_or_replace c _ id x value hx) ?_ hmirror
        intro x t hx
        rw [hm] at hx
        by_cases hc : c.contains id = true
        · rw [if_pos hc] at hx
          exact Or.inl hx
        · rw [if_neg hc] at hx
          rcases (ComponentMatrix.has_component_add_component _ id x _ t).1 hx with
            h3 | ⟨h3, h4⟩
          · exact Or.inl h3
          · refine Or.inr ⟨h3, ?_⟩
            rw [h4]
            exact ComponentContainer.contains_self_add_or_replace c _ id value (by simpa using hc)

theorem well_formed_create_group (w : EntityWorld) (ts : List ComponentArg)
    (tags : List String) (g : GroupEntry) (w1 : EntityWorld) (h : w.WellFormed)
    (hr : w.create_group ts tags = some (g, w1)) :
    w1.WellFormed ∧ w1._entities = w._entities := by
  unfold create_group at hr
  cases hf : find_group w._groups ts tags with
  | some g0 =>
    simp only [hf, Option.some.injEq, Prod.mk.injEq] at hr
    rw [← hr.2]
    exact ⟨h, rfl⟩
  | none =>
    simp only [hf] at hr
    unfold create_new_group at hr
    split at hr
    · cases hmk : EntityGroupBase.make (ts.map ComponentArg.raw_type) tags with
      | none => simp [hmk] at hr
      | some base =>
        simp only [hmk, Option.some.injEq, Prod.mk.injEq] at hr
        rw [← hr.2]
        obtain ⟨hok, hcap, hids, hcomps, htags, hmirror⟩ := h
        exact ⟨⟨hok, hcap, hids, hcomps, htags, mirror_of_components _ _ _ hmirror rfl⟩, rfl⟩
    · exact absurd hr (by simp)

theorem well_formed_apply (w w1 : EntityWorld) (op : WorldOp) (h : w.WellFormed)
    (hop : op.reads_no_archive = true) (hr : w.apply op = some w1)
    (hcap : w1._entities._ids.length ≤ invalid_index) :
    w1.WellFormed ∧ w._entities._ids.length ≤ w1._entities._ids.length := by
  cases op with
  | create_entity =>
    simp only [apply, Option.some.injEq] at hr
    subst hr
    exact ⟨well_formed_create_entity w h hcap, EntityPool.length_create_le _⟩
  | remove_entity id =>
    obtain ⟨h1, h2⟩ := well_formed_remove_entity w w1 id h hr
    exact ⟨h1, le_of_eq h2.symm⟩
  | remove_all_components id =>
    simp only [apply, Option.some.injEq] at hr
    subst hr
    exact ⟨well_formed_remove_all_components w id h, le_refl _⟩
  | remove_all_tags id =>
    simp only [apply, Option.some.injEq] at hr
    subst hr
    exact ⟨well_formed_remove_all_tags w id h, le_refl _⟩
  | add_tag id tag =>
    simp only [apply, add_tag] at hr
    split at hr
    · exact absurd hr (by simp)
    · split at hr
      · exact absurd hr (by simp)
      · injection hr with hr
        subst hr
        exact ⟨well_formed_matrix_tags w _ h (components_add_tag _ id tag).1
          (components_add_tag _ id tag).2
          (ComponentMatrix.wf_add_tag _ id tag h.2.2.2.2.1), le_refl _⟩
  | remove_tag id tag =>
    simp only [apply, remove_tag] at hr
    split at hr
    · exact absurd hr (by simp)
    · split at hr
      · exact absurd hr (by simp)
      · injection hr with hr
        subst hr
        exact ⟨well_formed_matrix_tags w _ h rfl rfl
          (ComponentMatrix.wf_remove_tag _ id tag h.2.2.2.2.1), le_refl _⟩
  | clear_tag tag =>
    simp only [apply, clear_tag] at hr
    split at hr
    · exact absurd hr (by simp)
    · injection hr with hr
      subst hr
      exact ⟨well_formed_matrix_tags w _ h rfl rfl
        (ComponentMatrix.wf_clear_tag _ tag h.2.2.2.2.1), le_refl _⟩
  | set_parent id parent_id =>
    simp only [apply, set_parent] at hr
    cases hp : w._entities.set_parent id parent_id with
    | none => simp [hp] at hr
    | some pool =>
      simp only [hp, Option.map_some', Option.some.injEq] at hr
      subst hr
      obtain ⟨-, h1, h2, -⟩ := EntityPool.ids_set_parent _ pool id parent_id hp
      obtain ⟨hok, hcap0, hids, hcomps, htags, hmirror⟩ := h
      refine ⟨⟨?_, ?_, hids, hcomps, htags, hmirror⟩, ?_⟩
      · unfold EntityPool.FreeListOk at hok ⊢
        show pool._free.Nodup ∧ _
        rw [h1, h2]
        exact hok
      · show pool._ids.length ≤ invalid_index
        rw [h1]; exact hcap0
      · show _ ≤ pool._ids.length
        rw [h1]
  | get_or_add_component type id =>
    simp only [apply] at hr
    cases hg : w.get_or_add_component type id with
    | none => simp [hg] at hr
    | some r =>
      obtain ⟨value, w2⟩ := r
      simp only [hg, Option.map_some', Option.some.injEq] at hr
      subst hr
      obtain ⟨h1, h2⟩ := well_formed_get_or_add w type id value w2 h hg
      exact ⟨h1, by rw [h2]⟩
  | add_or_replace_component type id value =>
    obtain ⟨h1, h2⟩ := well_formed_add_or_replace w type id value w1 h hr
    exact ⟨h1, by rw [h2]⟩
  | create_group ts tags =>
    simp only [apply] at hr
    cases hg : w.create_group ts tags with
    | none => simp [hg] at hr
    | some r =>
      obtain ⟨g, w2⟩ := r
      simp only [hg, Option.map_some', Option.some.injEq] at hr
      subst hr
      obtain ⟨h1, h2⟩ := well_formed_create_group w ts tags g w2 h hg
      exact ⟨h1, by rw [h2]⟩
  | clear =>
    obtain ⟨h1, h2⟩ := well_formed_clear w w1 h hr
    exact ⟨h1, le_of_eq h2.symm⟩
  | load_state arc => simp [WorldOp.reads_no_archive] at hop

theorem length_remove_entity (w w1 : EntityWorld) (e : EntityId)
    (hr : w.remove_entity e = some w1) :
    w1._entities._ids.length = w._entities._ids.length := by
  unfold remove_entity at hr
  simp only at hr
  split at hr
  · exact absurd hr (by simp)
  · rename_i q hq
    injection hr with hr
    subst hr
    have hq' : w._entities.recycle e = some q := hq
    exact EntityPool.length_recycle _ q e hq'

theorem length_remove_each : ∀ (ids : List EntityId) (w w1 : EntityWorld),
    remove_each w ids = some w1 →
    w1._entities._ids.length = w._entities._ids.length := by
  intro ids
  induction ids with
  | nil =>
    intro w w1 hr
    simp only [remove_each, Option.some.injEq] at hr
    rw [← hr]
  | cons e ids ih =>
    intro w w1 hr
    simp only [remove_each] at hr
    cases hre : w.remove_entity e with
    | none => simp [hre] at hr
    | some w2 =>
      simp only [hre] at hr
      exact (ih w2 w1 hr).trans (length_remove_entity w w2 e hre)

theorem length_clear (w w1 : EntityWorld) (hc : w.clear = some w1) :
    w1._entities._ids.length = w._entities._ids.length := by
  unfold clear remove_all_entities at hc
  cases hre : remove_each w w._entities.ids with
  | none => simp [hre] at hc
  | some w2 =>
    simp only [hre, Option.some.injEq] at hc
    subst hc
    exact length_remove_each _ w w2 hre

theorem pool_length_apply (w w1 : EntityWorld) (op : WorldOp)
    (hop : op.reads_no_archive = true) (hr : w.apply op = some w1) :
    w._entities._ids.length ≤ w1._entities._ids.length := by
  cases op with
  | create_entity =>
    simp only [apply, Option.some.injEq] at hr
    subst hr
    exact EntityPool.length_create_le _
  | remove_entity id => exact le_of_eq (length_remove_entity w w1 id hr).symm
  | remove_all_components id =>
    simp only [apply, Option.some.injEq] at hr
    subst hr
    exact le_refl _
  | remove_all_tags id =>
    simp only [apply, Option.some.injEq] at hr
    subst hr
    exact le_refl _
  | add_tag id tag =>
    simp only [apply, add_tag] at hr
    split at hr
    · exact absurd hr (by simp)
    · split at hr
      · exact absurd hr (by simp)
      · injection hr with hr
        subst hr
        exact le_refl _
  | remove_tag id tag =>
    simp only [apply, remove_tag] at hr
    split at hr
    · exact absurd hr (by simp)
    · split at hr
      · exact absurd hr (by simp)
      · injection hr with hr
        subst hr
        exact le_refl _
  | clear_tag tag =>
    simp only [apply, clear_tag] at hr
    split at hr
    · exact absurd hr (by simp)
    · injection hr with hr
      subst hr
      exact le_refl _
  | set_parent id parent_id =>
    simp only [apply, set_parent] at hr
    cases hp : w._entities.set_parent id parent_id with
    | none => simp [hp] at hr
    | some pool =>
      simp only [hp, Option.map_some', Option.some.injEq] at hr
      subst hr
      obtain ⟨-, h1, -, -⟩ := EntityPool.ids_set_parent _ pool id parent_id hp
      show _ ≤ pool._ids.length
      rw [h1]
  | get_or_add_component type id =>
    simp only [apply, get_or_add_component] at hr
    cases hc : w.find_container type with
    | none => simp [hc] at hr
    | some c =>
      simp only [hc, Option.map_some', Option.some.injEq] at hr
      subst hr
      exact le_refl _
  | add_or_replace_component type id value =>
    simp only [apply, add_or_replace_component] at hr
    split at hr
    · exact absurd hr (by simp)
    · cases hc : w.find_container type with
      | none => simp [hc] at hr
      | some c =>
        simp only [hc, Option.some.injEq] at hr
        subst hr
        exact le_refl _
  | create_group ts tags =>
    simp only [apply] at hr
    cases hg : w.create_group ts tags with
    | none => simp [hg] at hr
    | some r =>
      obtain ⟨g, w2⟩ := r
      simp only [hg, Option.map_some', Option.some.injEq] at hr
      subst hr
      unfold create_group at hg
      cases hf : find_group w._groups ts tags with
      | some g0 =>
        simp only [hf, Option.some.injEq, Prod.mk.injEq] at hg
        rw [← hg.2]
      | none =>
        simp only [hf] at hg
        rw [(create_new_group_eq w ts tags g w2 hg).2.2.2]
  | clear => exact le_of_eq (length_clear w w1 hr).symm
  | load_state arc => simp [WorldOp.reads_no_archive] at hop

theorem pool_length_apply_all : ∀ (ops : List WorldOp) (w w1 : EntityWorld),
    (∀ op ∈ ops, op.reads_no_archive = true) → apply_all w ops = some w1 →
    w._entities._ids.length ≤ w1._entities._ids.length := by
  intro ops
  induction ops with
  | nil =>
    intro w w1 _ hr
    simp only [apply_all, Option.some.injEq] at hr
    rw [hr]
  | cons op ops ih =>
    intro w w1 hops hr
    simp only [apply_all] at hr
    cases hop : w.apply op with
    | none => simp [hop] at hr
    | some w2 =>
      simp only [hop] at hr
      exact le_trans (pool_length_apply w w2 op (hops op (by simp)) hop)
        (ih w2 w1 (fun o ho => hops o (by simp [ho])) hr)

/-- Every world that calls other than `load_state` produce from a new world, within the `u32`
index range, is well-formed. -/
theorem well_formed_apply_all : ∀ (ops : List WorldOp) (w w1 : EntityWorld),
    w.WellFormed → (∀ op ∈ ops, op.reads_no_archive = true) → apply_all w ops = some w1 →
    w1._entities._ids.length ≤ invalid_index → w1.WellFormed := by
  intro ops
  induction ops with
  | nil =>
    intro w w1 h _ hr _
    simp only [apply_all, Option.some.injEq] at hr
    rw [← hr]
    exact h
  | cons op ops ih =>
    intro w w1 h hops hr hcap
    simp only [apply_all] at hr
    cases hop : w.apply op with
    | none => simp [hop] at hr
    | some w2 =>
      simp only [hop] at hr
      have hrest : ∀ o ∈ ops, o.reads_no_archive = true := fun o ho => hops o (by simp [ho])
      have hcap2 : w2._entities._ids.length ≤ invalid_index :=
        le_trans (pool_length_apply_all ops w2 w1 hrest hr) hcap
      exact ih w2 w1 (well_formed_apply w w2 op h (hops op (by simp)) hop hcap2).1 hrest hr
        hcap

theorem well_formed_of_reached (registry : List Nat) (ops : List WorldOp) (w : EntityWorld)
    (hops : ∀ op ∈ ops, op.reads_no_archive = true)
    (hr : apply_all (EntityWorld.make registry) ops = some w)
    (hcap : w._entities._ids.length ≤ invalid_index) : w.WellFormed :=
  well_formed_apply_all ops _ w (well_formed_make registry) hops hr hcap

end EntityWorld

/-! ## The filter algebra of the wrappers -/

namespace traits

theorem component_type_mutates_none (k : Nat) (a : ComponentArg)
    (h : component_type a = none) : component_type (mutates k a) = none := by
  induction k with
  | zero => exact h
  | succ k ih => simp only [mutates, component_type, ih]

theorem component_type_mutates_some (k : Nat) (a : ComponentArg) (c : ComponentTraits)
    (h : component_type a = some c) :
    ∃ d, component_type (mutates k a) = some d ∧ d.required = c.required ∧
      d.changed = c.changed ∧ d.removed = c.removed := by
  induction k with
  | zero => exact ⟨c, h, rfl, rfl, rfl⟩
  | succ k ih =>
    obtain ⟨d, hd, h1, h2, h3⟩ := ih
    exact ⟨⟨d.raw_type, false, d.required, d.changed, d.removed⟩,
      by simp only [mutates, component_type, hd], h1, h2, h3⟩

theorem accepted_flags : ∀ (a : ComponentArg) (c : ComponentTraits),
    component_type a = some c →
    ¬ (c.changed = true ∧ c.removed = true) ∧ (c.removed = true → c.required = true) := by
  intro a
  induction a with
  | component t =>
    intro c h
    simp only [component_type, Option.some.injEq] at h
    subst h
    simp
  | Mutate a ih =>
    intro c h
    simp only [component_type] at h
    cases ha : component_type a with
    | none => simp [ha] at h
    | some d =>
      simp only [ha, Option.some.injEq] at h
      subst h
      exact ih d ha
  | Not a ih =>
    intro c h
    simp only [component_type] at h
    cases ha : component_type a with
    | none => simp [ha] at h
    | some d =>
      simp only [ha] at h
      split at h
      · exact absurd h (by simp)
      · injection h with h
        subst h
        simp
  | Changed a ih =>
    intro c h
    simp only [component_type] at h
    cases ha : component_type a with
    | none => simp [ha] at h
    | some d =>
      simp only [ha] at h
      split at h
      · exact absurd h (by simp)
      · split at h
        · exact absurd h (by simp)
        · injection h with h
          subst h
          simp
  | Removed a ih =>
    intro c h
    simp only [component_type] at h
    cases ha : component_type a with
    | none => simp [ha] at h
    | some d =>
      simp only [ha] at h
      split at h
      · exact absurd h (by simp)
      · split at h
        · exact absurd h (by simp)
        · injection h with h
          subst h
          simp

theorem component_type_base (k t : Nat) :
    ∃ d, component_type (mutates k (ComponentArg.component t)) = some d ∧
      d.required = true ∧ d.changed = false ∧ d.removed = false :=
  component_type_mutates_some k _ ⟨t, true, true, false, false⟩ rfl

theorem not_some (x : ComponentArg) (d : ComponentTraits) (h : component_type x = some d)
    (hr : d.removed = false) :
    ∃ e, component_type (ComponentArg.Not x) = some e ∧ e.required = !d.required ∧
      e.changed = d.changed ∧ e.removed = false :=
  ⟨⟨d.raw_type, d.is_const, !d.required, d.changed, false⟩,
    by simp [component_type, h, hr], rfl, rfl, rfl⟩

theorem changed_some (x : ComponentArg) (d : ComponentTraits) (h : component_type x = some d)
    (hq : d.required = true) (hr : d.removed = false) :
    ∃ e, component_type (ComponentArg.Changed x) = some e ∧ e.required = true ∧
      e.changed = true ∧ e.removed = false :=
  ⟨⟨d.raw_type, d.is_const, true, true, false⟩,
    by simp [component_type, h, hq, hr], rfl, rfl, rfl⟩

theorem removed_some (x : ComponentArg) (d : ComponentTraits) (h : component_type x = some d)
    (hq : d.required = true) (hc : d.changed = false) :
    ∃ e, component_type (ComponentArg.Removed x) = some e ∧ e.required = true ∧
      e.changed = false ∧ e.removed = true :=
  ⟨⟨d.raw_type, d.is_const, true, false, true⟩,
    by simp [component_type, h, hq, hc], rfl, rfl, rfl⟩

theorem not_none (x : ComponentArg) (d : ComponentTraits) (h : component_type x = some d)
    (hr : d.removed = true) : component_type (ComponentArg.Not x) = none := by
  simp [component_type, h, hr]

theorem changed_none (x : ComponentArg) (d : ComponentTraits) (h : component_type x = some d)
    (hbad : d.required = false ∨ d.removed = true) :
    component_type (ComponentArg.Changed x) = none := by
  rcases hbad with hb | hb
  · simp [component_type, h, hb]
  · simp [component_type, h, hb]

theorem removed_none (x : ComponentArg) (d : ComponentTraits) (h : component_type x = some d)
    (hbad : d.required = false ∨ d.changed = true) :
    component_type (ComponentArg.Removed x) = none := by
  rcases hbad with hb | hb
  · simp [component_type, h, hb]
  · simp [component_type, h, hb]

theorem changed_removed_rejected (t i j k : Nat) :
    component_type (mutates i (ComponentArg.Changed (mutates j
      (ComponentArg.Removed (mutates k (ComponentArg.component t)))))) = none := by
  obtain ⟨d, hd, h1, h2, -⟩ := component_type_base k t
  obtain ⟨e, he, -, -, e3⟩ := removed_some _ d hd h1 h2
  obtain ⟨f, hf, -, -, f3⟩ := component_type_mutates_some j _ e he
  exact component_type_mutates_none i _ (changed_none _ f hf (Or.inr (f3.trans e3)))

theorem removed_changed_rejected (t i j k : Nat) :
    component_type (mutates i (ComponentArg.Removed (mutates j
      (ComponentArg.Changed (mutates k (ComponentArg.component t)))))) = none := by
  obtain ⟨d, hd, h1, -, h3⟩ := component_type_base k t
  obtain ⟨e, he, -, e2, -⟩ := changed_some _ d hd h1 h3
  obtain ⟨f, hf, -, f2, -⟩ := component_type_mutates_some j _ e he
  exact component_type_mutates_none i _ (removed_none _ f hf (Or.inr (f2.trans e2)))

theorem changed_not_rejected (t i j k : Nat) :
    component_type (mutates i (ComponentArg.Changed (mutates j
      (ComponentArg.Not (mutates k (ComponentArg.component t)))))) = none := by
  obtain ⟨d, hd, h1, -, h3⟩ := component_type_base k t
  obtain ⟨e, he, e1, -, -⟩ := not_some _ d hd h3
  obtain ⟨f, hf, f1, -, -⟩ := component_type_mutates_some j _ e he
  exact component_type_mutates_none i _
    (changed_none _ f hf (Or.inl (by rw [f1, e1, h1]; rfl)))

theorem removed_not_rejected (t i j k : Nat) :
    component_type (mutates i (ComponentArg.Removed (mutates j
      (ComponentArg.Not (mutates k (ComponentArg.component t)))))) = none := by
  obtain ⟨d, hd, h1, -, h3⟩ := component_type_base k t
  obtain ⟨e, he, e1, -, -⟩ := not_some _ d hd h3
  obtain ⟨f, hf, f1, -, -⟩ := component_type_mutates_some j _ e he
  exact component_type_mutates_none i _
    (removed_none _ f hf (Or.inl (by rw [f1, e1, h1]; rfl)))

theorem not_removed_rejected (t i j k : Nat) :
    component_type (mutates i (ComponentArg.Not (mutates j
      (ComponentArg.Removed (mutates k (ComponentArg.component t)))))) = none := by
  obtain ⟨d, hd, h1, h2, -⟩ := component_type_base k t
  obtain ⟨e, he, -, -, e3⟩ := removed_some _ d hd h1 h2
  obtain ⟨f, hf, -, -, f3⟩ := component_type_mutates_some j _ e he
  exact component_type_mutates_none i _ (not_none _ f hf (f3.trans e3))

/-- C21: every composition of `Mutate`, `Not`, `Changed` and `Removed` around a component type
that `component_type` accepts has at most one of the flags `changed` and `removed` set and has
`removed` only together with `required`; and `Changed<Removed<T>>`, `Removed<Changed<T>>`,
`Changed<Not<T>>`, `Removed<Not<T>>` and `Not<Removed<T>>` are rejected for every component
type `T`, with any number of `Mutate` wrappers around the whole, between the two wrappers and
around `T`. -/
theorem C21_component_type_filter_algebra :
    (∀ (a : ComponentArg) (c : ComponentTraits), component_type a = some c →
      ¬ (c.changed = true ∧ c.removed = true) ∧ (c.removed = true → c.required = true)) ∧
    (∀ t i j k : Nat,
      component_type (mutates i (ComponentArg.Changed (mutates j
        (ComponentArg.Removed (mutates k (ComponentArg.component t)))))) = none ∧
      component_type (mutates i (ComponentArg.Removed (mutates j
        (ComponentArg.Changed (mutates k (ComponentArg.component t)))))) = none ∧
      component_type (mutates i (ComponentArg.Changed (mutates j
        (ComponentArg.Not (mutates k (ComponentArg.component t)))))) = none ∧
      component_type (mutates i (ComponentArg.Removed (mutates j
        (ComponentArg.Not (mutates k (ComponentArg.component t)))))) = none ∧
      component_type (mutates i (ComponentArg.Not (mutates j
        (ComponentArg.Removed (mutates k (ComponentArg.component t)))))) = none) :=
  ⟨accepted_flags, fun t i j k =>
    ⟨changed_removed_rejected t i j k, removed_changed_rejected t i j k,
      changed_not_rejected t i j k, removed_not_rejected t i j k,
      not_removed_rejected t i j k⟩⟩

/-- The compositions are not all rejected: `Not<Changed<T>>` and `Changed<Not<Not<T>>>` are
accepted. -/
theorem accepted_examples :
    component_type (ComponentArg.Not (ComponentArg.Changed (ComponentArg.component 0))) =
        some ⟨0, true, false, true, false⟩ ∧
      component_type (ComponentArg.Changed (ComponentArg.Not (ComponentArg.Not
        (ComponentArg.component 0)))) = some ⟨0, true, true, true, false⟩ := by
  decide

end traits

/-! ## The free list and the size of the pool -/

namespace EntityPool

theorem reachable_holed_pool : Reachable holed_pool :=
  Reachable.recycle _ _ ⟨1, 0⟩
    (Reachable.create _ (Reachable.create _ (Reachable.create _ Reachable.empty))) (by decide)

theorem free_iff (p : EntityPool) (hok : FreeListOk p) (hcap : p._ids.length ≤ invalid_index)
    (i : Nat) :
    i ∈ p._free ↔ i < p._ids.length ∧ (p._ids.getD i EntityId.null).is_valid = false := by
  obtain ⟨-, h2, h3⟩ := hok
  constructor
  · intro hi
    obtain ⟨h4, h5⟩ := h2 i hi
    exact ⟨h4, by simp only [EntityId.is_valid, h5, bne_self_eq_false]⟩
  · rintro ⟨hi, hv⟩
    rcases h3 i hi with h | h
    · exfalso
      simp only [EntityId.is_valid, h, bne_eq_false_iff_eq] at hv
      omega
    · exact h.2

theorem free_length_le (p : EntityPool) (hok : FreeListOk p) :
    p._free.length ≤ p._ids.length := by
  have hsub : p._free.toFinset ⊆ Finset.range p._ids.length := by
    intro i hi
    rw [List.mem_toFinset] at hi
    exact Finset.mem_range.2 (hok.2.1 i hi).1
  have := Finset.card_le_card hsub
  rwa [List.toFinset_card_of_nodup hok.1, Finset.card_range] at this

/-- The live ids of a pool, as a finite set: the slots of the indices that are not free. -/
theorem live_set (p : EntityPool) (hok : FreeListOk p) (hcap : p._ids.length ≤ invalid_index) :
    ∃ S : Finset EntityId, (∀ id, id ∈ S ↔ p.exists id = true) ∧
      S.card = p._ids.length - p._free.length := by
  obtain ⟨h1, h2, h3⟩ := hok
  refine ⟨((Finset.range p._ids.length) \ p._free.toFinset).image
    (fun i => p._ids.getD i EntityId.null), ?_, ?_⟩
  · intro id
    rw [Finset.mem_image, exists_iff]
    constructor
    · rintro ⟨i, hi, rfl⟩
      rw [Finset.mem_sdiff, Finset.mem_range, List.mem_toFinset] at hi
      rcases h3 i hi.1 with h | h
      · rw [h]
        exact ⟨by omega, hi.1, rfl⟩
      · exact absurd h.2 hi.2
    · rintro ⟨hv, hlt, hget⟩
      refine ⟨id.index, ?_, hget⟩
      rw [Finset.mem_sdiff, Finset.mem_range, List.mem_toFinset]
      refine ⟨hlt, fun hf => hv ?_⟩
      have := (h2 _ hf).2
      rwa [hget] at this
  · rw [Finset.card_image_of_injOn]
    · have hsub : p._free.toFinset ⊆ Finset.range p._ids.length := by
        intro i hi
        rw [List.mem_toFinset] at hi
        exact Finset.mem_range.2 (h2 i hi).1
      rw [Finset.card_sdiff hsub, Finset.card_range, List.toFinset_card_of_nodup h1]
    · intro i hi j hj hij
      rw [Finset.mem_coe, Finset.mem_sdiff, Finset.mem_range, List.mem_toFinset] at hi hj
      have hi' : (p._ids.getD i EntityId.null).index = i := by
        rcases h3 i hi.1 with h | h
        · exact h
        · exact absurd h.2 hi.2
      have hj' : (p._ids.getD j EntityId.null).index = j := by
        rcases h3 j hj.1 with h | h
        · exact h
        · exact absurd h.2 hj.2
      have : (p._ids.getD i EntityId.null).index = (p._ids.getD j EntityId.null).index :=
        congrArg EntityId.index hij
      rw [hi', hj'] at this
      exact this

/-- C25: in every pool reached from the empty pool by `create` and `recycle` (within the `u32`
index range) the free list has no duplicate and holds exactly the indices of the slots that
are not valid; so it is not longer than `_ids`, `size()` is the difference without wrapping,
and `size()` is the number of ids for which `exists` is true. -/
theorem C25_size_counts_live_ids (p : EntityPool) (hr : Reachable p)
    (hcap : p._ids.length ≤ invalid_index) :
    p._free.Nodup ∧
      (∀ i, i ∈ p._free ↔
        i < p._ids.length ∧ (p._ids.getD i EntityId.null).is_valid = false) ∧
      p._free.length ≤ p._ids.length ∧
      p.size = p._ids.length - p._free.length ∧
      Set.ncard {id : EntityId | p.exists id = true} = p.size := by
  have hok := reachable_ok p hr hcap
  have hle := free_length_le p hok
  have hsize := size_eq p hle hcap
  refine ⟨hok.1, free_iff p hok hcap, hle, hsize, ?_⟩
  obtain ⟨S, hS, hcard⟩ := live_set p hok hcap
  have hset : {id : EntityId | p.exists id = true} = (S : Set EntityId) := by
    ext id
    simp only [Set.mem_setOf_eq, Finset.mem_coe]
    exact (hS id).symm
  rw [hset, Set.ncard_coe_Finset, hcard, hsize]

theorem C25_witness :
    holed_pool._ids.length ≤ invalid_index ∧ holed_pool._free = [1] ∧
      holed_pool._ids.length = 3 ∧ holed_pool.size = 2 ∧
      Set.ncard {id : EntityId | holed_pool.exists id = true} = holed_pool.size :=
  ⟨by decide, rfl, rfl, by decide,
    (C25_size_counts_live_ids holed_pool reachable_holed_pool (by decide)).2.2.2.2⟩

end EntityPool

/-! ## The parent of a created id -/

namespace EntityPool

theorem reachable_parented_pool : ReachableWithParents parented_pool :=
  ReachableWithParents.recycle ⟨[⟨0, 0⟩, ⟨1, 0⟩], [], [⟨1, 0⟩, EntityId.null]⟩ _ ⟨0, 0⟩
    (ReachableWithParents.set_parent _ ⟨[⟨0, 0⟩, ⟨1, 0⟩], [], [⟨1, 0⟩, EntityId.null]⟩
      ⟨0, 0⟩ ⟨1, 0⟩
      (ReachableWithParents.create _
        (ReachableWithParents.create _ ReachableWithParents.empty)) (by decide)) (by decide)

theorem create_index_lt (p : EntityPool) (hok : FreeListOk p)
    (hcap : (create p).2._ids.length ≤ invalid_index) :
    (create p).1.index < (create p).2._ids.length := by
  have h := exists_create p hok hcap (create p).1
  simp only [if_true, decide_True] at h
  exact ((exists_iff _ _).1 h).2.1

theorem parents_create (p : EntityPool) (hok : FreeListOk p)
    (hcap : (create p).2._ids.length ≤ invalid_index) :
    (create p).2._parents =
      (set_min_size EntityId.null p._parents ((create p).1.index + 1)).set
        (create p).1.index EntityId.null := by
  have hlt := create_index_lt p hok hcap
  have hmod : ((create p).1.index + 1) % u32_range = (create p).1.index + 1 := by
    apply Nat.mod_eq_of_lt
    have : invalid_index < u32_range := by decide
    omega
  show ((set_min_size EntityId.null p._parents (((create p).1.index + 1) % u32_range)).set
    (create p).1.index EntityId.null) = _
  rw [hmod]

/-- C26: for every pool reached by `create`, `recycle` and `set_parent` (within the `u32`
index range) the id that `create()` returns has the invalid id as its parent, whatever parent
the slot of its index held before, and the parent of every id that was live before the call
is unchanged. -/
theorem C26_created_id_has_no_parent (p : EntityPool) (hr : ReachableWithParents p)
    (hcap : (create p).2._ids.length ≤ invalid_index) :
    (create p).2.parent (create p).1 = EntityId.null ∧
      (∀ id, p.exists id = true → (create p).2.parent id = p.parent id) ∧
      (∀ x : EntityId, x.index ≠ (create p).1.index →
        (create p).2.parent x = p.parent x) := by
  have hok := (reachable_with_parents_ok p hr (le_trans (length_create_le p) hcap)).1
  have hpar := parents_create p hok hcap
  have hother : ∀ x : EntityId, x.index ≠ (create p).1.index →
      (create p).2.parent x = p.parent x := by
    intro x hx
    rw [parent_eq, parent_eq, hpar, getD_set_other _ _ _ _ _ (Ne.symm hx), getD_set_min_size]
  refine ⟨?_, fun id hid => hother id (create_index_not_live p hok hcap id hid), hother⟩
  rw [parent_eq, hpar]
  apply getD_set_self
  rw [length_set_min_size]
  omega

theorem C26_witness :
    (create parented_pool).2._ids.length ≤ invalid_index ∧
      parented_pool.parent ⟨0, 0⟩ = ⟨1, 0⟩ ∧ (create parented_pool).1 = ⟨0, 1⟩ ∧
      (create parented_pool).2.parent (create parented_pool).1 = EntityId.null ∧
      (∀ id, parented_pool.exists id = true →
        (create parented_pool).2.parent id = parented_pool.parent id) :=
  ⟨by decide, by decide, by decide,
    (C26_created_id_has_no_parent parented_pool reachable_parented_pool (by decide)).1,
    (C26_created_id_has_no_parent parented_pool reachable_parented_pool (by decide)).2.1⟩

end EntityPool

/-! ## The two pools side by side -/

namespace EntityIDPool

theorem step_to_id_pool (p : EntityPool) (op : EntityPool.Op) :
    step p.to_id_pool op =
      (EntityPool.step p op).map fun r => (r.1.to_id_pool, r.2) := by
  cases op with
  | create =>
    simp only [step, EntityPool.step, EntityPool.to_id_pool_create, Option.map_some']
  | recycle id =>
    simp only [step, EntityPool.step, EntityPool.to_id_pool_recycle, Option.map_map]
    rfl

theorem run_to_id_pool : ∀ (ops : List EntityPool.Op) (p : EntityPool)
    (evs : List EntityPool.Event),
    run (p.to_id_pool, evs) ops =
      (EntityPool.run (p, evs) ops).map fun r => (r.1.to_id_pool, r.2) := by
  intro ops
  induction ops with
  | nil => intro p evs; rfl
  | cons op ops ih =>
    intro p evs
    simp only [run, EntityPool.run, step_to_id_pool]
    cases h : EntityPool.step p op with
    | none => rfl
    | some r =>
      obtain ⟨q, e⟩ := r
      simp only [Option.map_some']
      exact ih q (e :: evs)

theorem size_to_id_pool (p : EntityPool) : p.to_id_pool.size = p.size := rfl

/-- C27: for every sequence of `create` and `recycle` calls, run from the empty pools, either
both `EntityPool` and `EntityIDPool` fail an assertion, or both return, with the same ids
returned by the calls (the same events), pools that agree on `exists`/`contains` for every id
and the same `size()`. -/
theorem C27_pools_observationally_equal (ops : List EntityPool.Op) :
    (EntityPool.run (EntityPool.empty, []) ops = none ∧ run (empty, []) ops = none) ∨
      ∃ (q : EntityPool) (r : EntityIDPool) (evs : List EntityPool.Event),
        EntityPool.run (EntityPool.empty, []) ops = some (q, evs) ∧
        run (empty, []) ops = some (r, evs) ∧
        (∀ id, r.contains id = q.exists id) ∧ r.size = q.size := by
  have h := run_to_id_pool ops EntityPool.empty []
  have he : EntityPool.empty.to_id_pool = empty := rfl
  rw [he] at h
  cases hq : EntityPool.run (EntityPool.empty, []) ops with
  | none =>
    rw [hq] at h
    exact Or.inl ⟨rfl, h⟩
  | some s =>
    obtain ⟨q, evs⟩ := s
    rw [hq] at h
    exact Or.inr ⟨q, q.to_id_pool, evs, rfl, h,
      fun id => EntityPool.to_id_pool_contains q id, size_to_id_pool q⟩

/-- The two pools on the calls `create, create, recycle(0), create`. -/
theorem pools_agree_example :
    EntityPool.run (EntityPool.empty, [])
        [EntityPool.Op.create, EntityPool.Op.create, EntityPool.Op.recycle ⟨0, 0⟩,
          EntityPool.Op.create] =
        some (⟨[⟨0, 1⟩, ⟨1, 0⟩], [], [EntityId.null, EntityId.null]⟩,
          [EntityPool.Event.created ⟨0, 1⟩, EntityPool.Event.recycled ⟨0, 0⟩,
            EntityPool.Event.created ⟨1, 0⟩, EntityPool.Event.created ⟨0, 0⟩]) ∧
      run (empty, [])
        [EntityPool.Op.create, EntityPool.Op.create, EntityPool.Op.recycle ⟨0, 0⟩,
          EntityPool.Op.create] =
        some (⟨[⟨0, 1⟩, ⟨1, 0⟩], []⟩,
          [EntityPool.Event.created ⟨0, 1⟩, EntityPool.Event.recycled ⟨0, 0⟩,
            EntityPool.Event.created ⟨1, 0⟩, EntityPool.Event.created ⟨0, 0⟩]) := by
  decide

end EntityIDPool

/-! ## Clearing the world -/

namespace EntityPool

theorem mem_ids_iff (p : EntityPool) (hok : FreeListOk p)
    (hcap : p._ids.length ≤ invalid_index) (id : EntityId) :
    id ∈ p.ids ↔ p.exists id = true := by
  unfold EntityPool.ids
  rw [List.mem_filter, exists_iff, List.mem_iff_getElem]
  constructor
  · rintro ⟨⟨i, hi, hget⟩, hv⟩
    have hgetD : p._ids.getD i EntityId.null = id := by
      rw [List.getD_eq_getElem _ _ hi]; exact hget
    have hne : id.index ≠ invalid_index := by
      simpa [EntityId.is_valid] using hv
    rcases hok.2.2 i hi with h | h
    · rw [hgetD] at h
      rw [h]
      exact ⟨by omega, hi, hgetD⟩
    · rw [hgetD] at h
      exact absurd h.1 hne
  · rintro ⟨hne, hlt, hget⟩
    refine ⟨⟨id.index, hlt, ?_⟩, by simpa [EntityId.is_valid] using hne⟩
    rw [← List.getD_eq_getElem _ EntityId.null hlt]
    exact hget

theorem nodup_ids (p : EntityPool) (hok : FreeListOk p) : p.ids.Nodup := by
  unfold EntityPool.ids
  have hpair : p._ids.Pairwise
      (fun a b => a.is_valid = true → b.is_valid = true → a ≠ b) := by
    rw [List.pairwise_iff_getElem]
    intro i j hi hj hij ha hb hab
    have hne : ∀ k (hk : k < p._ids.length), (p._ids[k]).is_valid = true →
        (p._ids[k]).index = k := by
      intro k hk hv
      have hv' : (p._ids[k]).index ≠ invalid_index := by
        simpa [EntityId.is_valid] using hv
      rcases hok.2.2 k hk with h | h
      · rw [List.getD_eq_getElem _ _ hk] at h
        exact h
      · rw [List.getD_eq_getElem _ _ hk] at h
        exact absurd h.1 hv'
    have h1 := hne i hi ha
    have h2 := hne j hj hb
    rw [hab] at h1
    omega
  have hfil := List.Pairwise.filter EntityId.is_valid hpair
  unfold List.Nodup
  refine List.Pairwise.imp_of_mem ?_ hfil
  intro a b ha hb hab
  exact hab (List.mem_filter.1 ha).2 (List.mem_filter.1 hb).2

theorem size_of_none_live (p : EntityPool) (hok : FreeListOk p)
    (hcap : p._ids.length ≤ invalid_index) (h : ∀ id, p.exists id = false) : p.size = 0 := by
  obtain ⟨S, hS, hcard⟩ := live_set p hok hcap
  have hempty : S = ∅ := by
    apply Finset.eq_empty_of_forall_not_mem
    intro id hid
    have := (hS id).1 hid
    rw [h id] at this
    exact absurd this (by simp)
  rw [hempty, Finset.card_empty] at hcard
  rw [size_eq p (free_length_le p hok) hcap]
  exact hcard.symm

end EntityPool

namespace EntityWorld

theorem remove_entity_of_recycle (w : EntityWorld) (e : EntityId) (q : EntityPool)
    (h : w._entities.recycle e = some q) :
    ∃ w1, w.remove_entity e = some w1 ∧ w1._entities = q := by
  unfold remove_entity
  simp only
  have h1 : ((w.remove_all_components e).remove_all_tags e)._entities.remove e = some q := h
  rw [h1]
  exact ⟨_, rfl, rfl⟩

theorem remove_entity_live (w : EntityWorld) (e : EntityId) (he : w.exists e = true) :
    ∃ w1, w.remove_entity e = some w1 ∧
      ∀ id, w1.exists id = if e = id then false else w.exists id := by
  have hex : w._entities.exists e = true := he
  have hq : ∃ q, w._entities.recycle e = some q :=
    ⟨_, by simp only [EntityPool.recycle, hex, if_true]; rfl⟩
  obtain ⟨q, hq⟩ := hq
  obtain ⟨w1, hw1, hpool⟩ := remove_entity_of_recycle w e q hq
  refine ⟨w1, hw1, fun id => ?_⟩
  show w1._entities.exists id = if e = id then false else w._entities.exists id
  rw [hpool]
  exact EntityPool.exists_recycle _ q e hq id

theorem remove_each_live : ∀ (ids : List EntityId) (w : EntityWorld),
    ids.Nodup → (∀ id ∈ ids, w.exists id = true) →
    ∃ w1, remove_each w ids = some w1 ∧
      ∀ id, w1.exists id = if id ∈ ids then false else w.exists id := by
  intro ids
  induction ids with
  | nil =>
    intro w _ _
    exact ⟨w, rfl, fun id => by simp⟩
  | cons e ids ih =>
    intro w hnd hlive
    obtain ⟨hnot, hnd'⟩ := List.nodup_cons.1 hnd
    obtain ⟨w2, hw2, hex2⟩ := remove_entity_live w e (hlive e (by simp))
    have hlive2 : ∀ id ∈ ids, w2.exists id = true := by
      intro id hid
      rw [hex2 id]
      have hne : e ≠ id := fun h => hnot (h ▸ hid)
      simp only [hne, if_false]
      exact hlive id (by simp [hid])
    obtain ⟨w1, hw1, hex1⟩ := ih w2 hnd' hlive2
    refine ⟨w1, by simp only [remove_each, hw2]; exact hw1, fun id => ?_⟩
    rw [hex1 id, hex2 id]
    by_cases h1 : id ∈ ids
    · simp [h1]
    · by_cases h2 : e = id
      · simp [h2]
      · have h3 : id ≠ e := fun h => h2 h.symm
        simp [h1, h2, h3]

/-- C23: for every well-formed world, `clear()` returns, and afterwards `entity_count()` is 0,
`exists(id)` is false for every id (so for every id that existed before), and the list of
groups of the world and the list of groups registered with the matrix are empty. -/
theorem C23_clear_empties_world (w : EntityWorld) (hwf : w.WellFormed) :
    ∃ w1, w.clear = some w1 ∧ w1.entity_count = 0 ∧ (∀ id, w1.exists id = false) ∧
      w1._groups = [] ∧ w1._matrix._groups = [] ∧ w1._matrix._ids = SparseIdSet.empty := by
  have hok := hwf.1
  have hcap := hwf.2.1
  obtain ⟨w2, hw2, hex2⟩ := remove_each_live w._entities.ids w
    (EntityPool.nodup_ids _ hok)
    (fun id hid => (EntityPool.mem_ids_iff _ hok hcap id).1 hid)
  have hnone : ∀ id, w2.exists id = false := by
    intro id
    rw [hex2 id]
    by_cases h : id ∈ w._entities.ids
    · simp [h]
    · simp only [h, if_false]
      cases hx : w.exists id with
      | false => rfl
      | true => exact absurd ((EntityPool.mem_ids_iff _ hok hcap id).2 hx) h
  have hwf2 := (well_formed_remove_each _ w w2 hwf hw2).1
  refine ⟨{ w2 with _matrix := w2._matrix.clear, _groups := [] }, ?_, ?_, hnone, rfl, rfl, rfl⟩
  · unfold clear remove_all_entities
    rw [hw2]
  · exact EntityPool.size_of_none_live w2._entities hwf2.1 hwf2.2.1 hnone

theorem crowded_world_reached :
    apply_all (EntityWorld.make [0, 2]) crowded_calls = some crowded_world := by
  decide

theorem crowded_world_well_formed : crowded_world.WellFormed :=
  well_formed_of_reached [0, 2] crowded_calls crowded_world (by decide)
    crowded_world_reached (by decide)

theorem C23_witness :
    crowded_world.entity_count = 2 ∧ crowded_world._groups.length = 1 ∧
      crowded_world.exists ⟨0, 0⟩ = true ∧
      ∃ w1, crowded_world.clear = some w1 ∧ w1.entity_count = 0 ∧
        (∀ id, w1.exists id = false) ∧ w1._groups = [] ∧ w1._matrix._groups = [] ∧
        w1._matrix._ids = SparseIdSet.empty :=
  ⟨by decide, by decide, by decide, C23_clear_empties_world crowded_world
    crowded_world_well_formed⟩

end EntityWorld

/-! ## The mutation locks of a query -/

theorem sum_map_set {α : Type} (f : α → Nat) : ∀ (l : List α) (i : Nat) (b : α) (d : α),
    i < l.length → ((l.set i b).map f).sum + f (l.getD i d) = (l.map f).sum + f b := by
  intro l
  induction l with
  | nil => intro i b d h; simp at h
  | cons a l ih =>
    intro i b d h
    cases i with
    | zero =>
      simp only [List.set_cons_zero, List.map_cons, List.sum_cons, List.getD_cons_zero]
      omega
    | succ i =>
      have h' : i < l.length := by simpa using h
      have := ih i b d h'
      simp only [List.set_cons_succ, List.map_cons, List.sum_cons, List.getD_cons_succ]
      omega

theorem lt_of_getD_eq_some {α : Type} (l : List (Option α)) (i : Nat) (a : α)
    (h : l.getD i none = some a) : i < l.length := by
  by_contra hlt
  rw [List.getD_eq_default _ _ (not_lt.1 hlt)] at h
  exact absurd h (by simp)

namespace MutationLocks

theorem lock_eq (l l1 : MutationLocks) (t : Nat) (h : l.lock t = some l1) :
    l.held t = false ∧ l1.locked = Function.update l.locked t (l.locked t + 1) ∧
      l1.unlocked = l.unlocked := by
  unfold lock at h
  cases hh : l.held t with
  | true => rw [hh] at h; exact absurd h (by simp)
  | false =>
    rw [hh] at h
    simp only [Bool.false_eq_true, if_false, Option.some.injEq] at h
    subst h
    exact ⟨rfl, rfl, rfl⟩

theorem unlock_eq (l l1 : MutationLocks) (t : Nat) (h : l.unlock t = some l1) :
    l.held t = true ∧ l1.unlocked = Function.update l.unlocked t (l.unlocked t + 1) ∧
      l1.locked = l.locked := by
  unfold unlock at h
  cases hh : l.held t with
  | false => rw [hh] at h; exact absurd h (by simp)
  | true =>
    rw [hh] at h
    simp only [if_true, Option.some.injEq] at h
    subst h
    exact ⟨rfl, rfl, rfl⟩

theorem update_succ_count (f : Nat → Nat) (a t : Nat) (ts : List Nat) :
    Function.update f a (f a + 1) t + ts.count t = f t + (a :: ts).count t := by
  by_cases hat : a = t
  · subst hat
    simp only [Function.update_same, List.count_cons_self]
    omega
  · have hta : t ≠ a := fun h => hat h.symm
    simp only [Function.update_noteq hta, List.count_cons_of_ne hta]

theorem lock_each_eq : ∀ (ts : List Nat) (l l1 : MutationLocks),
    lock_each ts l = some l1 →
    (∀ t, l1.locked t = l.locked t + ts.count t) ∧ l1.unlocked = l.unlocked := by
  intro ts
  induction ts with
  | nil =>
    intro l l1 h
    simp only [lock_each, Option.some.injEq] at h
    subst h
    exact ⟨fun t => by simp, rfl⟩
  | cons a ts ih =>
    intro l l1 h
    simp only [lock_each] at h
    cases h2 : l.lock a with
    | none => rw [h2] at h; exact absurd h (by simp)
    | some l2 =>
      rw [h2] at h
      obtain ⟨-, hlocked, hunlocked⟩ := lock_eq l l2 a h2
      obtain ⟨h3, h4⟩ := ih l2 l1 h
      refine ⟨fun t => ?_, h4.trans hunlocked⟩
      rw [h3 t, hlocked]
      exact update_succ_count l.locked a t ts

/-- The loop of `lock()` calls returns only when no mutex is named twice and none is held. -/
theorem lock_each_nodup : ∀ (ts : List Nat) (l l1 : MutationLocks),
    (∀ t, l.unlocked t ≤ l.locked t) → lock_each ts l = some l1 →
    ts.Nodup ∧ ∀ t ∈ ts, l.held t = false := by
  intro ts
  induction ts with
  | nil =>
    intro l l1 _ _
    exact ⟨List.nodup_nil, fun t ht => by simp at ht⟩
  | cons a ts ih =>
    intro l l1 hwf h
    simp only [lock_each] at h
    cases h2 : l.lock a with
    | none => rw [h2] at h; exact absurd h (by simp)
    | some l2 =>
      rw [h2] at h
      obtain ⟨hheld, hlocked, hunlocked⟩ := lock_eq l l2 a h2
      have hwf2 : ∀ t, l2.unlocked t ≤ l2.locked t := by
        intro t
        rw [hlocked, hunlocked]
        by_cases hta : t = a
        · subst hta
          rw [Function.update_same]
          exact Nat.le_succ_of_le (hwf t)
        · rw [Function.update_noteq hta]
          exact hwf t
      obtain ⟨h5, h6⟩ := ih l2 l1 hwf2 h
      have hnot : a ∉ ts := by
        intro ha
        have h7 := h6 a ha
        unfold held at h7
        rw [hlocked, hunlocked, Function.update_same] at h7
        simp only [decide_eq_false_iff_not, not_lt] at h7
        have := hwf a
        omega
      refine ⟨List.nodup_cons.2 ⟨hnot, h5⟩, ?_⟩
      intro t ht
      rcases List.mem_cons.1 ht with hta | hts
      · rw [hta]; exact hheld
      · have hne : t ≠ a := fun h => hnot (h ▸ hts)
        have := h6 t hts
        unfold held at this ⊢
        rw [hlocked, hunlocked, Function.update_noteq hne] at this
        exact this

theorem lock_each_of : ∀ (ts : List Nat) (l : MutationLocks),
    ts.Nodup → (∀ t ∈ ts, l.held t = false) → ∃ l1, lock_each ts l = some l1 := by
  intro ts
  induction ts with
  | nil => intro l _ _; exact ⟨l, rfl⟩
  | cons a ts ih =>
    intro l hnd hfree
    obtain ⟨hnot, hnd'⟩ := List.nodup_cons.1 hnd
    have ha : l.held a = false := hfree a (by simp)
    have hlock : l.lock a =
        some ⟨Function.update l.locked a (l.locked a + 1), l.unlocked⟩ := by
      unfold lock
      rw [ha]
      rfl
    have hfree2 : ∀ t ∈ ts,
        (⟨Function.update l.locked a (l.locked a + 1), l.unlocked⟩ : MutationLocks).held t
          = false := by
      intro t ht
      have hne : t ≠ a := fun h => hnot (h ▸ ht)
      have := hfree t (by simp [ht])
      unfold held at this ⊢
      simp only [Function.update_noteq hne]
      exact this
    obtain ⟨l1, hl1⟩ := ih _ hnd' hfree2
    exact ⟨l1, by simp only [lock_each, hlock]; exact hl1⟩

theorem unlock_each_eq : ∀ (ts : List Nat) (l l1 : MutationLocks),
    unlock_each ts l = some l1 →
    (∀ t, l1.unlocked t = l.unlocked t + ts.count t) ∧ l1.locked = l.locked := by
  intro ts
  induction ts with
  | nil =>
    intro l l1 h
    simp only [unlock_each, Option.some.injEq] at h
    subst h
    exact ⟨fun t => by simp, rfl⟩
  | cons a ts ih =>
    intro l l1 h
    simp only [unlock_each] at h
    cases h2 : l.unlock a with
    | none => rw [h2] at h; exact absurd h (by simp)
    | some l2 =>
      rw [h2] at h
      obtain ⟨-, hunlocked, hlocked⟩ := unlock_eq l l2 a h2
      obtain ⟨h3, h4⟩ := ih l2 l1 h
      refine ⟨fun t => ?_, h4.trans hlocked⟩
      rw [h3 t, hunlocked]
      exact update_succ_count l.unlocked a t ts

theorem unlock_each_of : ∀ (ts : List Nat) (l : MutationLocks),
    (∀ t, l.unlocked t + ts.count t ≤ l.locked t) → ∃ l1, unlock_each ts l = some l1 := by
  intro ts
  induction ts with
  | nil => intro l _; exact ⟨l, rfl⟩
  | cons a ts ih =>
    intro l h
    have ha : l.held a = true := by
      have := h a
      rw [List.count_cons_self] at this
      unfold held
      exact decide_eq_true (by omega)
    have hun : l.unlock a =
        some ⟨l.locked, Function.update l.unlocked a (l.unlocked a + 1)⟩ := by
      unfold unlock
      rw [ha]
      rfl
    have h2 : ∀ t,
        (⟨l.locked, Function.update l.unlocked a (l.unlocked a + 1)⟩ : MutationLocks).unlocked t
          + ts.count t ≤ l.locked t := by
      intro t
      show Function.update l.unlocked a (l.unlocked a + 1) t + ts.count t ≤ l.locked t
      rw [update_succ_count]
      exact h t
    obtain ⟨l1, hl1⟩ := ih _ h2
    exact ⟨l1, by simp only [unlock_each, hun]; exact hl1⟩

end MutationLocks

namespace EntityGroup

theorem foldl_fill_one (ts : List TypeParam) : ∀ acc : List Nat × List Nat,
    ts.foldl (fun acc t => fill_one t acc) acc =
      (acc.1 ++ (ts.filter TypeParam.is_mutable).map TypeParam.raw_type,
        acc.2 ++ (ts.filter TypeParam.is_changed).map TypeParam.raw_type) := by
  induction ts with
  | nil => intro acc; simp
  | cons t ts ih =>
    intro acc
    rw [List.foldl_cons, ih]
    cases hm : t.is_mutable <;> cases hc : t.is_changed <;>
      simp [fill_one, List.filter_cons, hm, hc]

/-- The mutexes of a constructed group are those of its mutable template arguments, in
order. -/
theorem mut_locks_make (ts : List TypeParam) (tags : List String) (g : EntityGroup)
    (h : make ts tags = some g) :
    g._mut_locks = (ts.filter TypeParam.is_mutable).map TypeParam.raw_type := by
  unfold make at h
  cases hb : EntityGroupBase.make (ts.map TypeParam.raw_type) tags with
  | none => simp [hb] at h
  | some b =>
    simp only [hb, Option.map_some', Option.some.injEq] at h
    subst h
    show (fill_sets ts).1 = _
    unfold fill_sets
    rw [foldl_fill_one]
    simp

end EntityGroup

theorem locks_of_default (t : Nat) : locks_of t (some QueryObject.default) = 0 := rfl

theorem locks_held_append (t : Nat) (objects : QueryStore) (o : Option QueryObject) :
    locks_held t (objects ++ [o]) = locks_held t objects + locks_of t o := by
  simp [locks_held]

theorem locks_held_set (t : Nat) (objects : QueryStore) (i : Nat) (a : QueryObject)
    (b : Option QueryObject) (h : objects.getD i none = some a) :
    locks_held t (objects.set i b) + locks_of t (some a) =
      locks_held t objects + locks_of t b := by
  have hlt := lt_of_getD_eq_some objects i a h
  have := sum_map_set (locks_of t) objects i b none hlt
  rw [h] at this
  exact this

theorem destroy_locks (o : QueryObject) (locks locks1 : MutationLocks)
    (h : o.destroy locks = some locks1) (t : Nat) :
    locks1.unlocked t = locks.unlocked t + locks_of t (some o) ∧
      locks1.locked = locks.locked := by
  obtain ⟨q, parent⟩ := o
  cases parent with
  | none =>
    simp only [QueryObject.destroy, Option.some.injEq] at h
    subst h
    exact ⟨rfl, rfl⟩
  | some g =>
    obtain ⟨h1, h2⟩ := MutationLocks.unlock_each_eq g._mut_locks locks locks1 h
    exact ⟨h1 t, h2⟩

theorem destroy_of (o : QueryObject) (locks : MutationLocks)
    (h : ∀ t, locks.unlocked t + locks_of t (some o) ≤ locks.locked t) :
    ∃ locks1, o.destroy locks = some locks1 := by
  obtain ⟨q, parent⟩ := o
  cases parent with
  | none => exact ⟨locks, rfl⟩
  | some g => exact MutationLocks.unlock_each_of g._mut_locks locks h

namespace QueryState

theorem query_eq (sort : List SparseIdSet → List SparseIdSet) (s s1 : QueryState)
    (g : EntityGroup) (h : query sort s g = some s1) :
    ∃ o : QueryObject, o._parent = some g ∧ s1.objects = s.objects ++ [some o] ∧
      MutationLocks.lock_each g._mut_locks s.locks = some s1.locks := by
  unfold query at h
  cases hm : QueryObject.make g s.locks with
  | none => rw [hm] at h; exact absurd h (by simp)
  | some r =>
    rw [hm] at h
    simp only [Option.some.injEq] at h
    subst h
    unfold QueryObject.make EntityGroup.lock_mutated_groups at hm
    cases hl : MutationLocks.lock_each g._mut_locks s.locks with
    | none => rw [hl] at hm; exact absurd hm (by simp)
    | some l1 =>
      rw [hl] at hm
      simp only [Option.map_some', Option.some.injEq] at hm
      subst hm
      exact ⟨_, rfl, rfl, rfl⟩

theorem locks_of_parent (t : Nat) (o : QueryObject) (g : EntityGroup)
    (h : o._parent = some g) : locks_of t (some o) = g._mut_locks.count t := by
  obtain ⟨q, parent⟩ := o
  simp only at h
  subst h
  rfl

theorem step_balance (sort : List SparseIdSet → List SparseIdSet) (s s1 : QueryState)
    (op : QueryOp) (h : step sort s op = some s1) (t : Nat) :
    s1.locks.locked t = s.locks.locked t + locks_taken t [op] ∧
      s1.locks.unlocked t + locks_held t s1.objects =
        s.locks.unlocked t + locks_held t s.objects + locks_taken t [op] ∧
      s.locks.unlocked t ≤ s1.locks.unlocked t := by
  cases op with
  | query g =>
    obtain ⟨o, hp, hobj, hlock⟩ := query_eq sort s s1 g h
    obtain ⟨h1, h2⟩ := MutationLocks.lock_each_eq _ _ _ hlock
    rw [hobj, locks_held_append, locks_of_parent t o g hp, h1 t, h2]
    simp only [locks_taken]
    omega
  | default_construct =>
    simp only [step, Option.some.injEq] at h
    subst h
    simp only [locks_taken, locks_held_append, locks_of_default]
    omega
  | move_construct other =>
    simp only [step] at h
    cases ho : s.objects.getD other none with
    | none => rw [ho] at h; exact absurd h (by simp)
    | some o =>
      simp only [ho, Option.some.injEq] at h
      subst h
      have h1 := locks_held_set t s.objects other o (some QueryObject.default) ho
      simp only [locks_taken, locks_held_append, QueryObject.swap]
      rw [locks_of_default] at h1
      omega
  | move_assign self other =>
    simp only [step] at h
    cases ha : s.objects.getD self none with
    | none => rw [ha] at h; exact absurd h (by simp)
    | some a =>
      cases hb : s.objects.getD other none with
      | none => rw [ha, hb] at h; exact absurd h (by simp)
      | some b =>
        simp only [ha, hb, Option.some.injEq] at h
        subst h
        have h1 := locks_held_set t s.objects self a (some b) ha
        have hlt := lt_of_getD_eq_some s.objects self a ha
        have hb' : (s.objects.set self (some b)).getD other none = some b := by
          by_cases hso : self = other
          · subst hso
            exact getD_set_self _ _ _ _ hlt
          · rw [getD_set_other _ _ _ _ _ hso]
            exact hb
        have h2 := locks_held_set t (s.objects.set self (some b)) other b (some a) hb'
        simp only [locks_taken, QueryObject.swap]
        omega
  | destroy self =>
    simp only [step] at h
    cases ho : s.objects.getD self none with
    | none => rw [ho] at h; exact absurd h (by simp)
    | some o =>
      rw [ho] at h
      simp only at h
      cases hd : o.destroy s.locks with
      | none => rw [hd] at h; exact absurd h (by simp)
      | some locks1 =>
        rw [hd] at h
        simp only [Option.some.injEq] at h
        subst h
        have h1 := locks_held_set t s.objects self o none ho
        obtain ⟨h2, h3⟩ := destroy_locks o s.locks locks1 hd t
        have h4 : locks_of t none = 0 := rfl
        simp only [locks_taken]
        rw [h2, h3]
        omega

theorem locks_taken_cons (t : Nat) (op : QueryOp) (ops : List QueryOp) :
    locks_taken t (op :: ops) = locks_taken t [op] + locks_taken t ops := by
  cases op <;> simp [locks_taken]

theorem step_held_le (sort : List SparseIdSet → List SparseIdSet) (s s1 : QueryState)
    (op : QueryOp) (h : step sort s op = some s1)
    (hinv : ∀ t, s.locks.unlocked t + locks_held t s.objects = s.locks.locked t)
    (hle : ∀ t, locks_held t s.objects ≤ 1) (t : Nat) :
    locks_held t s1.objects ≤ 1 := by
  obtain ⟨h1, h2, h3⟩ := step_balance sort s s1 op h t
  have := hle t
  cases op with
  | query g =>
    obtain ⟨o, hp, hobj, hlock⟩ := query_eq sort s s1 g h
    obtain ⟨hnd, hfree⟩ := MutationLocks.lock_each_nodup _ _ _
      (fun x => by have := hinv x; omega) hlock
    rw [hobj, locks_held_append, locks_of_parent t o g hp]
    by_cases hmem : t ∈ g._mut_locks
    · have hf := hfree t hmem
      unfold MutationLocks.held at hf
      simp only [decide_eq_false_iff_not, not_lt] at hf
      have := hinv t
      rw [List.count_eq_one_of_mem hnd hmem]
      omega
    · rw [List.count_eq_zero_of_not_mem hmem]
      omega
  | default_construct => simp only [locks_taken] at h2; omega
  | move_construct other => simp only [locks_taken] at h2; omega
  | move_assign self other => simp only [locks_taken] at h2; omega
  | destroy self => simp only [locks_taken] at h2; omega

theorem run_balance (sort : List SparseIdSet → List SparseIdSet) :
    ∀ (ops : List QueryOp) (s s1 : QueryState), run sort s ops = some s1 →
    (∀ t, s.locks.unlocked t + locks_held t s.objects = s.locks.locked t) →
    (∀ t, locks_held t s.objects ≤ 1) → ∀ t,
    s1.locks.locked t = s.locks.locked t + locks_taken t ops ∧
      s1.locks.unlocked t + locks_held t s1.objects = s1.locks.locked t ∧
      locks_held t s1.objects ≤ 1 := by
  intro ops
  induction ops with
  | nil =>
    intro s s1 h hinv hle t
    simp only [run, Option.some.injEq] at h
    subst h
    exact ⟨by simp [locks_taken], hinv t, hle t⟩
  | cons op ops ih =>
    intro s s1 h hinv hle t
    simp only [run] at h
    cases hs : step sort s op with
    | none => rw [hs] at h; exact absurd h (by simp)
    | some s2 =>
      rw [hs] at h
      have hinv2 : ∀ x, s2.locks.unlocked x + locks_held x s2.objects = s2.locks.locked x := by
        intro x
        obtain ⟨h1, h2, -⟩ := step_balance sort s s2 op hs x
        have := hinv x
        omega
      have hle2 := step_held_le sort s s2 op hs hinv hle
      obtain ⟨h1, -, -⟩ := step_balance sort s s2 op hs t
      obtain ⟨h3, h4, h5⟩ := ih s2 s1 h hinv2 hle2 t
      refine ⟨?_, h4, h5⟩
      rw [locks_taken_cons]
      omega

theorem locks_held_of_all_destroyed (t : Nat) : ∀ (objects : QueryStore),
    (∀ o ∈ objects, o = none) → locks_held t objects = 0 := by
  intro objects
  induction objects with
  | nil => intro _; rfl
  | cons o objects ih =>
    intro h
    have ho : o = none := h o (by simp)
    subst ho
    have := ih (fun x hx => h x (by simp [hx]))
    simp only [locks_held, List.map_cons, List.sum_cons] at this ⊢
    rw [this]
    rfl

theorem locks_of_le_held (t : Nat) (objects : QueryStore) (i : Nat) (o : QueryObject)
    (h : objects.getD i none = some o) : locks_of t (some o) ≤ locks_held t objects := by
  have h1 := locks_held_set t objects i o none h
  have h2 : locks_of t none = 0 := rfl
  omega

/-- The calls on the mutexes over every sequence of `query()` calls, default constructions,
move constructions, move assignments and destructions of `Query` objects that runs to its end
from no object and untouched mutexes: every mutex has been locked once per `query()` call for
each entry of the `_mut_locks` of the queried group that names it, and by nothing else; its
unlocks plus what the live objects with a parent hold equal those locks; at most one live
object holds it; once every object is destroyed it has been unlocked as often as locked; and
the destructor of every live object is defined. -/
theorem query_locks_balanced (sort : List SparseIdSet → List SparseIdSet)
    (ops : List QueryOp) (s : QueryState) (hrun : run sort QueryState.fresh ops = some s)
    (t : Nat) :
    s.locks.locked t = locks_taken t ops ∧
      s.locks.unlocked t + locks_held t s.objects = locks_taken t ops ∧
      locks_held t s.objects ≤ 1 ∧
      ((∀ o ∈ s.objects, o = none) → s.locks.unlocked t = s.locks.locked t) ∧
      (∀ i o, s.objects.getD i none = some o → (step sort s (QueryOp.destroy i)).isSome) := by
  have hfresh : ∀ x, QueryState.fresh.locks.unlocked x +
      locks_held x QueryState.fresh.objects = QueryState.fresh.locks.locked x :=
    fun _ => rfl
  have hinv := fun x => (run_balance sort ops QueryState.fresh s hrun hfresh
    (fun _ => Nat.zero_le _) x).2.1
  obtain ⟨h1, h2, h3⟩ := run_balance sort ops QueryState.fresh s hrun hfresh
    (fun _ => Nat.zero_le _) t
  have h0l : QueryState.fresh.locks.locked t = 0 := rfl
  rw [h0l] at h1
  refine ⟨by omega, by omega, h3, ?_, ?_⟩
  · intro hall
    have := locks_held_of_all_destroyed t s.objects hall
    omega
  · intro i o ho
    obtain ⟨locks1, hl⟩ := destroy_of o s.locks (fun x => by
      have := hinv x
      have := locks_of_le_held x s.objects i o ho
      omega)
    simp only [step, ho, hl, Option.isSome_some]

theorem query_locks_balanced_example :
    (run sort_by_size QueryState.fresh sample_query_ops).map
        (fun s => (s.objects, s.locks.locked 5, s.locks.unlocked 5)) =
      some ([none, none, none], 1, 1) := by
  decide

/-- When `query()` returns: no mutex is named twice by the group and none of them is held;
then every mutex of the group has been locked exactly once more. -/
theorem query_returns_iff (sort : List SparseIdSet → List SparseIdSet) (s : QueryState)
    (g : EntityGroup) (hwf : ∀ t, s.locks.unlocked t ≤ s.locks.locked t) :
    ((query sort s g).isSome = true ↔
        g._mut_locks.Nodup ∧ ∀ t ∈ g._mut_locks, s.locks.held t = false) ∧
      (∀ s1, query sort s g = some s1 → ∀ t ∈ g._mut_locks,
        s1.locks.locked t = s.locks.locked t + 1) := by
  constructor
  · constructor
    · intro h
      obtain ⟨s1, hs1⟩ := Option.isSome_iff_exists.1 h
      obtain ⟨o, -, -, hlock⟩ := query_eq sort s s1 g hs1
      exact MutationLocks.lock_each_nodup _ _ _ hwf hlock
    · rintro ⟨hnd, hfree⟩
      obtain ⟨l1, hl1⟩ := MutationLocks.lock_each_of g._mut_locks s.locks hnd hfree
      simp [query, QueryObject.make, EntityGroup.lock_mutated_groups, hl1]
  · intro s1 hs1 t ht
    obtain ⟨o, -, -, hlock⟩ := query_eq sort s s1 g hs1
    obtain ⟨hnd, -⟩ := MutationLocks.lock_each_nodup _ _ _ hwf hlock
    rw [(MutationLocks.lock_each_eq _ _ _ hlock).1 t, List.count_eq_one_of_mem hnd ht]

/-- C24: `query()` on the group `EntityGroup<Mutate<T>, Mutate<T>>` does not return: the
group names the mutex of `T` twice in `_mut_locks`, the first `lock()` of
`lock_mutated_groups` takes it, and the second `lock()` is a call on a held mutex. No `Query`
is produced, the mutex has been locked and is never unlocked. -/
theorem C24_query_on_repeated_mutable_type_never_returns :
    EntityGroup.make [⟨5, true, false⟩, ⟨5, true, false⟩] [] = some repeated_mutate_group ∧
      repeated_mutate_group._mut_locks = [5, 5] ∧
      (MutationLocks.fresh.lock 5).map (fun l => (l.locked 5, l.unlocked 5, l.held 5)) =
        some (1, 0, true) ∧
      ((MutationLocks.fresh.lock 5).bind fun l => l.lock 5).isNone = true ∧
      (repeated_mutate_group.lock_mutated_groups MutationLocks.fresh).isNone = true ∧
      (query sort_by_size QueryState.fresh repeated_mutate_group).isNone = true ∧
      (run sort_by_size QueryState.fresh [QueryOp.query repeated_mutate_group]).isNone =
        true := by
  decide

end QueryState

/-! ## The string class `n::core::String` -/

namespace n.core.String

theorem uint_range_pos : 0 < uint_range := by decide

theorem length_make (cst : List Char) : (make cst).length = cst.length := by
  unfold make
  cases cst with
  | nil => rfl
  | cons c cs => rfl

theorem chars_make (cst : List Char) : (make cst).chars = cst := by
  unfold make
  cases cst with
  | nil => rfl
  | cons c cs => rfl

/-- C28: `find` on the empty string, with a pattern of one character and the start offset
`(uint)-1`: the sum `from + str.size()` wraps to 0, the guard lets the call through, and the
first iteration reads `data[(uint)-1]`, outside the string; the call does not return
`(uint)-1`, although the pattern occurs nowhere and `from + str.size()` exceeds the size. -/
theorem C28_find_wrapped_start_reads_outside :
    (make []).find (make ['a']) uint_minus_one = Outcome.undefined ∧
      (make []).find (make ['a']) uint_minus_one ≠ Outcome.returns uint_minus_one ∧
      uint_minus_one + (make ['a']).size > (make []).size ∧
      (uint_minus_one + (make ['a']).size) % uint_range = 0 ∧
      (make []).read uint_minus_one = none := by
  decide

/-- C29: `endWith` never compares the characters at index 0: `"a".endWith("b")` and
`"ab".endWith("cb")` are true, although the last characters of the string are not the
argument; `beginWith` on the same strings is false. -/
theorem C29_endWith_skips_first_character :
    (make ['a']).endWith (make ['b']) = true ∧
      (make ['a', 'b']).endWith (make ['c', 'b']) = true ∧
      (make ['a', 'b']).chars.drop ((make ['a', 'b']).length - (make ['c', 'b']).length) ≠
        (make ['c', 'b']).chars ∧
      (make ['a']).beginWith (make ['b']) = false ∧
      (make ['a', 'b']).beginWith (make ['c', 'b']) = false := by
  decide

theorem find_empty_pattern : (make ['a']).find (make []) 0 = Outcome.returns 0 := by
  decide

theorem split_loop_empty_separator : ∀ (fuel : Nat) (arr : List String),
    split_loop (make ['a']) (make []) fuel 0 arr = Outcome.running := by
  intro fuel
  induction fuel with
  | zero => intro arr; rfl
  | succ fuel ih =>
    intro arr
    have h := ih (arr ++ [⟨some []⟩])
    unfold split_loop
    rw [find_empty_pattern]
    exact h

/-- C30: `split` with the empty separator never returns: on the string `"a"` the loop is
still running after any number of iterations, since `find` returns the position it was given
and the position does not advance. -/
theorem C30_split_empty_separator_never_returns (fuel : Nat) :
    split fuel (make ['a']) (make []) = Outcome.running :=
  split_loop_empty_separator fuel []

end n.core.String

namespace n.core.String

/-! ### What `find` returns when the start offset does not wrap -/

theorem read_of_lt (s : String) (i : Nat) (h : i < s.length) :
    s.read i = some s.chars[i] := by
  unfold read
  rw [List.get?_eq_getElem?, List.getElem?_eq_getElem h]

theorem find_match_spec (s str : String) (i : Nat) (hi : i + str.length ≤ s.length)
    (hs : s.length < uint_range) : ∀ n j, n + j = str.length →
    find_match s str i n j = some (decide (str.chars.drop j <+: s.chars.drop (i + j))) := by
  intro n
  induction n with
  | zero =>
    intro j hj
    have hd : str.chars.drop j = [] := List.drop_eq_nil_of_le (by
      show str.length ≤ j
      omega)
    simp only [find_match, hd, List.nil_prefix, decide_True]
  | succ n ih =>
    intro j hj
    have hj1 : j < str.length := by omega
    have hij : i + j < s.length := by omega
    have hmod : (i + j) % uint_range = i + j := Nat.mod_eq_of_lt (by omega)
    have ih' := ih (j + 1) (by omega)
    unfold find_match
    rw [hmod, read_of_lt s _ hij, read_of_lt str _ hj1]
    simp only
    have hd1 : str.chars.drop j = str.chars[j] :: str.chars.drop (j + 1) :=
      List.drop_eq_getElem_cons hj1
    have hd2 : s.chars.drop (i + j) = s.chars[i + j] :: s.chars.drop (i + j + 1) :=
      List.drop_eq_getElem_cons hij
    rw [hd1, hd2]
    by_cases hab : s.chars[i + j] = str.chars[j]
    · have hne : (s.chars[i + j] != str.chars[j]) = false := by
        simp [hab]
      rw [hne]
      simp only [Bool.false_eq_true, if_false]
      rw [ih']
      have : i + (j + 1) = i + j + 1 := by omega
      rw [this]
      congr 1
      rw [decide_eq_decide, List.cons_prefix_cons]
      constructor
      · intro h; exact ⟨hab.symm, h⟩
      · intro h; exact h.2
    · have hne : (s.chars[i + j] != str.chars[j]) = true := by
        simp [hab]
      rw [hne]
      simp only [if_true]
      congr 1
      symm
      rw [decide_eq_false_iff_not, List.cons_prefix_cons]
      intro h
      exact hab h.1.symm

theorem find_match_occurs (s str : String) (i : Nat) (hi : i + str.length ≤ s.length)
    (hs : s.length < uint_range) :
    find_match s str i str.length 0 = some (decide (occurs_at s str i)) := by
  rw [find_match_spec s str i hi hs str.length 0 rfl]
  congr 1
  rw [decide_eq_decide]
  unfold occurs_at
  simp only [List.drop_zero, Nat.add_zero]
  constructor
  · intro h; exact ⟨hi, h⟩
  · intro h; exact h.2

theorem length_pos_of_not_occurs (s str : String) (i : Nat) (hi : i + str.length ≤ s.length)
    (h : ¬ occurs_at s str i) : 0 < str.length := by
  by_contra h0
  apply h
  refine ⟨hi, ?_⟩
  have : str.chars = [] := List.length_eq_zero.1 (by
    show str.length = 0
    omega)
  rw [this]
  exact List.nil_prefix

theorem find_loop_step (s str : String) (l : Nat) (hl : l + str.length = s.length)
    (hs : s.length < uint_range) (fuel i : Nat) (hi : i ≤ l) :
    find_loop s str l (fuel + 1) i =
      if occurs_at s str i then Outcome.returns i else find_loop s str l fuel (i + 1) := by
  have hle : i + str.length ≤ s.length := by omega
  conv_lhs => unfold find_loop
  rw [if_pos hi, find_match_occurs s str i hle hs]
  by_cases hocc : occurs_at s str i
  · simp only [hocc, decide_True, if_true]
  · have hpos := length_pos_of_not_occurs s str i hle hocc
    have hmod : (i + 1) % uint_range = i + 1 := Nat.mod_eq_of_lt (by omega)
    simp only [hocc, decide_False, if_false, hmod]

theorem find_loop_none (s str : String) (l : Nat) (hl : l + str.length = s.length)
    (hs : s.length < uint_range) : ∀ fuel i, i ≤ l + 1 → l + 1 - i < fuel →
    (∀ k, i ≤ k → k ≤ l → ¬ occurs_at s str k) →
    find_loop s str l fuel i = Outcome.returns uint_minus_one := by
  intro fuel
  induction fuel with
  | zero => intro i _ h; omega
  | succ fuel ih =>
    intro i hi hf hno
    by_cases hil : i ≤ l
    · rw [find_loop_step s str l hl hs fuel i hil, if_neg (hno i (le_refl _) hil)]
      exact ih (i + 1) (by omega) (by omega) (fun k hk hkl => hno k (by omega) hkl)
    · unfold find_loop
      rw [if_neg hil]

theorem find_loop_some (s str : String) (l : Nat) (hl : l + str.length = s.length)
    (hs : s.length < uint_range) : ∀ fuel i k, i ≤ k → k ≤ l → k - i < fuel →
    occurs_at s str k → (∀ j, i ≤ j → j < k → ¬ occurs_at s str j) →
    find_loop s str l fuel i = Outcome.returns k := by
  intro fuel
  induction fuel with
  | zero => intro i k _ _ h; omega
  | succ fuel ih =>
    intro i k hik hkl hf hocc hno
    rw [find_loop_step s str l hl hs fuel i (by omega)]
    by_cases heq : i = k
    · subst heq
      rw [if_pos hocc]
    · rw [if_neg (hno i (le_refl _) (by omega))]
      exact ih (i + 1) k (by omega) hkl (by omega) hocc (fun j hj hjk => hno j (by omega) hjk)

/-- What `find` returns when the length of the string is a `uint` and `from + str.size()`
does not wrap: the smallest index from `start` on at which `str` occurs, and `(uint)-1` when
there is none. -/
theorem find_in_range (s str : String) (start : Nat) (hs : s.length < uint_range)
    (hsum : start + str.length < uint_range) :
    (∀ k, start ≤ k → occurs_at s str k →
        (∀ j, start ≤ j → j < k → ¬ occurs_at s str j) →
        s.find str start = Outcome.returns k) ∧
      ((∀ k, start ≤ k → ¬ occurs_at s str k) →
        s.find str start = Outcome.returns uint_minus_one) := by
  have hmod : (start + str.size) % uint_range = start + str.length :=
    Nat.mod_eq_of_lt hsum
  by_cases hguard : start + str.length > s.length
  · constructor
    · intro k hk hocc _
      have := hocc.1
      omega
    · intro _
      unfold find
      rw [hmod, if_pos hguard]
  · have hle : str.length ≤ s.length := by omega
    have hl : (s.length + uint_range - str.length) % uint_range = s.length - str.length := by
      have : s.length + uint_range - str.length = (s.length - str.length) + uint_range := by
        omega
      rw [this, Nat.add_mod_right]
      exact Nat.mod_eq_of_lt (by omega)
    have hl2 : (s.length - str.length) + str.length = s.length := by omega
    constructor
    · intro k hk hocc hno
      unfold find
      rw [hmod, if_neg hguard, hl]
      have := hocc.1
      exact find_loop_some s str _ hl2 hs _ start k hk (by omega) (by omega) hocc hno
    · intro hno
      unfold find
      rw [hmod, if_neg hguard, hl]
      exact find_loop_none s str _ hl2 hs _ start (by omega) (by omega)
        (fun k hk _ => hno k hk)

/-- In that range `find` always returns. -/
theorem find_returns (s str : String) (start : Nat) (hs : s.length < uint_range)
    (hsum : start + str.length < uint_range) :
    ∃ r, s.find str start = Outcome.returns r ∧
      ((start ≤ r ∧ occurs_at s str r ∧ ∀ j, start ≤ j → j < r → ¬ occurs_at s str j) ∨
        (r = uint_minus_one ∧ ∀ k, start ≤ k → ¬ occurs_at s str k)) := by
  obtain ⟨h1, h2⟩ := find_in_range s str start hs hsum
  by_cases hex : ∃ k, start ≤ k ∧ occurs_at s str k
  · classical
    have hmin := Nat.find_spec hex
    have hlt : ∀ j, j < Nat.find hex → ¬ (start ≤ j ∧ occurs_at s str j) :=
      fun j hj => Nat.find_min hex hj
    refine ⟨Nat.find hex, h1 _ hmin.1 hmin.2 (fun j hj hjk hocc => hlt j hjk ⟨hj, hocc⟩),
      Or.inl ⟨hmin.1, hmin.2, fun j hj hjk hocc => hlt j hjk ⟨hj, hocc⟩⟩⟩
  · have hno : ∀ k, start ≤ k → ¬ occurs_at s str k := fun k hk hocc => hex ⟨k, hk, hocc⟩
    exact ⟨uint_minus_one, h2 hno, Or.inr ⟨rfl, hno⟩⟩

/-! ### What `beginWith` and `endWith` compute -/

theorem chars_of_isNull (s : String) (h : s.isNull = true) : s.chars = [] := by
  obtain ⟨data⟩ := s
  cases data with
  | none => rfl
  | some cs => simp [isNull] at h

theorem beginWith_loop_spec (s str : String) (hle : str.length ≤ s.length) : ∀ n i,
    n + i = str.length →
    beginWith_loop s str n i = decide (str.chars.drop i <+: s.chars.drop i) := by
  intro n
  induction n with
  | zero =>
    intro i hi
    have hd : str.chars.drop i = [] := List.drop_eq_nil_of_le (by
      show str.length ≤ i
      omega)
    simp only [beginWith_loop, hd, List.nil_prefix, decide_True]
  | succ n ih =>
    intro i hi
    have hi1 : i < str.length := by omega
    have hi2 : i < s.length := by omega
    have hd1 : str.chars.drop i = str.chars[i] :: str.chars.drop (i + 1) :=
      List.drop_eq_getElem_cons hi1
    have hd2 : s.chars.drop i = s.chars[i] :: s.chars.drop (i + 1) :=
      List.drop_eq_getElem_cons hi2
    unfold beginWith_loop
    rw [read_of_lt s i hi2, read_of_lt str i hi1, hd1, hd2, ih (i + 1) (by omega)]
    by_cases hab : s.chars[i] = str.chars[i]
    · have hne : (some s.chars[i] != some str.chars[i]) = false := by simp [hab]
      rw [hne]
      simp only [Bool.false_eq_true, if_false]
      rw [decide_eq_decide, List.cons_prefix_cons]
      constructor
      · intro h; exact ⟨hab.symm, h⟩
      · intro h; exact h.2
    · have hne : (some s.chars[i] != some str.chars[i]) = true := by simp [hab]
      rw [hne]
      simp only [if_true]
      symm
      rw [decide_eq_false_iff_not, List.cons_prefix_cons]
      intro h
      exact hab h.1.symm

/-- The method `beginWith` is the prefix test. -/
theorem beginWith_iff (s str : String) :
    s.beginWith str = true ↔ str.chars <+: s.chars := by
  unfold beginWith
  by_cases hlen : s.length < str.length
  · rw [if_pos hlen]
    constructor
    · intro h; exact absurd h (by simp)
    · intro h
      have := h.length_le
      exact absurd this (by
        show ¬ str.length ≤ s.length
        omega)
  · rw [if_neg hlen]
    by_cases hnull : s.isNull = true
    · rw [if_pos hnull]
      have hs := chars_of_isNull s hnull
      have hs0 : s.length = 0 := by unfold length; rw [hs]; rfl
      have hstr : str.chars = [] := List.length_eq_zero.1 (by
        show str.length = 0
        omega)
      have : str.isEmpty = true := by
        unfold isEmpty length
        rw [hstr]
        rfl
      rw [this, hstr]
      simp
    · rw [if_neg hnull]
      by_cases hemp : str.isEmpty = true
      · rw [if_pos hemp]
        have hstr : str.chars = [] := List.length_eq_zero.1 (by
          have : (str.length == 0) = true := hemp
          exact beq_iff_eq.1 this)
        rw [hstr]
        simp
      · rw [if_neg hemp, beginWith_loop_spec s str (by omega) str.length 0 (by omega)]
        simp

theorem endWith_loop_spec (s str : String) (offset : Nat) : ∀ i,
    endWith_loop s str offset i = true ↔
      ∀ k, 1 ≤ k → k ≤ i → s.read (offset + k) = str.read k := by
  intro i
  induction i with
  | zero =>
    simp only [endWith_loop, true_iff]
    intro k h1 h2
    omega
  | succ i ih =>
    unfold endWith_loop
    by_cases h : s.read (offset + (i + 1)) = str.read (i + 1)
    · have hne : (s.read (offset + (i + 1)) != str.read (i + 1)) = false := by simp [h]
      rw [hne]
      simp only [Bool.false_eq_true, if_false]
      rw [ih]
      constructor
      · intro hall k h1 h2
        by_cases hk : k = i + 1
        · rw [hk]; exact h
        · exact hall k h1 (by omega)
      · intro hall k h1 h2
        exact hall k h1 (by omega)
    · have hne : (s.read (offset + (i + 1)) != str.read (i + 1)) = true := by simp [h]
      rw [hne]
      simp only [if_true]
      constructor
      · intro hf; exact absurd hf (by simp)
      · intro hall
        exact absurd (hall (i + 1) (by omega) (le_refl _)) h

theorem tail_eq_iff (a b : List Char) :
    a.tail = b.tail ↔ ∀ k, 1 ≤ k → a.get? k = b.get? k := by
  constructor
  · intro h k hk
    obtain ⟨j, rfl⟩ : ∃ j, k = j + 1 := ⟨k - 1, by omega⟩
    have := congrArg (fun l => l.get? j) h
    simpa [List.get?_eq_getElem?, List.getElem?_tail] using this
  · intro h
    apply List.ext_getElem?
    intro j
    have := h (j + 1) (by omega)
    simpa [List.get?_eq_getElem?, List.getElem?_tail] using this

/-- What `endWith` computes: the argument is not longer than the string and agrees with the
end of the string from the second character of the argument on; the first character of the
argument is not looked at. -/
theorem endWith_iff (s str : String) :
    s.endWith str = true ↔
      str.length ≤ s.length ∧
        str.chars.tail = (s.chars.drop (s.length - str.length)).tail := by
  unfold endWith
  by_cases hlen : s.length < str.length
  · rw [if_pos hlen]
    constructor
    · intro h; exact absurd h (by simp)
    · intro h; omega
  · rw [if_neg hlen]
    have hle : str.length ≤ s.length := by omega
    by_cases hnull : s.isNull = true
    · rw [if_pos hnull]
      have hs := chars_of_isNull s hnull
      have hs0 : s.length = 0 := by unfold length; rw [hs]; rfl
      have hstr : str.chars = [] := List.length_eq_zero.1 (by
        show str.length = 0
        omega)
      have : str.isEmpty = true := by
        unfold isEmpty length
        rw [hstr]
        rfl
      rw [this, hstr, hs]
      simp only [List.tail_nil, List.drop_nil, and_true, true_iff]
      exact hle
    · rw [if_neg hnull]
      by_cases hemp : str.isEmpty = true
      · rw [if_pos hemp]
        have h0 : str.length = 0 := by
          have : (str.length == 0) = true := hemp
          exact beq_iff_eq.1 this
        have hstr : str.chars = [] := List.length_eq_zero.1 h0
        have hd : s.chars.drop (s.length - str.length) = [] :=
          List.drop_eq_nil_of_le (by
            show s.length ≤ s.length - str.length
            omega)
        rw [hstr, hd]
        simp only [List.tail_nil, and_true, true_iff]
        exact hle
      · rw [if_neg hemp, endWith_loop_spec, tail_eq_iff]
        have hpos : 0 < str.length := by
          by_contra h0
          apply hemp
          unfold isEmpty
          exact beq_iff_eq.2 (by omega)
        constructor
        · intro hall
          refine ⟨hle, fun k hk => ?_⟩
          rw [List.get?_eq_getElem?, List.get?_eq_getElem?, List.getElem?_drop]
          by_cases hk2 : k ≤ str.length - 1
          · have := hall k hk hk2
            unfold read at this
            rw [List.get?_eq_getElem?, List.get?_eq_getElem?] at this
            exact this.symm
          · have h1 : str.chars.length ≤ k := by
              show str.length ≤ k
              omega
            have h2 : s.chars.length ≤ s.length - str.length + k := by
              show s.length ≤ s.length - str.length + k
              omega
            rw [List.getElem?_eq_none h1, List.getElem?_eq_none h2]
        · rintro ⟨-, hall⟩ k hk _
          have := hall k hk
          rw [List.get?_eq_getElem?, List.get?_eq_getElem?, List.getElem?_drop] at this
          unfold read
          rw [List.get?_eq_getElem?, List.get?_eq_getElem?]
          exact this.symm

end n.core.String

namespace n.core.String

/-! ### What `split` returns for a separator that is not empty -/

theorem occurs_at_iff (s str : String) (i : Nat) (hpos : 0 < str.length) :
    occurs_at s str i ↔ str.chars <+: s.chars.drop i := by
  unfold occurs_at
  constructor
  · intro h; exact h.2
  · intro h
    refine ⟨?_, h⟩
    have hlen := h.length_le
    rw [List.length_drop] at hlen
    have h1 : str.length ≤ s.length - i := hlen
    omega

theorem count_from_skip (sep : List Char) : ∀ (l : List Char) (k : Nat),
    count_from sep k l = count_from sep 0 (l.drop k) := by
  intro l
  induction l with
  | nil => intro k; cases k <;> simp [count_from]
  | cons c rest ih =>
    intro k
    cases k with
    | zero => rfl
    | succ k =>
      simp only [count_from, List.drop_succ_cons]
      exact ih k

theorem count_head_occurs (sep l : List Char) (hsep : 0 < sep.length) (h : sep <+: l) :
    count_from sep 0 l = 1 + count_from sep 0 (l.drop sep.length) := by
  cases l with
  | nil =>
    have hle : sep.length ≤ 0 := h.length_le
    omega
  | cons c rest =>
    simp only [count_from, if_pos h]
    rw [count_from_skip sep rest]
    obtain ⟨m, hm⟩ : ∃ m, sep.length = m + 1 := ⟨sep.length - 1, by omega⟩
    rw [hm]
    simp

theorem count_head_none (sep l : List Char) (h : ¬ sep <+: l) :
    count_from sep 0 l = count_from sep 0 (l.drop 1) := by
  cases l with
  | nil => rfl
  | cons c rest => simp only [count_from, if_neg h, List.drop_succ_cons, List.drop_zero]

theorem count_skip_to (sep l : List Char) : ∀ (d start : Nat),
    (∀ j, start ≤ j → j < start + d → ¬ sep <+: l.drop j) →
    count_from sep 0 (l.drop start) = count_from sep 0 (l.drop (start + d)) := by
  intro d
  induction d with
  | zero => intro start _; rfl
  | succ d ih =>
    intro start h
    rw [count_head_none sep _ (h start (le_refl _) (by omega)), List.drop_drop,
      ih (start + 1) (fun j hj hjd => h j (by omega) (by omega))]
    congr 2
    omega

theorem count_none (sep l : List Char) (start : Nat)
    (h : ∀ j, start ≤ j → ¬ sep <+: l.drop j) : count_from sep 0 (l.drop start) = 0 := by
  rw [count_skip_to sep l l.length start (fun j hj _ => h j hj),
    List.drop_eq_nil_of_le (by omega)]
  rfl

theorem infix_take_drop (sep l : List Char) (a b : Nat)
    (h : sep <:+: (l.drop a).take b) :
    ∃ j, j + sep.length ≤ b ∧ sep <+: l.drop (a + j) := by
  obtain ⟨pre, suf, hps⟩ := h
  refine ⟨pre.length, ?_, ?_⟩
  · have := congrArg List.length hps
    simp only [List.length_append, List.length_take] at this
    omega
  · have h1 : (l.drop a).take b <+: l.drop a := List.take_prefix _ _
    obtain ⟨rest, hrest⟩ := h1
    have h2 : l.drop a = pre ++ (sep ++ (suf ++ rest)) := by
      rw [← hrest, ← hps]
      simp
    have h3 : l.drop (a + pre.length) = sep ++ (suf ++ rest) := by
      rw [← List.drop_drop, h2, List.drop_left]
    rw [h3]
    exact List.prefix_append _ _

theorem infix_drop (sep l : List Char) (a : Nat) (h : sep <:+: l.drop a) :
    ∃ j, sep <+: l.drop (a + j) := by
  obtain ⟨pre, suf, hps⟩ := h
  refine ⟨pre.length, ?_⟩
  have h3 : l.drop (a + pre.length) = sep ++ suf := by
    rw [← List.drop_drop, ← hps]
    simp
  rw [h3]
  exact List.prefix_append _ _

theorem joined_cons (sep piece : List Char) (rest : List (List Char)) (h : rest ≠ []) :
    joined sep (piece :: rest) = piece ++ sep ++ joined sep rest := by
  cases rest with
  | nil => exact absurd rfl h
  | cons next rest => rfl

theorem subString_chars (s : String) (beg len : Nat) (h : beg + len ≤ s.length) :
    ∃ piece, s.subString beg len = some piece ∧
      piece.chars = (s.chars.drop beg).take len := by
  unfold subString
  rw [if_pos h]
  refine ⟨_, rfl, ?_⟩
  obtain ⟨data⟩ := s
  cases data with
  | none => simp [chars]
  | some cs => rfl

theorem sub_mod_uint (a b : Nat) (hb : b ≤ a) (ha : a < uint_range) :
    (a + uint_range - b) % uint_range = a - b := by
  have : a + uint_range - b = (a - b) + uint_range := by omega
  rw [this, Nat.add_mod_right]
  exact Nat.mod_eq_of_lt (by omega)

theorem split_loop_last (s str : String) (start : Nat) (piece : String)
    (hs : s.length < uint_range) (hstart : start ≤ s.length)
    (hfind : s.find str start = Outcome.returns uint_minus_one)
    (hp : s.subString start (s.length - start) = some piece) (arr : List String)
    (fuel : Nat) :
    split_loop s str (fuel + 1) start arr = Outcome.returns (arr ++ [piece]) := by
  conv_lhs => unfold split_loop
  rw [hfind]
  simp only [ne_eq, not_true_eq_false, if_false]
  unfold subString_from
  rw [sub_mod_uint s.length start hstart hs, hp]

theorem split_loop_next (s str : String) (start r : Nat) (piece : String)
    (hpos : 0 < str.length) (hsz : s.length + str.length < uint_range)
    (hr : start ≤ r) (hocc : occurs_at s str r)
    (hfind : s.find str start = Outcome.returns r)
    (hp : s.subString start (r - start) = some piece) (arr : List String) (fuel : Nat) :
    split_loop s str (fuel + 1) start arr =
      split_loop s str fuel (r + str.length) (arr ++ [piece]) := by
  have hrl := hocc.1
  have hne : r ≠ uint_minus_one := by
    have : uint_minus_one + 1 = uint_range := by decide
    omega
  have hmod : (r + str.size) % uint_range = r + str.length := Nat.mod_eq_of_lt (by
    show r + str.length < uint_range
    omega)
  conv_lhs => unfold split_loop
  rw [hfind]
  simp only [ne_eq, hne, not_false_eq_true, if_true]
  rw [sub_mod_uint r start hr (by omega), hp, hmod]

theorem split_loop_spec (s str : String) (hpos : 0 < str.length)
    (hsz : s.length + str.length < uint_range) : ∀ (m start : Nat),
    start ≤ s.length → s.length - start ≤ m →
    ∃ (n : Nat) (pieces : List String),
      (∀ (fuel : Nat) (arr : List String), n ≤ fuel →
        split_loop s str fuel start arr = Outcome.returns (arr ++ pieces)) ∧
      pieces ≠ [] ∧
      joined str.chars (pieces.map chars) = s.chars.drop start ∧
      (∀ p ∈ pieces, ¬ str.chars <:+: p.chars) ∧
      pieces.length = count_from str.chars 0 (s.chars.drop start) + 1 := by
  have hs : s.length < uint_range := by omega
  have hsep : 0 < str.chars.length := hpos
  intro m
  induction m using Nat.strong_induction_on with
  | _ m ih =>
    intro start hstart hm
    obtain ⟨r, hfind, hcase⟩ := find_returns s str start hs (by omega)
    rcases hcase with ⟨hr, hocc, hmin⟩ | ⟨hr, hnone⟩
    · have hrl := hocc.1
      have hpre : str.chars <+: s.chars.drop r := hocc.2
      obtain ⟨n, pieces, hrun, hne, hjoin, hno, hcount⟩ :=
        ih (s.length - (r + str.length)) (by omega) (r + str.length) (by omega)
          (le_refl _)
      obtain ⟨piece, hp, hc⟩ := subString_chars s start (r - start) (by omega)
      refine ⟨n + 1, piece :: pieces, ?_, by simp, ?_, ?_, ?_⟩
      · intro fuel arr hf
        obtain ⟨f, rfl⟩ : ∃ f, fuel = f + 1 := ⟨fuel - 1, by omega⟩
        rw [split_loop_next s str start r piece hpos hsz hr hocc hfind hp arr f,
          hrun f _ (by omega)]
        simp
      · rw [List.map_cons, joined_cons _ _ _ (by simpa using hne), hjoin, hc]
        have h1 : s.chars.drop start =
            (s.chars.drop start).take (r - start) ++ (s.chars.drop start).drop (r - start) :=
          (List.take_append_drop _ _).symm
        have h2 : (s.chars.drop start).drop (r - start) = s.chars.drop r := by
          rw [List.drop_drop]
          congr 1
          omega
        have h3 : s.chars.drop r = str.chars ++ s.chars.drop (r + str.length) := by
          have := List.prefix_iff_eq_append.1 hpre
          rw [List.drop_drop] at this
          exact this.symm
        rw [List.append_assoc, ← h3, ← h2]
        exact h1.symm
      · intro p hpmem
        rcases List.mem_cons.1 hpmem with hpe | hpin
        · subst hpe
          rw [hc]
          intro hin
          obtain ⟨j, hj1, hj2⟩ := infix_take_drop _ _ _ _ hin
          have hjlen : j + str.length ≤ r - start := hj1
          exact hmin (start + j) (by omega) (by omega) ((occurs_at_iff s str _ hpos).2 hj2)
        · exact hno p hpin
      · rw [List.length_cons, hcount]
        have hskip := count_skip_to str.chars s.chars (r - start) start
          (fun j hj hjr hpre1 =>
            hmin j hj (by omega) ((occurs_at_iff s str _ hpos).2 hpre1))
        have hr2 : start + (r - start) = r := by omega
        rw [hr2] at hskip
        rw [hskip, count_head_occurs str.chars _ hsep hpre, List.drop_drop]
        have hlen : str.chars.length = str.length := rfl
        rw [hlen]
        omega
    · subst hr
      obtain ⟨piece, hp, hc⟩ := subString_chars s start (s.length - start) (by omega)
      have hc2 : piece.chars = s.chars.drop start := by
        rw [hc]
        apply List.take_of_length_le
        rw [List.length_drop]
        exact le_refl _
      refine ⟨1, [piece], ?_, by simp, ?_, ?_, ?_⟩
      · intro fuel arr hf
        obtain ⟨f, rfl⟩ : ∃ f, fuel = f + 1 := ⟨fuel - 1, by omega⟩
        exact split_loop_last s str start piece hs hstart hfind hp arr f
      · simp only [List.map_cons, List.map_nil, joined]
        exact hc2
      · intro p hp
        rw [List.mem_singleton] at hp
        subst hp
        rw [hc2]
        intro hin
        obtain ⟨j, hj⟩ := infix_drop _ _ _ hin
        exact hnone (start + j) (by omega) ((occurs_at_iff s str _ hpos).2 hj)
      · rw [count_none str.chars s.chars start
          (fun j hj hpre => hnone j hj ((occurs_at_iff s str _ hpos).2 hpre))]
        rfl

/-- What `split` returns for a separator that is not empty, when the sizes of the string and
of the separator together fit a `uint`: the loop ends, and with enough iterations allowed
`split` returns pieces whose concatenation with the separator in between is the string, none
of which contains the separator, one more than the separator has non-overlapping occurrences
from left to right. -/
theorem split_nonempty_separator (s str : String) (hpos : 0 < str.length)
    (hsz : s.length + str.length < uint_range) :
    ∃ (n : Nat) (pieces : List String),
      (∀ fuel, n ≤ fuel → split fuel s str = Outcome.returns pieces) ∧
      joined str.chars (pieces.map chars) = s.chars ∧
      (∀ p ∈ pieces, ¬ str.chars <:+: p.chars) ∧
      pieces.length = count_occurrences str.chars s.chars + 1 := by
  obtain ⟨n, pieces, hrun, -, hjoin, hno, hcount⟩ :=
    split_loop_spec s str hpos hsz s.length 0 (Nat.zero_le _) (by omega)
  refine ⟨n, pieces, fun fuel hf => ?_, hjoin, hno, hcount⟩
  have := hrun fuel [] hf
  simpa [split] using this

theorem split_example :
    split 4 (make ['a', ',', 'b', ',', ',', 'c']) (make [',']) =
      Outcome.returns [⟨some ['a']⟩, ⟨some ['b']⟩, ⟨some []⟩, ⟨some ['c']⟩] := by
  decide

end n.core.String

end yave
